import Mathlib

/-!
# BOOM: sufficient statistics, Gaussian model and composite model

A shallow embedding of parts of the BOOM statistics library
(`src/Models/GaussianModelBase.cpp`, `src/Models/GaussianModel.cpp`,
`src/Models/CompositeModel.cpp`) together with theorems about them.

Conventions of the embedding.

* A C++ `double` is an element of a number type `K`.  The definitions of the
  sufficient statistics, of `GaussianModel::mle`, of the quantity `SS` of
  `GaussianModel::Loglike` and of `ArPosteriorSampler::draw_sigma` with its
  residual sum of squares are polymorphic in `K` and use only its operations, so they are evaluated both in the machine arithmetic `Double`
  (binary64, every operation rounded to nearest, ties to even) and in an
  ordered field (exact arithmetic: `ℚ` for evaluation, `ℝ` for the analytic
  theorems).  A theorem over an ordered field is a statement about exact
  arithmetic and says so; where the rounding of the machine changes the
  result, a theorem over `Double` shows it.  The other definitions take an
  ordered field `K`.
* Member functions that mutate `*this` return the new object; reference
  parameters that are written (`double &g`, `Vec &g`, `Mat &h`) are returned
  next to the result.
* `Vec` is a list of entries, `Mat` a list of rows.
* Where a function can divide by zero or take the logarithm of zero
  (`GaussianModel::Loglike`), its doubles are elements of `IEEE K`: the
  finite values of `K` together with `+∞`, `−∞` and NaN, combined by the
  IEEE-754 rules for the special values.  Signed zeros and overflow are
  not modelled.
* Functions of `<cmath>` and of the `Bmath` library whose code is not part of
  the embedded files (`log`, `exp`, `sqrt`, `dnorm`) are parameters.
-/

namespace BOOM

/-! ## Linear algebra containers -/

/-- The `Vec` of the linear algebra library: a sequence of numbers. -/
abbrev Vec (α : Type) := List α

/-- The `Mat` of the linear algebra library, stored as its list of rows. -/
abbrev Mat (α : Type) := List (List α)

/-- The assignment `h(i,j) = v`. -/
def Mat.set {α : Type} (h : Mat α) (i j : Nat) (v : α) : Mat α :=
  List.modify (fun row => row.set j v) i h

/-- The entry `h(i,j)`, if the position exists. -/
def Mat.get? {α : Type} (h : Mat α) (i j : Nat) : Option α :=
  (List.get? h i).bind (fun row => List.get? row j)

/-- A `Vec::const_iterator`: the buffer it points into and its position. -/
structure ConstIterator (α : Type) where
  buf : Vec α
  pos : Nat
deriving DecidableEq, Repr

/-- The iterator `v.begin()`. -/
def Vec.begin {α : Type} (v : Vec α) : ConstIterator α := ⟨v, 0⟩

/-- The value `*it`; reading past the end of the buffer is undefined in the
source and gives `none` here. -/
def ConstIterator.deref {α : Type} (it : ConstIterator α) : Option α :=
  List.get? it.buf it.pos

/-- The increment `++it`. -/
def ConstIterator.next {α : Type} (it : ConstIterator α) : ConstIterator α :=
  { it with pos := it.pos + 1 }

/-! ## Doubles with the IEEE special values -/

/-- A double whose special values matter: a finite number, `+∞`, `−∞` or
NaN. -/
inductive IEEE (K : Type) where
  | fin (x : K)
  | posInf
  | negInf
  | nan
deriving DecidableEq, Repr

namespace IEEE

variable {K : Type}

/-- Unary minus. -/
def neg [Neg K] : IEEE K → IEEE K
  | fin a => fin (-a)
  | posInf => negInf
  | negInf => posInf
  | nan => nan

/-- Addition: `∞ + (−∞)` is NaN. -/
def add [Add K] : IEEE K → IEEE K → IEEE K
  | fin a, fin b => fin (a + b)
  | fin _, posInf => posInf
  | fin _, negInf => negInf
  | posInf, fin _ => posInf
  | negInf, fin _ => negInf
  | posInf, posInf => posInf
  | negInf, negInf => negInf
  | posInf, negInf => nan
  | negInf, posInf => nan
  | nan, _ => nan
  | _, nan => nan

/-- The infinity with the sign of `a`, NaN for `a = 0`: the value of `a·∞`
and of `a/0` for finite `a`. -/
def signedInf [Zero K] [LT K] [DecidableEq K] [∀ a b : K, Decidable (a < b)] (a : K) : IEEE K :=
  if a = 0 then nan else if 0 < a then posInf else negInf

/-- Multiplication: `0 · ±∞` is NaN. -/
def mul [Zero K] [Neg K] [Mul K] [LT K] [DecidableEq K] [∀ a b : K, Decidable (a < b)] :
    IEEE K → IEEE K → IEEE K
  | fin a, fin b => fin (a * b)
  | fin a, posInf => signedInf a
  | fin a, negInf => signedInf (-a)
  | posInf, fin b => signedInf b
  | negInf, fin b => signedInf (-b)
  | posInf, posInf => posInf
  | negInf, negInf => posInf
  | posInf, negInf => negInf
  | negInf, posInf => negInf
  | nan, _ => nan
  | _, nan => nan

/-- Division: `a/0` is `±∞` for `a ≠ 0` and NaN for `a = 0`; `∞/∞` is NaN. -/
def div [Zero K] [Div K] [LT K] [LE K] [DecidableEq K] [∀ a b : K, Decidable (a < b)]
    [∀ a b : K, Decidable (a ≤ b)] : IEEE K → IEEE K → IEEE K
  | fin a, fin b => if b = 0 then signedInf a else fin (a / b)
  | fin _, posInf => fin 0
  | fin _, negInf => fin 0
  | posInf, fin b => if 0 ≤ b then posInf else negInf
  | negInf, fin b => if 0 ≤ b then negInf else posInf
  | posInf, posInf => nan
  | negInf, negInf => nan
  | posInf, negInf => nan
  | negInf, posInf => nan
  | nan, _ => nan
  | _, nan => nan

instance [Neg K] : Neg (IEEE K) := ⟨neg⟩
instance [Add K] : Add (IEEE K) := ⟨add⟩
instance [Add K] [Neg K] : Sub (IEEE K) := ⟨fun a b => add a (neg b)⟩
instance [Zero K] [Neg K] [Mul K] [LT K] [DecidableEq K] [∀ a b : K, Decidable (a < b)] :
    Mul (IEEE K) := ⟨mul⟩
instance [Zero K] [Div K] [LT K] [LE K] [DecidableEq K] [∀ a b : K, Decidable (a < b)]
    [∀ a b : K, Decidable (a ≤ b)] : Div (IEEE K) := ⟨div⟩
instance : Coe K (IEEE K) := ⟨fin⟩

/-- The `log` of `<cmath>` on top of a logarithm `log` for positive finite
arguments: `log(0) = −∞`, `log(x) = NaN` for `x < 0`. -/
def log [LinearOrderedField K] (log : K → K) : IEEE K → IEEE K
  | fin a => if a < 0 then nan else if a = 0 then negInf else fin (log a)
  | posInf => posInf
  | negInf => nan
  | nan => nan

/-- The finite value of a double, `0` for the special values. -/
def toFin [Zero K] : IEEE K → K
  | fin a => a
  | _ => 0

end IEEE

/-! ## GaussianSuf (`GaussianModelBase.cpp`) -/

/-- The data type `DoubleData`: one scalar observation. -/
structure DoubleData (K : Type) where
  value : K
deriving DecidableEq, Repr

/-- The sufficient statistic of a Gaussian model: the fields `sum_`, `sumsq_`
and `n_` of `GaussianSuf`. -/
structure GaussianSuf (K : Type) where
  sum_ : K
  sumsq_ : K
  n_ : K
deriving DecidableEq, Repr

namespace GaussianSuf

variable {K : Type}

/-- The default constructor `GaussianSuf()`. -/
def empty [Zero K] : GaussianSuf K := { sum_ := 0, sumsq_ := 0, n_ := 0 }

/-- The method `update_raw(y)`. -/
def update_raw [One K] [Add K] [Mul K] (s : GaussianSuf K) (y : K) : GaussianSuf K :=
  let n_ := s.n_ + 1
  let sum_ := s.sum_ + y
  let sumsq_ := s.sumsq_ + y * y
  { sum_ := sum_, sumsq_ := sumsq_, n_ := n_ }

/-- The method `Update(X)`. -/
def Update [One K] [Add K] [Mul K] (s : GaussianSuf K) (X : DoubleData K) :
    GaussianSuf K :=
  let x := X.value
  s.update_raw x

/-- The method `add_mixture_data(y, prob)`; `prob` is a by-value parameter
that the body overwrites twice. -/
def add_mixture_data [Add K] [Mul K] (s : GaussianSuf K) (y prob : K) : GaussianSuf K :=
  let n_ := s.n_ + prob
  let prob := prob * y
  let sum_ := s.sum_ + prob
  let prob := prob * y
  let sumsq_ := s.sumsq_ + prob
  { sum_ := sum_, sumsq_ := sumsq_, n_ := n_ }

/-- The accessor `sum()`. -/
def sum (s : GaussianSuf K) : K := s.sum_

/-- The accessor `sumsq()`. -/
def sumsq (s : GaussianSuf K) : K := s.sumsq_

/-- The accessor `n()`. -/
def n (s : GaussianSuf K) : K := s.n_

/-- The method `ybar()`. -/
def ybar [Zero K] [Div K] [LT K] [∀ a b : K, Decidable (a < b)] (s : GaussianSuf K) : K :=
  if s.n_ > 0 then s.sum / s.n else 0

/-- The method `sample_var()`; `pow(ybar(), 2)` is the power `^ 2` of the
number type. -/
def sample_var [Zero K] [One K] [Sub K] [Mul K] [Div K] [Pow K Nat] [LT K] [LE K]
    [∀ a b : K, Decidable (a < b)] [∀ a b : K, Decidable (a ≤ b)] (s : GaussianSuf K) : K :=
  if s.n_ ≤ 1 then 0
  else
    let ss := s.sumsq - s.n * s.ybar ^ 2
    ss / (s.n_ - 1)

/-- The method `clear()`. -/
def clear [Zero K] (_s : GaussianSuf K) : GaussianSuf K := { sum_ := 0, sumsq_ := 0, n_ := 0 }

/-- The overload `combine(const GaussianSuf & rhs)`. -/
def combine [Add K] (s rhs : GaussianSuf K) : GaussianSuf K :=
  let n_ := s.n_ + rhs.n_
  let sum_ := s.sum_ + rhs.sum_
  let sumsq_ := s.sumsq_ + rhs.sumsq_
  { sum_ := sum_, sumsq_ := sumsq_, n_ := n_ }

/-- The overload `combine(Ptr<GaussianSuf> s)`: the argument is reached
through a non-const pointer, so both objects are returned, `*this` first. -/
def combinePtr [Add K] (self s : GaussianSuf K) : GaussianSuf K × GaussianSuf K :=
  let n_ := self.n_ + s.n_
  let sum_ := self.sum_ + s.sum_
  let sumsq_ := self.sumsq_ + s.sumsq_
  ({ sum_ := sum_, sumsq_ := sumsq_, n_ := n_ }, s)

/-- The method `vectorize(bool)`; the flag is unnamed and unused. -/
def vectorize [Zero K] (s : GaussianSuf K) (_minimal : Bool) : Vec K :=
  let ans : Vec K := List.replicate 3 0
  let ans := ans.set 0 s.n_
  let ans := ans.set 1 s.sum_
  let ans := ans.set 2 s.sumsq_
  ans

/-- The overload `unvectorize(Vec::const_iterator &v, bool)`: three reads,
each followed by `++v`.  Returns the new object and the advanced iterator
(which is both the updated reference argument and the return value). -/
def unvectorize (s : GaussianSuf K) (v : ConstIterator K) (_minimal : Bool) :
    Option (GaussianSuf K × ConstIterator K) := do
  let n_ ← v.deref
  let v := v.next
  let sum_ ← v.deref
  let v := v.next
  let sumsq_ ← v.deref
  let v := v.next
  pure ({ s with sum_ := sum_, sumsq_ := sumsq_, n_ := n_ }, v)

/-- The overload `unvectorize(const Vec &v, bool minimal)`. -/
def unvectorizeVec (s : GaussianSuf K) (v : Vec K) (minimal : Bool) :
    Option (GaussianSuf K × ConstIterator K) :=
  let it := Vec.begin v
  s.unvectorize it minimal

/-- The statistic after `update_raw` has been called on every element of
`ys`, in order. -/
def update_raw_all [One K] [Add K] [Mul K] (s : GaussianSuf K) (ys : List K) :
    GaussianSuf K :=
  ys.foldl update_raw s

end GaussianSuf

/-! ## GaussianModelBase (`GaussianModelBase.cpp`) -/

/-- The abstract class `GaussianModelBase`: its data policy holds the
sufficient statistic; `mu()`, `sigsq()` and `sigma()` are virtual, and the
fields record what they return. -/
structure GaussianModelBase (K : Type) where
  mu : K
  sigsq : K
  sigma : K
  suf : GaussianSuf K
deriving DecidableEq, Repr

namespace GaussianModelBase

variable {K : Type} [LinearOrderedField K]

/-- The scalar overload `Logp(double x, double &g, double &h, uint nd)`;
returns `(ans, g, h)`.  `dnorm x mu sigma logscale` is the normal density of
the `Bmath` library. -/
def Logp (dnorm : K → K → K → Bool → K) (self : GaussianModelBase K)
    (x : K) (g h : K) (nd : Nat) : K × K × K :=
  let m := self.mu
  let ans := dnorm x m self.sigma true
  let g := if nd > 0 then -(x - m) / self.sigsq else g
  let h := if nd > 1 then -1 / self.sigsq else h
  (ans, g, h)

/-- The vector overload `Logp(const Vec &x, Vec &g, Mat &h, uint nd)`;
returns `(ans, g, h)`.  Reading `x[0]` of an empty `x` is undefined in the
source and gives `none` here. -/
def LogpVec (dnorm : K → K → K → Bool → K) (self : GaussianModelBase K)
    (x : Vec K) (g : Vec K) (h : Mat K) (nd : Nat) : Option (K × Vec K × Mat K) := do
  let X ← List.get? x 0
  let G : K := 0
  let H : K := 0
  let (ans, G, H) := self.Logp dnorm X G H nd
  let g := if nd > 0 then g.set 0 G else g
  let h := if nd > 1 then h.set 0 0 H else h
  pure (ans, g, h)

/-- Modelled from the spec: `DiffDoubleModel::logp(double x)`, declared in
`DoubleModel.hpp` with its body outside the embedded files; the log density
at `x`, obtained from `Logp` with no derivatives requested. -/
def logp (dnorm : K → K → K → Bool → K) (self : GaussianModelBase K) (x : K) : K :=
  (self.Logp dnorm x 0 0 0).1

/-- The method `pdf(Ptr<Data> dp, bool logscale)`; the datum is a
`DoubleData`. -/
def pdf (dnorm : K → K → K → Bool → K) (exp : K → K) (self : GaussianModelBase K)
    (dp : DoubleData K) (logscale : Bool) : K :=
  let ans := self.logp dnorm dp.value
  if logscale then ans else exp ans

/-- The method `ybar()`. -/
def ybar (self : GaussianModelBase K) : K := self.suf.ybar

/-- The method `sample_var()`. -/
def sample_var (self : GaussianModelBase K) : K := self.suf.sample_var

/-- The method `add_mixture_data(Ptr<Data> dp, double prob)`. -/
def add_mixture_data (self : GaussianModelBase K) (dp : DoubleData K) (prob : K) :
    GaussianModelBase K :=
  let y := dp.value
  { self with suf := self.suf.add_mixture_data y prob }

end GaussianModelBase

/-- The log of the normal density `N(x | mu, sigsq)` as the specification
writes it, `−½·log(2π·sigsq) − (x − mu)²/(2·sigsq)`, over a logarithm `log`
and a value `twoPi` of the constant `2π`. -/
def logNormalDensity {K : Type} [LinearOrderedField K] (log : K → K) (twoPi : K)
    (x mu sigsq : K) : K :=
  -(1 / 2) * log (twoPi * sigsq) - (x - mu) ^ 2 / (2 * sigsq)

/-! ## GaussianModel (`GaussianModel.cpp`) -/

/-- The class `GaussianModel`: the two parameters of its parameter policy
and the sufficient statistic of its data policy. -/
structure GaussianModel (K : Type) where
  Mu_prm : K
  Sigsq_prm : K
  suf : GaussianSuf K
deriving DecidableEq, Repr

namespace GaussianModel

variable {K : Type}

/-- The default constructor `GaussianModel()`. -/
def default [Zero K] [One K] : GaussianModel K :=
  { Mu_prm := 0, Sigsq_prm := 1, suf := GaussianSuf.empty }

/-- The accessor `mu()`. -/
def mu (self : GaussianModel K) : K := self.Mu_prm

/-- The accessor `sigsq()`. -/
def sigsq (self : GaussianModel K) : K := self.Sigsq_prm

/-- The accessor `sigma()`. -/
def sigma (sqrt : K → K) (self : GaussianModel K) : K := sqrt self.sigsq

/-- The `GaussianModelBase` sub-object of a `GaussianModel`. -/
def toBase (sqrt : K → K) (self : GaussianModel K) : GaussianModelBase K :=
  { mu := self.mu, sigsq := self.sigsq, sigma := self.sigma sqrt, suf := self.suf }

/-- The inherited method `ybar()`. -/
def ybar [Zero K] [Div K] [LT K] [∀ a b : K, Decidable (a < b)] (self : GaussianModel K) : K :=
  self.suf.ybar

/-- The inherited method `sample_var()`. -/
def sample_var [Zero K] [One K] [Sub K] [Mul K] [Div K] [Pow K Nat] [LT K] [LE K]
    [∀ a b : K, Decidable (a < b)] [∀ a b : K, Decidable (a ≤ b)] (self : GaussianModel K) : K :=
  self.suf.sample_var

/-- The digits of the literal in `const double log2pi = 1.8378770664093453`,
the double nearest to `log(2π)`. -/
def log2piLiteral [LinearOrderedField K] : K := 18378770664093453 / 10 ^ 16

/-- The local variable `SS` of `Loglike`:
`sumsq + (-2*sum + n*mu)*mu`. -/
def SS [Zero K] [Neg K] [Add K] [Mul K] [NatCast K] [LT K] [DecidableEq K]
    [∀ a b : K, Decidable (a < b)] (self : GaussianModel K) : IEEE K :=
  let mu : IEEE K := IEEE.fin self.mu
  let n : IEEE K := IEEE.fin self.suf.n
  let sumsq : IEEE K := IEEE.fin self.suf.sumsq
  let sum : IEEE K := IEEE.fin self.suf.sum
  sumsq + (IEEE.fin (-2) * sum + n * mu) * mu

/-- The method `Loglike(Vec &g, Mat &h, uint nd)`; returns `(ans, g, h)`.
The arithmetic is that of `IEEE K`, on the finite parameters and statistics
of the model.  `log` is the logarithm of `<cmath>` on positive arguments and
`log2pi` the value of the local constant of that name, which the source
writes as the double literal `log2piLiteral`. -/
def Loglike [LinearOrderedField K] (log : K → K) (log2pi : K) (self : GaussianModel K)
    (g : Vec (IEEE K)) (h : Mat (IEEE K)) (nd : Nat) :
    IEEE K × Vec (IEEE K) × Mat (IEEE K) :=
  let sigsq : IEEE K := IEEE.fin self.sigsq
  if self.sigsq < 0 then (IEEE.negInf, g, h)
  else
    let mu : IEEE K := IEEE.fin self.mu
    let log2pi : IEEE K := IEEE.fin log2pi
    let n : IEEE K := IEEE.fin self.suf.n
    let sum : IEEE K := IEEE.fin self.suf.sum
    let SS := self.SS
    let ans := IEEE.fin (-0.5) * (n * (log2pi + IEEE.log log sigsq) + SS / sigsq)
    if nd > 0 then
      let sigsq_sq := sigsq * sigsq
      let g := g.set 0 ((sum - n * mu) / sigsq)
      let g := g.set 1 (IEEE.fin (-0.5) * n / sigsq + IEEE.fin 0.5 * SS / sigsq_sq)
      if nd > 1 then
        let h := h.set 0 0 (n / sigsq)
        let h := h.set 0 1 (-(sum - n * mu) / sigsq_sq)
        let h := h.set 1 0 (-(sum - n * mu) / sigsq_sq)
        let h := h.set 1 1 ((n / IEEE.fin 2 - SS / sigsq) / sigsq_sq)
        (ans, g, h)
      else (ans, g, h)
    else (ans, g, h)

end GaussianModel

/-! ## CompositeModel (`CompositeModel.cpp`) -/

/-- The part of the abstract class `MixtureComponent` that `CompositeModel`
uses: the virtual `pdf(Ptr<Data>, bool logscale)` and the data the
component has received through `add_data`.  `D` is the type of its data,
`α` the type of its densities. -/
structure MixtureComponent (D α : Type) where
  pdf : D → Bool → α
  dat : List D

/-- The data type `CompositeData`: a vector of component data. -/
structure CompositeData (D : Type) where
  dat_ : List D
deriving DecidableEq, Repr

/-- The method `dim()`. -/
def CompositeData.dim {D : Type} (d : CompositeData D) : Nat := d.dat_.length

/-- The method `get(i)`. -/
def CompositeData.get {D : Type} (d : CompositeData D) (i : Nat) : Option D :=
  List.get? d.dat_ i

/-- The class `CompositeModel`: the sub-models `m_` and the data set of its
data policy. -/
structure CompositeModel (D α : Type) where
  m_ : List (MixtureComponent D α)
  dat : List (CompositeData D)

namespace CompositeModel

variable {D α : Type}

/-- The method `pdf(Ptr<CompositeData> dp, bool logscale)`.  A failing
`assert` gives `none`; the loop runs `i` from `0` to `n - 1` and reads
`m_[i]` and `dp->get(i)`. -/
def pdf [Zero α] [Add α] (exp : α → α) (self : CompositeModel D α)
    (dp : CompositeData D) (logscale : Bool) : Option α := do
  let n := dp.dim
  if n ≠ self.m_.length then none
  else
    let ans ← (List.range n).foldlM
      (fun (ans : α) (i : Nat) => do
        let mi ← List.get? self.m_ i
        let di ← dp.get i
        pure (ans + mi.pdf di true))
      (0 : α)
    pure (if logscale then ans else exp ans)

end CompositeModel

/-- A Gaussian model seen as the `MixtureComponent` it derives from: its
`pdf` and the data it holds. -/
def GaussianModelBase.toMixtureComponent {K : Type} [LinearOrderedField K]
    (dnorm : K → K → K → Bool → K) (exp : K → K) (self : GaussianModelBase K)
    (dat : List (DoubleData K)) : MixtureComponent (DoubleData K) K :=
  { pdf := self.pdf dnorm exp, dat := dat }

/-! ## Errors -/

/-- The ways a call can end other than by returning: a failing `assert`, an
exception thrown with `throw_exception<std::runtime_error>`, and a call of
`report_error`. -/
inductive Thrown where
  | assertion
  | runtime_error
  | report_error
deriving DecidableEq, Repr

/-- The end of a call that changes objects of type `σ`: it returns, leaving
them in state `s`, or it raises an error, and then `s` is the state they are
in when the error is raised. -/
inductive Outcome (σ : Type) where
  | returned (s : σ)
  | raised (e : Thrown) (s : σ)
deriving DecidableEq, Repr

/-- The state of the objects at the end of the call. -/
def Outcome.state {σ : Type} : Outcome σ → σ
  | returned s => s
  | raised _ s => s

/-- The error raised by the call, if any. -/
def Outcome.error {σ : Type} : Outcome σ → Option Thrown
  | returned _ => none
  | raised e _ => some e

/-! ## CompositeModel.add_data (`CompositeModel.cpp`) -/

/-- The virtual `add_data(Ptr<Data>)` of a sub-model; its effect on the
component is recorded in the list of the data it has received. -/
def MixtureComponent.add_data {D α : Type} (m : MixtureComponent D α) (d : D) :
    MixtureComponent D α :=
  { m with dat := m.dat ++ [d] }

namespace CompositeModel

variable {D α : Type}

/-- The call `DataPolicy::add_data(dp)` of the data policy of
`CompositeModel`: the datum is appended to the data set of the model. -/
def DataPolicy_add_data (self : CompositeModel D α) (dp : CompositeData D) :
    CompositeModel D α :=
  { self with dat := self.dat ++ [dp] }

/-- The overload `add_data(Ptr<CompositeData> dp)`.  The loop runs `i` from
`0` to `n - 1` and calls `m_[i]->add_data(dp->get(i))`; past the `assert`
both reads are within bounds. -/
def add_data (self : CompositeModel D α) (dp : CompositeData D) :
    Outcome (CompositeModel D α) :=
  let self := self.DataPolicy_add_data dp
  let n := dp.dim
  if n ≠ self.m_.length then Outcome.raised Thrown.assertion self
  else
    let m_ := (List.range n).foldl
      (fun (m_ : List (MixtureComponent D α)) (i : Nat) =>
        match dp.get i with
        | some di => List.modify (fun mi => mi.add_data di) i m_
        | none => m_)
      self.m_
    Outcome.returned { self with m_ := m_ }

end CompositeModel

/-! ## MarkovConjSampler (`MarkovConjSampler.cpp`) -/

/-- The number of rows of a matrix. -/
def Mat.nrow {α : Type} (m : Mat α) : Nat := m.length

/-- The number of columns of a matrix: the length of its first row. -/
def Mat.ncol {α : Type} (m : Mat α) : Nat := (m.head?.map List.length).getD 0

/-- The test `A.same_dim(B)`. -/
def Mat.same_dim {α : Type} (A B : Mat α) : Bool :=
  A.nrow == B.nrow && A.ncol == B.ncol

/-- The row `m.row(s)`; a row that does not exist is undefined in the source
and is the empty vector here. -/
def Mat.row {α : Type} (m : Mat α) (s : Nat) : Vec α := m.getD s []

/-- The assignment `m.row(s) = v`. -/
def Mat.set_row {α : Type} (m : Mat α) (s : Nat) (v : Vec α) : Mat α := List.set m s v

/-- The sum `a + b` of two vectors. -/
def Vec.add {α : Type} [Add α] (a b : Vec α) : Vec α := List.zipWith (· + ·) a b

/-- The sufficient statistic of a Markov model, as far as the sampler reads
it: the transition counts `trans()` and the initial counts `init()`. -/
structure MarkovSuf (K : Type) where
  trans : Mat K
  init : Vec K
deriving DecidableEq, Repr

/-- The `MarkovModel`, as far as the sampler uses it: the transition matrix
`Q()`, the initial distribution `pi0()`, the flag `pi0_fixed()` and the
sufficient statistic `suf()`. -/
structure MarkovModel (K : Type) where
  Q : Mat K
  pi0 : Vec K
  pi0_fixed : Bool
  suf : MarkovSuf K
deriving DecidableEq, Repr

namespace MarkovModel

variable {K : Type}

/-- The method `set_Q(Q)`. -/
def set_Q (self : MarkovModel K) (Q : Mat K) : MarkovModel K := { self with Q := Q }

/-- The method `set_pi0(pi0)`. -/
def set_pi0 (self : MarkovModel K) (pi0 : Vec K) : MarkovModel K := { self with pi0 := pi0 }

/-- Modelled from the spec: `MarkovModel::free_pi0()`, whose body is outside
the embedded files; it makes the initial distribution a free parameter, so
that `pi0_fixed()` is false afterwards. -/
def free_pi0 (self : MarkovModel K) : MarkovModel K := { self with pi0_fixed := false }

end MarkovModel

/-- The class `MarkovConjSampler`: the model `mod_` it points to, the matrix
`Nu` of its prior `Q_` for the transition matrix, the vector `nu` of its
prior `pi0_` for the initial distribution (`none` for a null pointer), its
own random number generator and its work space `wsp`. -/
structure MarkovConjSampler (K ρ : Type) where
  mod_ : MarkovModel K
  Q_ : Mat K
  pi0_ : Option (Vec K)
  rng : ρ
  wsp : Vec K

namespace MarkovConjSampler

variable {K ρ : Type}

/-- The constructors that take a prior for `pi0`: they call
`mod_->free_pi0()`. -/
def mk_with_pi0 (Mod : MarkovModel K) (Nu : Mat K) (nu : Vec K) (rng : ρ) :
    MarkovConjSampler K ρ :=
  { mod_ := Mod.free_pi0, Q_ := Nu, pi0_ := some nu, rng := rng, wsp := [] }

/-- The constructors that take no prior for `pi0`: `pi0_` stays null. -/
def mk_without_pi0 (Mod : MarkovModel K) (Nu : Mat K) (rng : ρ) : MarkovConjSampler K ρ :=
  { mod_ := Mod, Q_ := Nu, pi0_ := none, rng := rng, wsp := [] }

/-- The method `Nu()`. -/
def Nu (self : MarkovConjSampler K ρ) : Mat K := self.Q_

/-- The method `check_pi0()`. -/
def check_pi0 (self : MarkovConjSampler K ρ) : Except Thrown Unit :=
  if self.pi0_.isSome then Except.ok ()
  else Except.error Thrown.runtime_error

/-- The method `check_nu()`. -/
def check_nu (self : MarkovConjSampler K ρ) : Except Thrown Unit :=
  if self.pi0_.isSome then Except.ok ()
  else Except.error Thrown.runtime_error

/-- The method `nu()`. -/
def nu (self : MarkovConjSampler K ρ) : Except Thrown (Vec K) :=
  match self.check_nu with
  | Except.error e => Except.error e
  | Except.ok _ =>
    match self.pi0_ with
    | some v => Except.ok v
    | none => Except.error Thrown.runtime_error

/-- The method `logpri()`; `ddirichlet x nu logscale` is the Dirichlet
density of the distributions library. -/
def logpri [Zero K] [Add K] (ddirichlet : Vec K → Vec K → Bool → K)
    (self : MarkovConjSampler K ρ) : Except Thrown K :=
  let Nu := self.Nu
  let Q := self.mod_.Q
  if ¬ Nu.same_dim Q then Except.error Thrown.assertion
  else
    let S := Nu.nrow
    let ans := (List.range S).foldl
      (fun (ans : K) (s : Nat) => ans + ddirichlet (Q.row s) (Nu.row s) true) (0 : K)
    if self.mod_.pi0_fixed then Except.ok ans
    else
      match self.check_pi0 with
      | Except.error e => Except.error e
      | Except.ok _ =>
        match self.nu with
        | Except.error e => Except.error e
        | Except.ok nu => Except.ok (ans + ddirichlet self.mod_.pi0 nu true)

/-- The method `draw()`; `rdirichlet_mt rng wsp` is the Dirichlet draw of the
distributions library, which returns the draw and the new state of the
generator. -/
def draw [Add K] (rdirichlet_mt : ρ → Vec K → Vec K × ρ) (self : MarkovConjSampler K ρ) :
    Outcome (MarkovConjSampler K ρ) :=
  let Nu := self.Nu
  let Q := self.mod_.Q
  let N := self.mod_.suf.trans
  if ¬ Nu.same_dim Q then Outcome.raised Thrown.assertion self
  else
    let S := Nu.nrow
    let st := (List.range S).foldl
      (fun (st : Mat K × Vec K × ρ) (s : Nat) =>
        let wsp := Vec.add (Nu.row s) (N.row s)
        let r := rdirichlet_mt st.2.2 wsp
        (st.1.set_row s r.1, wsp, r.2))
      (Q, self.wsp, self.rng)
    let self := { self with mod_ := self.mod_.set_Q st.1, wsp := st.2.1, rng := st.2.2 }
    if self.mod_.pi0_fixed then Outcome.returned self
    else
      match self.check_pi0 with
      | Except.error e => Outcome.raised e self
      | Except.ok _ =>
        match self.nu with
        | Except.error e => Outcome.raised e self
        | Except.ok nu =>
          let wsp := Vec.add nu self.mod_.suf.init
          let self := { self with wsp := wsp }
          let r := rdirichlet_mt self.rng wsp
          Outcome.returned { self with mod_ := self.mod_.set_pi0 r.1, rng := r.2 }

/-- The method `find_posterior_mode()`; `mdirichlet wsp` is the mode of the
Dirichlet distribution with parameter `wsp`. -/
def find_posterior_mode [Add K] (mdirichlet : Vec K → Vec K) (self : MarkovConjSampler K ρ) :
    Outcome (MarkovConjSampler K ρ) :=
  let Nu := self.Nu
  let Q := self.mod_.Q
  let N := self.mod_.suf.trans
  if ¬ Nu.same_dim Q then Outcome.raised Thrown.assertion self
  else
    let S := Nu.nrow
    let st := (List.range S).foldl
      (fun (st : Mat K × Vec K) (s : Nat) =>
        let wsp := Vec.add (Nu.row s) (N.row s)
        (st.1.set_row s (mdirichlet wsp), wsp))
      (Q, self.wsp)
    let self := { self with mod_ := self.mod_.set_Q st.1, wsp := st.2 }
    if self.mod_.pi0_fixed then Outcome.returned self
    else
      match self.check_pi0 with
      | Except.error e => Outcome.raised e self
      | Except.ok _ =>
        match self.nu with
        | Except.error e => Outcome.raised e self
        | Except.ok nu =>
          let wsp := Vec.add nu self.mod_.suf.init
          let self := { self with wsp := wsp }
          Outcome.returned { self with mod_ := self.mod_.set_pi0 (mdirichlet wsp) }

/-- The value, before round `s`, of the part of a loop state that is
updated by `next` in every round. -/
def loop_state {A : Type} (next : A → Nat → A) (a0 : A) : Nat → A
  | 0 => a0
  | s + 1 => next (loop_state next a0 s) s

/-- The state of the generator of `draw()` before the draw of row `s`. -/
def rng_before [Add K] (rdirichlet_mt : ρ → Vec K → Vec K × ρ) (Nu N : Mat K) (rng : ρ) :
    Nat → ρ
  | 0 => rng
  | s + 1 =>
    (rdirichlet_mt (rng_before rdirichlet_mt Nu N rng s) (Vec.add (Nu.row s) (N.row s))).2

end MarkovConjSampler

/-! ## Comparisons of `IEEE` -/

namespace IEEE

variable {K : Type}

instance [Zero K] : Zero (IEEE K) := ⟨fin 0⟩
instance [One K] : One (IEEE K) := ⟨fin 1⟩

/-- The comparison `a < b` of doubles; false when an argument is NaN. -/
def lt [LT K] [∀ a b : K, Decidable (a < b)] : IEEE K → IEEE K → Bool
  | fin a, fin b => decide (a < b)
  | fin _, posInf => true
  | negInf, fin _ => true
  | negInf, posInf => true
  | _, _ => false

/-- The comparison `a <= b` of doubles; false when an argument is NaN. -/
def le [LE K] [∀ a b : K, Decidable (a ≤ b)] : IEEE K → IEEE K → Bool
  | fin a, fin b => decide (a ≤ b)
  | fin _, posInf => true
  | negInf, fin _ => true
  | negInf, posInf => true
  | negInf, negInf => true
  | posInf, posInf => true
  | _, _ => false

/-- The comparison `a == b` of doubles; false when an argument is NaN. -/
def beq [DecidableEq K] : IEEE K → IEEE K → Bool
  | fin a, fin b => decide (a = b)
  | negInf, negInf => true
  | posInf, posInf => true
  | _, _ => false

/-- The test `finite(a)`, also `R_FINITE(a)`. -/
def finite : IEEE K → Bool
  | fin _ => true
  | _ => false

/-- The test `ISNAN(a)`. -/
def isnan : IEEE K → Bool
  | nan => true
  | _ => false

end IEEE

/-! ## Operations of the linear algebra library -/

/-- The inner product `a.dot(b)`. -/
def Vec.dot {α : Type} [Zero α] [Add α] [Mul α] (a b : Vec α) : α :=
  (List.zipWith (· * ·) a b).sum

/-- The squared norm `v.normsq()`. -/
def Vec.normsq {α : Type} [Zero α] [Add α] [Mul α] (v : Vec α) : α := Vec.dot v v

/-- The product `c * v` of a number and a vector. -/
def Vec.smul {α : Type} [Mul α] (c : α) (v : Vec α) : Vec α := v.map (c * ·)

/-- The sum `A + B` of two matrices. -/
def Mat.add {α : Type} [Add α] (A B : Mat α) : Mat α := List.zipWith Vec.add A B

/-- The product `A * v` of a matrix and a vector. -/
def Mat.mulVec {α : Type} [Zero α] [Add α] [Mul α] (A : Mat α) (v : Vec α) : Vec α :=
  A.map (fun row => Vec.dot row v)

/-- The quotient `A / c` of a matrix and a number. -/
def Mat.divScalar {α : Type} [Div α] (A : Mat α) (c : α) : Mat α :=
  A.map (fun row => row.map (· / c))

/-- The diagonal `A.diag()`. -/
def Mat.diag {α : Type} (A : Mat α) : Vec α :=
  A.enum.filterMap (fun p => List.get? p.2 p.1)

/-- The entry `A(i,j)` read as a number; an entry that does not exist is
undefined in the source and is `0` here. -/
def Mat.entry {α : Type} [Zero α] (A : Mat α) (i j : Nat) : α := (A.getD i []).getD j 0

/-- The column `A.col(j)`. -/
def Mat.col {α : Type} [Zero α] (A : Mat α) (j : Nat) : Vec α := A.map (fun row => row.getD j 0)

/-- The outer product `x xᵗ` scaled by `w`. -/
def Vec.outer {α : Type} [Mul α] (w : α) (x : Vec α) : Mat α :=
  x.map (fun xi => x.map (fun xj => w * xi * xj))

/-- The square matrix of zeros of dimension `p`. -/
def Mat.zero {α : Type} [Zero α] (p : Nat) : Mat α := List.replicate p (List.replicate p 0)

/-! ## Selector -/

/-- Modelled from the spec: the `Selector` of the linear algebra library
(`LinAlg/Selector.hpp`, outside the embedded files), a fixed-length vector of
"is-included" flags over the candidate predictors. -/
abbrev Selector := List Bool

namespace Selector

/-- The method `nvars_possible()`: the number of candidate predictors. -/
def nvars_possible (g : Selector) : Nat := g.length

/-- The method `nvars()`: the number of included predictors. -/
def nvars (g : Selector) : Nat := g.count true

/-- The method `flip(I)`: position `I` changes between included and
excluded. -/
def flip (g : Selector) (I : Nat) : Selector := List.modify (fun b => !b) I g

/-- The method `select(v)` on a vector: the entries of the included
positions, in index order. -/
def select {α : Type} (g : Selector) (v : Vec α) : Vec α :=
  ((g.zip v).filter (fun p => p.1)).map (fun p => p.2)

/-- The method `select(A)` on a square matrix: the rows and columns of the
included positions, in index order. -/
def select_mat {α : Type} (g : Selector) (A : Mat α) : Mat α :=
  (g.select A).map (fun row => g.select row)

end Selector

/-! ## Random numbers -/

/-- The functions of the distributions library (`distributions.hpp`, outside
the embedded files) that the samplers call, in their `_mt` form: each takes
the generator it draws from and returns its value with the new state of the
generator.  `α` is the type of doubles, `ρ` the type of generator states. -/
structure Distributions (α ρ : Type) where
  runif_mt : ρ → α → α → α × ρ
  plogis : α → α → α
  qlogis : α → α → α
  draw_lambda_mt : ρ → α → α × ρ
  rmvn_suf_mt : ρ → Mat α → Vec α → Vec α × ρ
  rmvn_ivar_mt : ρ → Vec α → Mat α → Vec α × ρ
  rtrun_norm_2_mt : ρ → α → α → α → α → α × ρ
  random_shuffle : ρ → List Nat → List Nat × ρ

namespace Distributions

variable {α ρ : Type}

/-- The function `runif(a, b)` without generator argument: like every
function of the library that has an `_mt` form, it draws from the global
generator `BOOM::GlobalRng::rng` (as `rnchisq` does in `rnchisq.cpp`). -/
def runif (D : Distributions α ρ) (GlobalRng_rng : ρ) (a b : α) : α × ρ :=
  D.runif_mt GlobalRng_rng a b

/-- The function `rmvn_suf(ivar, ivar_mu)` without generator argument; it
draws from the global generator. -/
def rmvn_suf (D : Distributions α ρ) (GlobalRng_rng : ρ) (ivar : Mat α) (ivar_mu : Vec α) :
    Vec α × ρ :=
  D.rmvn_suf_mt GlobalRng_rng ivar ivar_mu

/-- The function `rmvn_ivar(mu, ivar)` without generator argument; it draws
from the global generator. -/
def rmvn_ivar (D : Distributions α ρ) (GlobalRng_rng : ρ) (mu : Vec α) (ivar : Mat α) :
    Vec α × ρ :=
  D.rmvn_ivar_mt GlobalRng_rng mu ivar

end Distributions

/-! ## rnchisq (`rnchisq.cpp`) -/

namespace Rmath

variable {K ρ : Type} [LinearOrderedField K]

/-- The function `rnchisq_mt(rng, df, lambda)`; `rgamma_mt`, `rpois_mt` and
`rchisq_mt` are the draws of the library it calls. -/
def rnchisq_mt (rgamma_mt : ρ → IEEE K → IEEE K → IEEE K × ρ)
    (rpois_mt : ρ → IEEE K → IEEE K × ρ) (rchisq_mt : ρ → IEEE K → IEEE K × ρ)
    (rng : ρ) (df lambda : IEEE K) : IEEE K × ρ :=
  if !df.finite || !lambda.finite || df.lt (IEEE.fin 0) || lambda.lt (IEEE.fin 0) then
    (IEEE.nan, rng)
  else if lambda.beq (IEEE.fin 0) then
    if df.beq (IEEE.fin 0) then (IEEE.nan, rng)
    else rgamma_mt rng (df / IEEE.fin 2) (IEEE.fin 2)
  else
    let r := rpois_mt rng (lambda / IEEE.fin 2)
    let r := if (IEEE.fin 0).lt r.1 then rchisq_mt r.2 (IEEE.fin 2 * r.1) else r
    if (IEEE.fin 0).lt df then
      let r2 := rgamma_mt r.2 (df / IEEE.fin 2) (IEEE.fin 2)
      (r.1 + r2.1, r2.2)
    else r

/-- The function `rnchisq(df, lambda)`: the `_mt` function on the global
generator `BOOM::GlobalRng::rng`. -/
def rnchisq (rgamma_mt : ρ → IEEE K → IEEE K → IEEE K × ρ)
    (rpois_mt : ρ → IEEE K → IEEE K × ρ) (rchisq_mt : ρ → IEEE K → IEEE K × ρ)
    (GlobalRng_rng : ρ) (df lambda : IEEE K) : IEEE K × ρ :=
  rnchisq_mt rgamma_mt rpois_mt rchisq_mt GlobalRng_rng df lambda

end Rmath

/-! ## LogitSampler (`LogitSampler.cpp`) -/

/-- The data type `BinaryRegressionData`: the predictors `x()` and the
outcome `y()`. -/
structure BinaryRegressionData (α : Type) where
  x : Vec α
  y : Bool
deriving DecidableEq, Repr

/-- The `LogisticRegressionModel`, as far as the samplers use it: the
coefficients `beta()`, the inclusion vector `inc()`, the offset
`log_alpha()` and the data `dat()`. -/
structure LogisticRegressionModel (α : Type) where
  beta : Vec α
  inc : Selector
  log_alpha : α
  dat : List (BinaryRegressionData α)
deriving DecidableEq, Repr

namespace LogisticRegressionModel

variable {α : Type}

/-- The method `set_beta(b)`. -/
def set_beta (self : LogisticRegressionModel α) (b : Vec α) : LogisticRegressionModel α :=
  { self with beta := b }

/-- The call `coef().set_inc(inc)`. -/
def set_inc (self : LogisticRegressionModel α) (inc : Selector) : LogisticRegressionModel α :=
  { self with inc := inc }

/-- The method `xdim()`: the number of candidate predictors. -/
def xdim (self : LogisticRegressionModel α) : Nat := self.inc.nvars_possible

end LogisticRegressionModel

/-- The prior `MvnBase`, as far as the samplers use it: the mean `mu()` and
the precision `siginv()`. -/
structure MvnBase (α : Type) where
  mu : Vec α
  siginv : Mat α
deriving DecidableEq, Repr

/-- The method `dim()` of the prior. -/
def MvnBase.dim {α : Type} (self : MvnBase α) : Nat := self.mu.length

/-- Modelled from the spec: the `WeightedRegSuf` of
`WeightedRegressionModel.hpp` (outside the embedded files), the
weighted-regression sufficient statistic, a weighted least-squares
normal-equations accumulator with `xtx() = XᵗWX` and `xty() = XᵗWz`. -/
structure WeightedRegSuf (α : Type) where
  xtx : Mat α
  xty : Vec α
deriving DecidableEq, Repr

namespace WeightedRegSuf

variable {α : Type}

/-- Modelled from the spec: the constructor `WeightedRegSuf(p)` and the
method `clear()`: all sums are zero. -/
def clear [Zero α] (self : WeightedRegSuf α) : WeightedRegSuf α :=
  { xtx := Mat.zero self.xty.length, xty := List.replicate self.xty.length 0 }

/-- Modelled from the spec: the method `add_data(x, z, w)`: `w·x·xᵗ` is
added to `xtx` and `w·z·x` to `xty`. -/
def add_data [Add α] [Mul α] (self : WeightedRegSuf α) (x : Vec α) (z w : α) :
    WeightedRegSuf α :=
  { xtx := Mat.add self.xtx (Vec.outer w x), xty := Vec.add self.xty (Vec.smul (w * z) x) }

end WeightedRegSuf

/-- The class `LogitSampler`: the model `mod_` it points to, the prior
`pri_`, the sufficient statistic `suf_`, the work space `ivar`, `ivar_mu`
and the random number generator it owns as a `PosteriorSampler`. -/
structure LogitSampler (α ρ : Type) where
  mod_ : LogisticRegressionModel α
  pri_ : MvnBase α
  suf_ : WeightedRegSuf α
  ivar : Mat α
  ivar_mu : Vec α
  rng : ρ

namespace LogitSampler

variable {α ρ : Type}

/-- The method `PosteriorSampler::set_seed(s)`; `seed s` is the state of a
generator seeded with `s`. -/
def set_seed (seed : Nat → ρ) (self : LogitSampler α ρ) (s : Nat) : LogitSampler α ρ :=
  { self with rng := seed s }

/-- The method `draw_z(y, eta)`.  The two calls of `runif` draw from the
global generator, whose new state is returned with the value. -/
def draw_z [Zero α] [One α] (D : Distributions α ρ) (_self : LogitSampler α ρ)
    (GlobalRng_rng : ρ) (y : Bool) (eta : α) : α × ρ :=
  let trun_prob := D.plogis 0 eta
  let u := if y then D.runif GlobalRng_rng trun_prob 1 else D.runif GlobalRng_rng 0 trun_prob
  (D.qlogis u.1 eta, u.2)

/-- The method `draw_lambda(r)`: it draws from the generator of the
sampler, whose new state is returned in the sampler. -/
def draw_lambda (D : Distributions α ρ) (self : LogitSampler α ρ) (r : α) :
    α × LogitSampler α ρ :=
  let l := D.draw_lambda_mt self.rng r
  (l.1, { self with rng := l.2 })

/-- The method `impute_latent_data()`; `predict` is the method of that name
of the model and `fabs` the absolute value of `<cmath>`.  Returns the
sampler and the new state of the global generator. -/
def impute_latent_data [Zero α] [One α] [Add α] [Sub α] [Mul α] [Div α]
    (D : Distributions α ρ) (predict : LogisticRegressionModel α → Vec α → α)
    (fabs : α → α) (self : LogitSampler α ρ) (GlobalRng_rng : ρ) : LogitSampler α ρ × ρ :=
  let log_alpha := self.mod_.log_alpha
  let dat := self.mod_.dat
  let self := { self with suf_ := self.suf_.clear }
  dat.foldl
    (fun (st : LogitSampler α ρ × ρ) (dp : BinaryRegressionData α) =>
      let x := dp.x
      let eta := predict st.1.mod_ x + log_alpha
      let z := st.1.draw_z D st.2 dp.y eta
      let lam := st.1.draw_lambda D (fabs (z.1 - eta))
      ({ lam.2 with suf_ := lam.2.suf_.add_data x z.1 (1 / lam.1) }, z.2))
    (self, GlobalRng_rng)

/-- The method `draw_beta()`.  The call of `rmvn_suf` draws from the global
generator. -/
def draw_beta [Zero α] [Add α] [Mul α] (D : Distributions α ρ) (self : LogitSampler α ρ)
    (GlobalRng_rng : ρ) : LogitSampler α ρ × ρ :=
  let ivar := Mat.add self.pri_.siginv self.suf_.xtx
  let ivar_mu := Vec.add (Mat.mulVec self.pri_.siginv self.pri_.mu) self.suf_.xty
  let r := D.rmvn_suf GlobalRng_rng ivar ivar_mu
  let ivar_mu := r.1
  ({ self with ivar := ivar, ivar_mu := ivar_mu, mod_ := self.mod_.set_beta ivar_mu }, r.2)

/-- The method `draw()`. -/
def draw [Zero α] [One α] [Add α] [Sub α] [Mul α] [Div α]
    (D : Distributions α ρ) (predict : LogisticRegressionModel α → Vec α → α)
    (fabs : α → α) (self : LogitSampler α ρ) (GlobalRng_rng : ρ) : LogitSampler α ρ × ρ :=
  let st := self.impute_latent_data D predict fabs GlobalRng_rng
  st.1.draw_beta D st.2

end LogitSampler

/-- Modelled from the spec: `plogis(x, location)`, the logistic
distribution function with the given location, `1/(1 + exp(−(x − location)))`,
over an exponential `exp`. -/
def plogis_spec {K : Type} [LinearOrderedField K] (exp : K → K) : IEEE K → IEEE K → IEEE K
  | IEEE.fin x, IEEE.fin m => IEEE.fin (1 / (1 + exp (-(x - m))))
  | _, _ => IEEE.nan

/-- Modelled from the spec: `qlogis(u, location)`, the quantile function of
the logistic distribution with the given location,
`location + log(u/(1 − u))` for `0 < u < 1`, `−∞` at `u = 0`, `+∞` at
`u = 1`, over a logarithm `log`. -/
def qlogis_spec {K : Type} [LinearOrderedField K] (log : K → K) : IEEE K → IEEE K → IEEE K
  | IEEE.fin u, IEEE.fin m =>
    if u = 0 then IEEE.negInf
    else if u = 1 then IEEE.posInf
    else if 0 < u ∧ u < 1 then IEEE.fin (m + log (u / (1 - u)))
    else IEEE.nan
  | _, _ => IEEE.nan

/-! ## LogitSamplerBma (`LogitSamplerBma.cpp`) -/

/-- The prior `VariableSelectionPrior`, as far as the sampler uses it: its
log probability `logp(g)` of a selector. -/
structure VariableSelectionPrior (K : Type) where
  logp : Selector → IEEE K

/-- The operations of the linear algebra library that `log_model_prob`
calls and whose code is outside the embedded files: `logdet()` of a
symmetric matrix, the Cholesky factorisation `chol(ok)` with its success
flag, and the triangular solve `Lsolve_inplace(L, S)`. -/
structure LinAlg (K : Type) where
  logdet : Mat K → IEEE K
  chol : Mat K → Mat K × Bool
  Lsolve : Mat K → Vec K → Vec K

/-- The function `seq<uint>(lo, hi)` of `cpputil/seq.hpp`, outside the
embedded files: the integers from `lo` to `hi`. -/
def seq (lo hi : Nat) : List Nat := List.range' lo (hi + 1 - lo)

/-- Modelled from the spec: `logit_inv(x)` of `stats/logit.hpp`, outside the
embedded files: the inverse of the logit, `1/(1 + exp(−x))`, over an
exponential `exp`; `0` at `−∞` and `1` at `+∞`. -/
def logit_inv_spec {K : Type} [LinearOrderedField K] (exp : K → K) : IEEE K → IEEE K
  | IEEE.fin x => IEEE.fin (1 / (1 + exp (-x)))
  | IEEE.negInf => IEEE.fin 0
  | IEEE.posInf => IEEE.fin 1
  | IEEE.nan => IEEE.nan

/-- The class `LogitSamplerBma`: a `LogitSampler` with the prior `vs_` on
the inclusion vector and the limit `max_nflips_`.  Its members `Ominv` and
`iV_tilde_` are work space, assigned before they are read in every method,
and are local values here. -/
structure LogitSamplerBma (K ρ : Type) extends LogitSampler K ρ where
  vs_ : VariableSelectionPrior K
  max_nflips_ : Nat

namespace LogitSamplerBma

variable {K ρ : Type} [LinearOrderedField K]

/-- The constructor: `max_nflips_` starts at `mod_->xdim()`. -/
def mk_sampler (mod : LogisticRegressionModel K) (pri : MvnBase K)
    (vs : VariableSelectionPrior K) (rng : ρ) : LogitSamplerBma K ρ :=
  { mod_ := mod, pri_ := pri,
    suf_ := { xtx := Mat.zero pri.dim, xty := List.replicate pri.dim 0 },
    ivar := [], ivar_mu := [], rng := rng, vs_ := vs, max_nflips_ := mod.xdim }

/-- The method `limit_model_selection(n)`. -/
def limit_model_selection (self : LogitSamplerBma K ρ) (n : Nat) : LogitSamplerBma K ρ :=
  { self with max_nflips_ := n }

/-- The static function `keep_flip(logp_old, logp_new)`; `logit_inv` is the
function of that name of `stats/logit.hpp`.  The call `runif(0,1)` draws
from the global generator, whose new state is returned with the answer. -/
def keep_flip (D : Distributions K ρ) (logit_inv : IEEE K → IEEE K) (GlobalRng_rng : ρ)
    (logp_old logp_new : IEEE K) : Bool × ρ :=
  if !logp_new.finite then (false, GlobalRng_rng)
  else
    let pflip := logit_inv (logp_new - logp_old)
    let u := D.runif GlobalRng_rng 0 1
    (if (IEEE.fin u.1).lt pflip then true else false, u.2)

/-- The method `log_model_prob(g)`; `log` is the logarithm of `<cmath>` on
positive arguments. -/
def log_model_prob (LA : LinAlg K) (log : K → K) (self : LogitSamplerBma K ρ)
    (g : Selector) : IEEE K :=
  let num := self.vs_.logp g
  if num.beq IEEE.negInf then num
  else
    let Ominv := g.select_mat self.pri_.siginv
    let num := num + IEEE.fin 0.5 * LA.logdet Ominv
    if num.beq IEEE.negInf then num
    else
      let mu := g.select self.pri_.mu
      let Ominv_mu := Mat.mulVec Ominv mu
      let num := num - IEEE.fin 0.5 * IEEE.fin (Vec.dot mu Ominv_mu)
      let iV_tilde_ := Mat.add Ominv (g.select_mat self.suf_.xtx)
      let L := LA.chol iV_tilde_
      if !L.2 then IEEE.negInf
      else
        let denom := (L.1.diag.map (fun d => IEEE.log log (IEEE.fin d))).foldl (· + ·)
          (IEEE.fin 0)
        let S := Vec.add (g.select self.suf_.xty) Ominv_mu
        let S := LA.Lsolve L.1 S
        let denom := denom - IEEE.fin 0.5 * IEEE.fin (Vec.normsq S)
        num - denom

/-- The body of the loop of `draw_gamma()` for the position `I`: the state
is the selector `inc`, the local `logp` and the global generator. -/
def draw_gamma_step (D : Distributions K ρ) (logit_inv : IEEE K → IEEE K) (LA : LinAlg K)
    (log : K → K) (self : LogitSamplerBma K ρ) (st : Selector × IEEE K × ρ) (I : Nat) :
    Selector × IEEE K × ρ :=
  let inc := st.1.flip I
  let logp_new := self.log_model_prob LA log inc
  let k := keep_flip D logit_inv st.2.2 st.2.1 logp_new
  if k.1 then (inc, logp_new, k.2)
  else (inc.flip I, st.2.1, k.2)

/-- The method `draw_gamma()`.  The numbers `nv`, `hi` and the entries of
`flips` are of type `uint`, so `nv - 1` is taken modulo `2^32`;
`std::random_shuffle` and `runif` draw from global generators, whose state
is passed in and returned; `flips[i]` is within bounds for `i < hi`. -/
def draw_gamma (D : Distributions K ρ) (logit_inv : IEEE K → IEEE K) (LA : LinAlg K)
    (log : K → K) (self : LogitSamplerBma K ρ) (GlobalRng_rng : ρ) :
    Outcome (LogitSamplerBma K ρ × ρ) :=
  if self.max_nflips_ = 0 then Outcome.returned (self, GlobalRng_rng)
  else
    let inc := self.mod_.inc
    let nv := inc.nvars_possible
    let logp := self.log_model_prob LA log inc
    if !logp.finite then Outcome.raised Thrown.runtime_error (self, GlobalRng_rng)
    else
      let flips := seq 0 ((nv + 2 ^ 32 - 1) % 2 ^ 32)
      let flips := D.random_shuffle GlobalRng_rng flips
      let hi := min nv self.max_nflips_
      let st := (List.range hi).foldl
        (fun (st : Selector × IEEE K × ρ) (i : Nat) =>
          let I := flips.1.getD i 0
          self.draw_gamma_step D logit_inv LA log st I)
        (inc, logp, flips.2)
      Outcome.returned ({ self with mod_ := self.mod_.set_inc st.1 }, st.2.2)

end LogitSamplerBma

/-! ## dgamma (`dgamma.cpp`) -/

namespace Rmath

variable {K : Type} [LinearOrderedField K]

/-- Modelled from the spec: the macro `R_D__0` of `dpq.hpp`, outside the
embedded files: the value of a density outside the support, `−∞` when the
log of the density is asked for and `0` otherwise. -/
def R_D__0 (give_log : Int) : IEEE K :=
  if give_log ≠ 0 then IEEE.negInf else IEEE.fin 0

/-- The function `dgamma(x, shape, scale, give_log)`, in the form compiled
without `D_non_pois`.  `IEEE_754` tells whether the macro of that name is
defined, `ML_ERR_return_NAN` returns NaN, `dpois_raw` is the function of that
name of the library and `log` the logarithm of `<cmath>` on positive
arguments. -/
def dgamma (IEEE_754 : Bool) (dpois_raw : IEEE K → IEEE K → Int → IEEE K) (log : K → K)
    (x shape scale : IEEE K) (give_log : Int) : IEEE K :=
  if IEEE_754 && (x.isnan || shape.isnan || scale.isnan) then x + shape + scale
  else if shape.le (IEEE.fin 0) || scale.le (IEEE.fin 0) then IEEE.nan
  else if x.lt (IEEE.fin 0) then R_D__0 give_log
  else if x.beq (IEEE.fin 0) then
    if shape.lt (IEEE.fin 1) then IEEE.posInf
    else if (IEEE.fin 1).lt shape then R_D__0 give_log
    else if give_log ≠ 0 then -(IEEE.log log scale) else IEEE.fin 1 / scale
  else if shape.lt (IEEE.fin 1) then
    let pr := dpois_raw shape (x / scale) give_log
    if give_log ≠ 0 then pr + IEEE.log log (shape / x) else pr * shape / x
  else
    let pr := dpois_raw (shape - IEEE.fin 1) (x / scale) give_log
    if give_log ≠ 0 then pr - IEEE.log log scale else pr / scale

end Rmath

/-! ## ArPosteriorSampler (`ArPosteriorSampler.cpp`) -/

/-- The sufficient statistic of an `ArModel`, as far as the sampler reads
it: `xtx()`, `xty()`, `yty()` and `n()`. -/
structure ArSuf (K : Type) where
  xtx : Mat K
  xty : Vec K
  yty : K
  n : K
deriving DecidableEq, Repr

/-- The `ArModel`, as far as the sampler uses it: the coefficients `phi()`,
the variance `sigsq()` and the sufficient statistic `suf()`. -/
structure ArModel (K : Type) where
  phi : Vec K
  sigsq : K
  suf : ArSuf K
deriving DecidableEq, Repr

/-- The method `set_phi(phi)`. -/
def ArModel.set_phi {K : Type} (self : ArModel K) (phi : Vec K) : ArModel K :=
  { self with phi := phi }

/-- The prior `GammaModelBase`, as far as the sampler uses it: `alpha()` and
`beta()`. -/
structure GammaModelBase (K : Type) where
  alpha : K
  beta : K
deriving DecidableEq, Repr

/-- The class `ArPosteriorSampler`: the model `model_` it points to, the
prior `siginv_prior_`, the two tuning constants and the random number
generator it owns as a `PosteriorSampler`. -/
structure ArPosteriorSampler (K ρ : Type) where
  model_ : ArModel K
  siginv_prior_ : GammaModelBase K
  max_number_of_regression_proposals_ : Int
  upper_sigma_truncation_point_ : IEEE K
  rng : ρ

namespace ArPosteriorSampler

variable {K ρ : Type} [LinearOrderedField K]

/-- The constructor `ArPosteriorSampler(model, siginv_prior)`. -/
def mk_sampler (model : ArModel K) (siginv_prior : GammaModelBase K) (rng : ρ) :
    ArPosteriorSampler K ρ :=
  { model_ := model, siginv_prior_ := siginv_prior,
    max_number_of_regression_proposals_ := 3,
    upper_sigma_truncation_point_ := IEEE.posInf, rng := rng }

/-- The method `set_max_number_of_regression_proposals(number_of_proposals)`;
negative values are accepted. -/
def set_max_number_of_regression_proposals (self : ArPosteriorSampler K ρ)
    (number_of_proposals : Int) : ArPosteriorSampler K ρ :=
  { self with max_number_of_regression_proposals_ := number_of_proposals }

/-- The inner loop `while (!ok)` of `draw_phi_univariate()` for the
coefficient `i`, run for at most `fuel` rounds; `none` when the fuel is used
up.  The state is `phi`, the bounds `lo` and `hi` and the generator of the
sampler. -/
def draw_phi_univariate_while (D : Distributions K ρ) (check_stationary : Vec K → Bool)
    (sqrt : K → K) (i : Nat) (initial_phi mu ivar : K) :
    Nat → Vec K → K → K → ρ → Option (Vec K × ρ)
  | 0, _, _, _, _ => none
  | fuel + 1, phi, lo, hi, rng =>
    let c := D.rtrun_norm_2_mt rng mu (sqrt (1 / ivar)) lo hi
    let candidate := c.1
    let phi := phi.set i candidate
    if check_stationary phi then some (phi, c.2)
    else if candidate > initial_phi then
      draw_phi_univariate_while D check_stationary sqrt i initial_phi mu ivar fuel phi lo
        candidate c.2
    else
      draw_phi_univariate_while D check_stationary sqrt i initial_phi mu ivar fuel phi
        candidate hi c.2

/-- The method `draw_phi_univariate()`; every inner loop runs for at most
`fuel` rounds and the result is `none` when one of them uses up its fuel.
`check_stationary` is `ArModel::check_stationary` and `sqrt` the square root
of `<cmath>`. -/
def draw_phi_univariate (D : Distributions K ρ) (check_stationary : Vec K → Bool)
    (sqrt : K → K) (fuel : Nat) (self : ArPosteriorSampler K ρ) :
    Option (Outcome (ArPosteriorSampler K ρ)) :=
  let p := self.model_.phi.length
  let phi := self.model_.phi
  if !check_stationary phi then some (Outcome.raised Thrown.report_error self)
  else
    let xtx := self.model_.suf.xtx
    let xty := self.model_.suf.xty
    let r := (List.range p).foldlM
      (fun (st : Vec K × ρ) (i : Nat) =>
        let phi := st.1
        let initial_phi := phi.getD i 0
        let lo : K := -1
        let hi : K := 1
        let ivar := xtx.entry i i
        let mu := (xty.getD i 0 - (Vec.dot phi (xtx.col i) - phi.getD i 0 * xtx.entry i i))
          / ivar
        draw_phi_univariate_while D check_stationary sqrt i initial_phi mu ivar fuel phi lo hi
          st.2)
      (phi, self.rng)
    match r with
    | none => none
    | some st =>
      some (Outcome.returned { self with model_ := self.model_.set_phi st.1, rng := st.2 })

/-- The loop `while (!ok && ++attempts <= max_number_of_regression_proposals_)`
of `draw_phi()`: the state is `ok`, `attempts`, the model and the global
generator, from which `rmvn_ivar` draws. -/
def draw_phi_while (D : Distributions K ρ) (check_stationary : Vec K → Bool)
    (max_number_of_regression_proposals_ : Int) (phi_hat : Vec K)
    (ok : Bool) (attempts : Int) (model : ArModel K) (GlobalRng_rng : ρ) :
    Bool × Int × ArModel K × ρ :=
  if ok then (ok, attempts, model, GlobalRng_rng)
  else
    let attempts := attempts + 1
    if attempts ≤ max_number_of_regression_proposals_ then
      let r := D.rmvn_ivar GlobalRng_rng phi_hat (Mat.divScalar model.suf.xtx model.sigsq)
      let phi := r.1
      let ok := check_stationary phi
      let model := if ok then model.set_phi phi else model
      draw_phi_while D check_stationary max_number_of_regression_proposals_ phi_hat ok attempts
        model r.2
    else (ok, attempts, model, GlobalRng_rng)
termination_by (max_number_of_regression_proposals_ + 1 - attempts).toNat
decreasing_by omega

/-- The method `draw_phi()`; `solve` is the method `xtx.solve(xty)` of the
linear algebra library and `fuel` bounds the inner loops of
`draw_phi_univariate()`.  Returns the sampler and the global generator. -/
def draw_phi (D : Distributions K ρ) (check_stationary : Vec K → Bool) (sqrt : K → K)
    (solve : Mat K → Vec K → Vec K) (fuel : Nat) (self : ArPosteriorSampler K ρ)
    (GlobalRng_rng : ρ) : Option (Outcome (ArPosteriorSampler K ρ × ρ)) :=
  let xtx := self.model_.suf.xtx
  let xty := self.model_.suf.xty
  let phi_hat := solve xtx xty
  let w := draw_phi_while D check_stationary self.max_number_of_regression_proposals_ phi_hat
    false 0 self.model_ GlobalRng_rng
  let self := { self with model_ := w.2.2.1 }
  if !w.1 then
    match draw_phi_univariate D check_stationary sqrt fuel self with
    | none => none
    | some (Outcome.returned s) => some (Outcome.returned (s, w.2.2.2))
    | some (Outcome.raised e s) => some (Outcome.raised e (s, w.2.2.2))
  else some (Outcome.returned (self, w.2.2.2))

/-- The state of the global generator before the joint proposal number `k`
(counted from `0`) of `draw_phi()`. -/
def global_before (D : Distributions K ρ) (phi_hat : Vec K) (ivar : Mat K) (g : ρ) : Nat → ρ
  | 0 => g
  | k + 1 => (D.rmvn_ivar_mt (global_before D phi_hat ivar g k) phi_hat ivar).2

/-- The joint proposal number `k` (counted from `0`) of `draw_phi()`. -/
def proposal (D : Distributions K ρ) (phi_hat : Vec K) (ivar : Mat K) (g : ρ) (k : Nat) :
    Vec K :=
  (D.rmvn_ivar_mt (global_before D phi_hat ivar g k) phi_hat ivar).1

end ArPosteriorSampler

/-- The outcome of a call, with the state mapped by `f`. -/
def Outcome.map {σ τ : Type} (f : σ → τ) : Outcome σ → Outcome τ
  | Outcome.returned s => Outcome.returned (f s)
  | Outcome.raised e s => Outcome.raised e (f s)

/-! ## The latent data of a sweep of LogitSampler -/

namespace LogitSampler

variable {α ρ : Type}

/-- The latent data that one call of `impute_latent_data()` passes to
`suf_->add_data`: for every observation of `dat`, in order, the triple
`(x, z, lam)` of its predictors, the `z` drawn for
`eta = predict(x) + log_alpha` and the `lam` drawn from `fabs(z - eta)`.
`g` is the state of the global generator and `r` the state of the generator
of the sampler before the first of these observations. -/
def latent_data [Zero α] [One α] [Add α] [Sub α] (D : Distributions α ρ)
    (predict : LogisticRegressionModel α → Vec α → α) (fabs : α → α)
    (self : LogitSampler α ρ) : List (BinaryRegressionData α) → ρ → ρ → List (Vec α × α × α)
  | [], _, _ => []
  | dp :: rest, g, r =>
    let eta := predict self.mod_ dp.x + self.mod_.log_alpha
    let z := self.draw_z D g dp.y eta
    let lam := D.draw_lambda_mt r (fabs (z.1 - eta))
    (dp.x, z.1, lam.1) :: latent_data D predict fabs self rest z.2 lam.2

end LogitSampler

namespace LogitSamplerBma

variable {K ρ : Type} [LinearOrderedField K]

/-- The method `draw_beta_given_gamma()`.  The call of `rmvn_suf` draws from
the global generator. -/
def draw_beta_given_gamma (D : Distributions K ρ) (self : LogitSamplerBma K ρ)
    (GlobalRng_rng : ρ) : LogitSamplerBma K ρ × ρ :=
  let inc := self.mod_.inc
  let Ominv := inc.select_mat self.pri_.siginv
  let ivar := Mat.add Ominv (inc.select_mat self.suf_.xtx)
  let b := Vec.add (inc.select self.suf_.xty) (Mat.mulVec Ominv (inc.select self.pri_.mu))
  let r := D.rmvn_suf GlobalRng_rng ivar b
  let b := r.1
  ({ self with mod_ := self.mod_.set_beta b }, r.2)

end LogitSamplerBma

/-! ## ArPosteriorSampler::draw_sigma -/

namespace ArPosteriorSampler

variable {K ρ : Type}

/-- The method `set_sigma_upper_limit(max_sigma)`. -/
def set_sigma_upper_limit [Zero K] [LE K] [∀ a b : K, Decidable (a ≤ b)]
    (self : ArPosteriorSampler K ρ) (max_sigma : IEEE K) :
    Outcome (ArPosteriorSampler K ρ) :=
  if max_sigma.le (IEEE.fin 0) then Outcome.raised Thrown.report_error self
  else Outcome.returned { self with upper_sigma_truncation_point_ := max_sigma }

end ArPosteriorSampler

/-! ## NormalMixtureApproximationTable (`NormalMixtureApproximation.cpp`) -/

/-- The call `std::lower_bound(v.begin(), v.end(), x) - v.begin()` on a
sorted vector `v`: the first position whose element is not less than `x`, the
length of `v` when there is none. -/
def lower_bound (v : List Int) (x : Int) : Nat := (v.takeWhile (fun e => decide (e < x))).length

/-- The call `v.insert(v.begin() + position, x)` for a position within
`v`. -/
def vector_insert {α : Type} (v : List α) (position : Nat) (x : α) : List α :=
  v.take position ++ x :: v.drop position

/-- The function `linear_combination(a, x, b, y)` of the linear algebra
library: `a·x + b·y`. -/
def linear_combination {α : Type} [Add α] [Mul α] (a : α) (x : Vec α) (b : α) (y : Vec α) :
    Vec α :=
  Vec.add (Vec.smul a x) (Vec.smul b y)

/-- The class `NormalMixtureApproximation`, as far as the table uses it, over
a type `A` of its objects: the accessors `dim()`, `mu()`, `sigma()` and
`weights()`, the constructor `mk3` from `(mu, sigma, weights)`, the
constructor `mk_target` from `(target, initial_mu, initial_sigma,
initial_weights, precision, max_evals, initial_stepsize)` and the method
`kullback_leibler(target)`, which returns the divergence and stores it in the
object.  The target `NegLogGamma(nu)` is given by `nu`.  The two
constructors and `kullback_leibler` call `check_sizes()`, which can raise,
and the optimisers and the integrator of `numopt`, whose code is outside the
embedded files; they are parameters, with the error they raise if any. -/
structure NormalMixtureApproximationMethods (K A : Type) where
  dim : A → Nat
  mu : A → Vec K
  sigma : A → Vec K
  weights : A → Vec K
  mk3 : Vec K → Vec K → Vec K → Except Thrown A
  mk_target : Int → Vec K → Vec K → Vec K → K → Int → K → Except Thrown A
  kullback_leibler : A → Int → Except Thrown (K × A)

/-- The class `NormalMixtureApproximationTable`: the vector `index_` and the
vector `approximations_`. -/
structure NormalMixtureApproximationTable (A : Type) where
  index_ : List Int
  approximations_ : List A

namespace NormalMixtureApproximationTable

variable {K A : Type} [LinearOrderedField K]

/-- The method `add(index, approximation)`.  An insertion into
`approximations_` behind its end is undefined in the source and is `none`. -/
def add (self : NormalMixtureApproximationTable A) (index : Int) (approximation : A) :
    Option (NormalMixtureApproximationTable A) :=
  if self.index_.isEmpty || decide (index > self.index_.getLast?.getD 0) then
    some { index_ := self.index_ ++ [index],
           approximations_ := self.approximations_ ++ [approximation] }
  else
    let position := lower_bound self.index_ index
    if position ≤ self.approximations_.length then
      some { index_ := vector_insert self.index_ position index,
             approximations_ := vector_insert self.approximations_ position approximation }
    else none

/-- The method `smallest_index()`; undefined (`none`) on an empty table. -/
def smallest_index (self : NormalMixtureApproximationTable A) : Option Int := self.index_[0]?

/-- The method `largest_index()`; undefined (`none`) on an empty table. -/
def largest_index (self : NormalMixtureApproximationTable A) : Option Int :=
  self.index_.getLast?

/-- The part of `approximate(nu)` between its equality check and its call of
`add`: the approximation for `nu` that is built from the table entries at
`position - 1` and `position` and is then passed to `add(nu, ·)` (each of the
three branches of the source ends with `add(nu, ·); return
this->approximate(nu)`).  `log` and `sqrt` are the functions of `<cmath>`.  A
read outside `index_` or `approximations_` is undefined in the source and is
`none`; the differences of `int`s are taken without overflow. -/
def new_approximation (M : NormalMixtureApproximationMethods K A) (log sqrt : K → K)
    (self : NormalMixtureApproximationTable A) (nu : Int) (position : Nat) :
    Option (Except Thrown A) :=
  if position = 0 then none
  else
    match self.index_[position - 1]?, self.approximations_[position - 1]?,
        self.index_[position]?, self.approximations_[position]? with
    | some nu0, some approximation_0, some nu1, some approximation_1 =>
      let weight : K := ((nu - nu0 : Int) : K) / (1.0 * ((nu1 - nu0 : Int) : K))
      let precision : K := 1e-6
      let max_evals : Int := 20000
      let stepsize : K := 0.5 / sqrt (nu : K)
      if M.dim approximation_0 = M.dim approximation_1 then
        let mu := linear_combination (1 - weight) (M.mu approximation_0) weight
          (M.mu approximation_1)
        let sigma := linear_combination (1 - weight) (M.sigma approximation_0) weight
          (M.sigma approximation_1)
        let weights := linear_combination (1 - weight) (M.weights approximation_0) weight
          (M.weights approximation_1)
        match M.mk3 mu sigma weights with
        | Except.error e => some (Except.error e)
        | Except.ok approximation =>
          match M.kullback_leibler approximation nu with
          | Except.error e => some (Except.error e)
          | Except.ok (kl, approximation) =>
            if kl < 1e-5 then some (Except.ok approximation)
            else
              let number_of_components := M.dim approximation_0
              let mu := mu.map (fun _ => -log (nu : K))
              let sigma := sigma.map (fun _ => sqrt (1.0 / (nu : K)))
              let weights := weights.map (fun _ => 1.0 / (number_of_components : K))
              some (M.mk_target nu mu sigma weights precision max_evals stepsize)
      else
        let number_of_components := M.dim approximation_0
        let mu := List.replicate number_of_components (-log (nu : K))
        let sigma := List.replicate number_of_components (1.0 / sqrt (nu : K))
        let weights := List.replicate number_of_components
          (1.0 / (number_of_components : K))
        some (M.mk_target nu mu sigma weights precision max_evals stepsize)
    | _, _, _, _ => none

/-- The method `approximate(nu)`, for at most `fuel` nested calls of itself;
`none` when the fuel is used up or when the source reads outside a vector
(`*lower_bound` at the end of `index_`, or an entry at `position - 1` for
`position = 0`).  Returns the approximation the returned reference points to
and the table. -/
def approximate (M : NormalMixtureApproximationMethods K A) (log sqrt : K → K) :
    Nat → NormalMixtureApproximationTable A → Int →
      Option (Except Thrown (A × NormalMixtureApproximationTable A))
  | 0, _, _ => none
  | fuel + 1, self, nu =>
    let position := lower_bound self.index_ nu
    match self.index_[position]? with
    | none => none
    | some v =>
      if v = nu then
        match self.approximations_[position]? with
        | some a => some (Except.ok (a, self))
        | none => none
      else
        match new_approximation M log sqrt self nu position with
        | none => none
        | some (Except.error e) => some (Except.error e)
        | some (Except.ok approximation) =>
          match self.add nu approximation with
          | none => none
          | some t => approximate M log sqrt fuel t nu

end NormalMixtureApproximationTable

/-! ## The loop of LogitSamplerBma::draw_gamma -/

namespace LogitSamplerBma

variable {K ρ : Type} [LinearOrderedField K]

/-- The vector `flips` of `draw_gamma()` after `std::random_shuffle`, with
the state of the global generator after the shuffle. -/
def draw_gamma_flips (D : Distributions K ρ) (self : LogitSamplerBma K ρ) (GlobalRng_rng : ρ) :
    List Nat × ρ :=
  D.random_shuffle GlobalRng_rng (seq 0 ((self.mod_.inc.nvars_possible + 2 ^ 32 - 1) % 2 ^ 32))

/-- The state of the loop of `draw_gamma()` at the head of round `i`: the
selector `inc`, the local `logp` and the global generator. -/
def draw_gamma_state (D : Distributions K ρ) (logit_inv : IEEE K → IEEE K) (LA : LinAlg K)
    (log : K → K) (self : LogitSamplerBma K ρ) (GlobalRng_rng : ρ) (i : Nat) :
    Selector × IEEE K × ρ :=
  (List.range i).foldl
    (fun (st : Selector × IEEE K × ρ) (i : Nat) =>
      self.draw_gamma_step D logit_inv LA log st
        ((draw_gamma_flips D self GlobalRng_rng).1.getD i 0))
    (self.mod_.inc, self.log_model_prob LA log self.mod_.inc,
      (draw_gamma_flips D self GlobalRng_rng).2)

end LogitSamplerBma

/-! ## PoissonGammaPosteriorSampler (`PoissonGammaPosteriorSampler.cpp`) -/

/-- The methods of `PoissonGammaModel` that the sampler calls, over a type
`M` of the states of the model; the code of the class is outside the embedded
files. -/
structure PoissonGammaModelMethods (K M : Type) where
  prior_mean : M → K
  prior_sample_size : M → K
  set_b : M → K → M
  set_prior_mean_and_sample_size : M → K → K → M
  loglike : M → K → K → K

/-- A `DoubleModel` (`DoubleModel.hpp`), as far as the sampler uses it: the
method `logp(x)`. -/
structure DoubleModel (K : Type) where
  logp : K → K

/-- A function object
`boost::bind(&PoissonGammaPosteriorSampler::logp, this, ..)`: the pointer
`this` and the value of one argument of `logp` are stored in the object when
it is made; the other argument is the placeholder `_1`. -/
inductive BoundLogp (K : Type) where
  | first_free (prior_sample_size : K)
  | second_free (prior_mean : K)
deriving DecidableEq, Repr

/-- A `ScalarSliceSampler`, as far as the sampler uses it: the target `logf`
it was made with and the rest `state` of the object (its limits, its flag
`unimodal` and its generator), of a type `S`. -/
structure ScalarSliceSampler (K S : Type) where
  logf : BoundLogp K
  state : S

/-- The methods of `ScalarSliceSampler`, whose code is outside the embedded
files: `init unimodal` is the state the constructor gives an object,
`set_lower_limit` the method of that name and `draw f state x` the method
`draw(x)` of an object with target `f`, which returns the draw and the new
state. -/
structure ScalarSliceSamplerMethods (K S : Type) where
  init : Bool → S
  set_lower_limit : S → K → S
  draw : (K → K) → S → K → K × S

/-- The class `PoissonGammaPosteriorSampler`: the model `model_` it points
to, the two priors and the two slice samplers. -/
structure PoissonGammaPosteriorSampler (K M S : Type) where
  model_ : M
  prior_mean_prior_distribution_ : DoubleModel K
  prior_sample_size_prior_distribution_ : DoubleModel K
  prior_mean_sampler_ : ScalarSliceSampler K S
  prior_sample_size_sampler_ : ScalarSliceSampler K S

namespace PoissonGammaPosteriorSampler

variable {K M S : Type}

/-- The method `logp(prior_mean, prior_sample_size)`. -/
def logp [Add K] [Mul K] (PM : PoissonGammaModelMethods K M)
    (self : PoissonGammaPosteriorSampler K M S) (prior_mean prior_sample_size : K) : K :=
  let ans := self.prior_mean_prior_distribution_.logp prior_mean
  let ans := ans + self.prior_sample_size_prior_distribution_.logp prior_sample_size
  let b := prior_sample_size
  let a := prior_mean * b
  let ans := ans + PM.loglike self.model_ a b
  ans

/-- The call `f(x)` of a function object made by `boost::bind`: `logp` of
the sampler `this` points to, in the state it has at the call, with `x` in
the place of `_1` and the stored value in the other place. -/
def call [Add K] [Mul K] (PM : PoissonGammaModelMethods K M) (f : BoundLogp K)
    (this : PoissonGammaPosteriorSampler K M S) (x : K) : K :=
  match f with
  | BoundLogp.first_free prior_sample_size => this.logp PM x prior_sample_size
  | BoundLogp.second_free prior_mean => this.logp PM prior_mean x

/-- The constructor
`PoissonGammaPosteriorSampler(model, mean_prior_distribution, sample_size_prior)`. -/
def mk_sampler [Zero K] (PM : PoissonGammaModelMethods K M)
    (SS : ScalarSliceSamplerMethods K S) (model : M)
    (mean_prior_distribution sample_size_prior : DoubleModel K) :
    PoissonGammaPosteriorSampler K M S :=
  let prior_mean_sampler_ : ScalarSliceSampler K S :=
    { logf := BoundLogp.first_free (PM.prior_sample_size model), state := SS.init false }
  let prior_sample_size_sampler_ : ScalarSliceSampler K S :=
    { logf := BoundLogp.second_free (PM.prior_mean model), state := SS.init false }
  { model_ := model,
    prior_mean_prior_distribution_ := mean_prior_distribution,
    prior_sample_size_prior_distribution_ := sample_size_prior,
    prior_mean_sampler_ :=
      { prior_mean_sampler_ with state := SS.set_lower_limit prior_mean_sampler_.state 0 },
    prior_sample_size_sampler_ :=
      { prior_sample_size_sampler_ with
        state := SS.set_lower_limit prior_sample_size_sampler_.state 0 } }

/-- The method `draw()`. -/
def draw [Add K] [Mul K] (PM : PoissonGammaModelMethods K M)
    (SS : ScalarSliceSamplerMethods K S) (self : PoissonGammaPosteriorSampler K M S) :
    PoissonGammaPosteriorSampler K M S :=
  let r := SS.draw (fun x => call PM self.prior_sample_size_sampler_.logf self x)
    self.prior_sample_size_sampler_.state (PM.prior_sample_size self.model_)
  let prior_sample_size := r.1
  let self := { self with
    prior_sample_size_sampler_ := { self.prior_sample_size_sampler_ with state := r.2 } }
  let self := { self with model_ := PM.set_b self.model_ prior_sample_size }
  let r := SS.draw (fun x => call PM self.prior_mean_sampler_.logf self x)
    self.prior_mean_sampler_.state (PM.prior_mean self.model_)
  let prior_mean := r.1
  let self := { self with prior_mean_sampler_ := { self.prior_mean_sampler_ with state := r.2 } }
  { self with
    model_ := PM.set_prior_mean_and_sample_size self.model_ prior_mean prior_sample_size }

/-- The method `logpri()`. -/
def logpri [Add K] (PM : PoissonGammaModelMethods K M)
    (self : PoissonGammaPosteriorSampler K M S) : K :=
  self.prior_mean_prior_distribution_.logp (PM.prior_mean self.model_)
    + self.prior_sample_size_prior_distribution_.logp (PM.prior_sample_size self.model_)

end PoissonGammaPosteriorSampler

/-! ## ChoiceData (`ChoiceData.cpp`) -/

/-- The `VectorData` objects in memory: the object at the address `a` holds
the vector `objs[a]`. -/
abbrev VectorDataHeap (K : Type) := List (Vec K)

/-- A `Ptr<VectorData>`: the address of an object, or the null pointer
(`none`). -/
abbrev VectorDataPtr := Option Nat

namespace VectorDataHeap

variable {K : Type}

/-- The call `p->value()`; undefined (`none`) for a null pointer. -/
def value (h : VectorDataHeap K) (p : VectorDataPtr) : Option (Vec K) :=
  p.bind (fun a => h[a]?)

/-- The call `p->size()`: the length of the vector. -/
def size (h : VectorDataHeap K) (p : VectorDataPtr) : Option Nat :=
  (value h p).map List.length

/-- The call `p->clone()`: a new object with the value of `*p`, at an
address that was not in use, and the memory with the new object. -/
def clone (h : VectorDataHeap K) (p : VectorDataPtr) : Option (VectorDataPtr × VectorDataHeap K) :=
  (value h p).map (fun v => (some h.length, h ++ [v]))

end VectorDataHeap

/-- The class `ChoiceData`: the value of its base `CategoricalData`, the
pointer `xsubject_`, the vector `xchoice_` of pointers, and the members
`avail_`, `bigX_` and `big_x_current_`.  Its member `null_` is an empty
vector. -/
structure ChoiceData (K : Type) where
  value : Nat
  xsubject_ : VectorDataPtr
  xchoice_ : List VectorDataPtr
  avail_ : Selector
  bigX_ : Mat K
  big_x_current_ : Bool
deriving DecidableEq, Repr

namespace ChoiceData

variable {K : Type}

/-- The constructor `ChoiceData(y, subject_x, choice_x)`. -/
def mk_data (y : Nat) (subject_x : VectorDataPtr) (choice_x : List VectorDataPtr) :
    ChoiceData K :=
  { value := y, xsubject_ := subject_x, xchoice_ := choice_x, avail_ := [], bigX_ := [],
    big_x_current_ := false }

/-- The copy constructor `ChoiceData(const ChoiceData &rhs)`, in the memory
`h`: the copy and the memory with the cloned objects.  A call through a null
pointer and an access `xchoice_[i]` or `rhs.xchoice_[i]` outside the vector
are undefined in the source and give `none`. -/
def copy (h : VectorDataHeap K) (rhs : ChoiceData K) :
    Option (ChoiceData K × VectorDataHeap K) :=
  match h.clone rhs.xsubject_ with
  | none => none
  | some (xsubject_, h) =>
    let xchoice_ : List VectorDataPtr := List.replicate rhs.xchoice_.length none
    match h.size rhs.xsubject_ with
    | none => none
    | some n =>
      let r := (List.range n).foldlM
        (fun (st : List VectorDataPtr × VectorDataHeap K) (i : Nat) =>
          match rhs.xchoice_[i]? with
          | none => none
          | some p =>
            match st.2.clone p with
            | none => none
            | some (q, h) => if i < st.1.length then some (st.1.set i q, h) else none)
        (xchoice_, h)
      match r with
      | none => none
      | some st =>
        some ({ value := rhs.value, xsubject_ := xsubject_, xchoice_ := st.1,
                avail_ := rhs.avail_, bigX_ := rhs.bigX_,
                big_x_current_ := rhs.big_x_current_ }, st.2)

/-- The method `Xsubject()`. -/
def Xsubject (h : VectorDataHeap K) (self : ChoiceData K) : Option (Vec K) :=
  h.value self.xsubject_

/-- The method `Xchoice(i)`; an access `xchoice_[i]` outside the vector is
undefined in the source and gives `none`. -/
def Xchoice (h : VectorDataHeap K) (self : ChoiceData K) (i : Nat) : Option (Vec K) :=
  if self.xchoice_.length > 0 then
    match self.xchoice_[i]? with
    | none => none
    | some p => h.value p
  else some []

/-- The method `subject_nvars()`. -/
def subject_nvars (h : VectorDataHeap K) (self : ChoiceData K) : Option Nat :=
  h.size self.xsubject_

end ChoiceData

/-! ## The statistics reachable from the empty one -/

/-- The sufficient statistics that are reachable from the empty one by calls
of `update_raw(y)` and of `add_mixture_data(y, prob)` with `prob ≥ 0`. -/
inductive GaussianSuf.Reachable {K : Type} [Zero K] [One K] [Add K] [Mul K] [LE K] :
    GaussianSuf K → Prop
  | empty : Reachable GaussianSuf.empty
  | update_raw (s : GaussianSuf K) (y : K) : Reachable s → Reachable (s.update_raw y)
  | add_mixture_data (s : GaussianSuf K) (y prob : K) :
      0 ≤ prob → Reachable s → Reachable (s.add_mixture_data y prob)

/-! ## Double arithmetic -/

/-- A finite `double` of the machine (IEEE 754 binary64): the number
`m · 2^e`, with `m` odd, or `m = 0` and `e = 0`.  Every operation below
returns the exact result rounded to the nearest number with a significand of
at most 53 bits, ties to the even significand, as the machine does.  The
exponent is not bounded: the operands of the computations that are evaluated
in this type are far from the overflow threshold and from the subnormal
range.  Infinities, NaN and the negative zero are not values of this type
(`IEEE Double` adds the first three). -/
structure Double where
  m : Int
  e : Int
deriving DecidableEq, Repr

namespace Double

/-- The number of binary digits of `n`, for `n` of at most `fuel` digits. -/
def bitsAux : Nat → Nat → Nat
  | 0, _ => 0
  | fuel + 1, n => if n = 0 then 0 else bitsAux fuel (n / 2) + 1

/-- The number of binary digits of `n`: `0` for `0`, and `k + 1` for
`2^k ≤ n < 2^(k+1)`. -/
def bits (n : Nat) : Nat := bitsAux n n

/-- The number `m · 2^e` in the form with an odd `m`. -/
def normalize (m : Int) (e : Int) : Double :=
  if m = 0 then ⟨0, 0⟩
  else
    let g := Nat.gcd m.natAbs (2 ^ bits m.natAbs)
    ⟨m / (g : Int), e + ((bits g : Int) - 1)⟩

/-- The number `N · 2^e` rounded to a significand of at most 53 bits, ties
to even: the new significand and exponent. -/
def roundNat (N : Nat) (e : Int) : Nat × Int :=
  if bits N ≤ 53 then (N, e)
  else
    let s := bits N - 53
    let q := N / 2 ^ s
    let r := N % 2 ^ s
    let half := 2 ^ (s - 1)
    let q := if r > half ∨ (r = half ∧ q % 2 = 1) then q + 1 else q
    (q, e + (s : Int))

/-- The double nearest to `(num / den) · 2^e`, ties to even.  The quotient
is first cut to an integer `T` of at least 56 bits, with a last bit `sticky`
that records whether something was cut off. -/
def round (num : Int) (den : Nat) (e : Int) : Double :=
  if num = 0 ∨ den = 0 then ⟨0, 0⟩
  else
    let N := num.natAbs
    let k := 56 + bits den - bits N
    let T := (N * 2 ^ k) / den
    let sticky := if (N * 2 ^ k) % den = 0 then 0 else 1
    let M := 2 * T + sticky
    let r := roundNat M (e - (k : Int) - 1)
    normalize (num.sign * (r.1 : Int)) r.2

/-- The sum `a + b` of the machine. -/
def add (a b : Double) : Double :=
  let e := min a.e b.e
  round (a.m * 2 ^ (a.e - e).toNat + b.m * 2 ^ (b.e - e).toNat) 1 e

/-- The negation `-a`. -/
def neg (a : Double) : Double := ⟨-a.m, a.e⟩

/-- The product `a * b` of the machine. -/
def mul (a b : Double) : Double := round (a.m * b.m) 1 (a.e + b.e)

/-- The quotient `a / b` of the machine for `b ≠ 0`; the quotient by `0`,
which is infinite or NaN on the machine, is `0` here. -/
def div (a b : Double) : Double := round (a.m * b.m.sign) b.m.natAbs (a.e - b.e)

/-- The power `pow(a, n)` for a natural number `n`: the exact power, rounded
once (for `n = 2` this is also the product `a * a` of the machine). -/
def pow (a : Double) (n : Nat) : Double := round (a.m ^ n) 1 (a.e * (n : Int))

/-- The comparison `a < b`. -/
def blt (a b : Double) : Bool :=
  let e := min a.e b.e
  decide (a.m * 2 ^ (a.e - e).toNat < b.m * 2 ^ (b.e - e).toNat)

/-- The comparison `a <= b`. -/
def ble (a b : Double) : Bool :=
  let e := min a.e b.e
  decide (a.m * 2 ^ (a.e - e).toNat ≤ b.m * 2 ^ (b.e - e).toNat)

instance : Zero Double := ⟨⟨0, 0⟩⟩
instance : One Double := ⟨⟨1, 0⟩⟩
instance : NatCast Double := ⟨fun n => round (n : Int) 1 0⟩
instance : Add Double := ⟨add⟩
instance : Neg Double := ⟨neg⟩
instance : Sub Double := ⟨fun a b => add a (neg b)⟩
instance : Mul Double := ⟨mul⟩
instance : Div Double := ⟨div⟩
instance : Pow Double Nat := ⟨pow⟩
instance : LT Double := ⟨fun a b => blt a b = true⟩
instance : LE Double := ⟨fun a b => ble a b = true⟩
instance (a b : Double) : Decidable (a < b) := inferInstanceAs (Decidable (blt a b = true))
instance (a b : Double) : Decidable (a ≤ b) := inferInstanceAs (Decidable (ble a b = true))

end Double

/-! # Theorems -/

/-! ## Lists -/

theorem get?_append_add {α : Type} (pre l : List α) (k : Nat) :
    (pre ++ l).get? (pre.length + k) = l.get? k := by
  induction pre with
  | nil => simp
  | cons x xs ih => simpa [Nat.succ_add] using ih

/-! ## GaussianSuf -/

namespace GaussianSuf

variable {K : Type} [LinearOrderedField K]

/-- Accumulating a list with `update_raw` adds the length to `n_`, the sum
of the observations to `sum_` and the sum of their squares to `sumsq_`. -/
theorem update_raw_all_eq (s : GaussianSuf K) (ys : List K) :
    s.update_raw_all ys =
      { sum_ := s.sum_ + ys.sum,
        sumsq_ := s.sumsq_ + (ys.map (fun y => y * y)).sum,
        n_ := s.n_ + (ys.length : K) } := by
  induction ys generalizing s with
  | nil => simp [update_raw_all]
  | cons y ys ih =>
    have h := ih (s.update_raw y)
    simp only [update_raw_all, List.foldl_cons] at h ⊢
    rw [h]
    simp only [update_raw, Nat.cast_succ, List.sum_cons, List.map_cons, List.length_cons,
      mk.injEq]
    refine ⟨?_, ?_, ?_⟩ <;> ring

/-- C1: combining the statistics accumulated by `update_raw` over `A` and
over `B` gives the statistic accumulated over `A` followed by `B` (all of
`n_`, `sum_`, `sumsq_`), for both overloads of `combine`; the overload that
reaches its argument through a pointer leaves the argument unchanged. -/
theorem combine_update_raw_all (A B : List K) :
    ((empty : GaussianSuf K).update_raw_all A).combine (empty.update_raw_all B)
        = empty.update_raw_all (A ++ B)
    ∧ combinePtr ((empty : GaussianSuf K).update_raw_all A) (empty.update_raw_all B)
        = (empty.update_raw_all (A ++ B), empty.update_raw_all B) := by
  simp only [update_raw_all_eq, combine, combinePtr, empty, List.sum_append, List.map_append,
    List.length_append, Nat.cast_add, zero_add, and_self]

/-- C2: `vectorize` returns exactly `[n_, sum_, sumsq_]` whatever the flag;
`unvectorize` of that vector turns any target `t` into `s` and returns the
iterator at position 3; and from any position of any buffer `unvectorize`
reads the next three values as `n_`, `sum_`, `sumsq_` and returns the
iterator advanced by 3. -/
theorem vectorize_unvectorize (s t : GaussianSuf K) (minimal minimal' : Bool)
    (pre post : List K) (a b c : K) :
    s.vectorize minimal = [s.n_, s.sum_, s.sumsq_]
    ∧ t.unvectorizeVec (s.vectorize minimal) minimal'
        = some (s, { buf := s.vectorize minimal, pos := 3 })
    ∧ t.unvectorize { buf := pre ++ [a, b, c] ++ post, pos := pre.length } minimal'
        = some ({ sum_ := b, sumsq_ := c, n_ := a },
                { buf := pre ++ [a, b, c] ++ post, pos := pre.length + 3 }) := by
  refine ⟨rfl, rfl, ?_⟩
  have h0 : (pre ++ [a, b, c] ++ post).get? pre.length = some a := by
    rw [List.append_assoc, show pre.length = pre.length + 0 from rfl, get?_append_add]
    rfl
  have h1 : (pre ++ [a, b, c] ++ post).get? (pre.length + 1) = some b := by
    rw [List.append_assoc, get?_append_add]
    rfl
  have h2 : (pre ++ [a, b, c] ++ post).get? (pre.length + 1 + 1) = some c := by
    rw [List.append_assoc, show pre.length + 1 + 1 = pre.length + 2 from rfl, get?_append_add]
    rfl
  simp only [unvectorize, ConstIterator.deref, ConstIterator.next, h0, h1, h2]
  rfl

/-- C3: `add_mixture_data(y, prob)` adds `prob` to `n_`, `prob·y` to `sum_`
and `prob·y²` to `sumsq_`; with `prob = 1` it is `update_raw(y)`; and
`GaussianModelBase::add_mixture_data` passes the value of the datum and
`prob` on to it, changing nothing but the statistic. -/
theorem add_mixture_data_weighted (s : GaussianSuf K) (y prob : K)
    (m : GaussianModelBase K) (dp : DoubleData K) :
    s.add_mixture_data y prob =
      { sum_ := s.sum_ + prob * y, sumsq_ := s.sumsq_ + prob * y ^ 2, n_ := s.n_ + prob }
    ∧ s.add_mixture_data y 1 = s.update_raw y
    ∧ m.add_mixture_data dp prob =
        { mu := m.mu, sigsq := m.sigsq, sigma := m.sigma,
          suf := m.suf.add_mixture_data dp.value prob } := by
  refine ⟨?_, ?_, rfl⟩
  · simp [add_mixture_data, pow_two, mul_assoc]
  · simp [add_mixture_data, update_raw]

end GaussianSuf

/-! ## GaussianModel.mle -/

namespace GaussianModel

variable {K : Type} [LinearOrderedField K]

/-- The sum of squared deviations from `c` in terms of the three
accumulated quantities. -/
theorem sum_sq_dev (ys : List K) (c : K) :
    (ys.map (fun y => (y - c) ^ 2)).sum
      = (ys.map (fun y => y * y)).sum - 2 * c * ys.sum + (ys.length : K) * c ^ 2 := by
  induction ys with
  | nil => simp
  | cons y ys ih =>
    simp only [List.map_cons, List.sum_cons, List.length_cons, Nat.cast_succ, ih]
    ring

end GaussianModel

/-! ## Arithmetic of `IEEE` on finite values -/

namespace IEEE
variable {K : Type} [LinearOrderedField K]

@[simp] theorem fin_add_fin (a b : K) : (fin a + fin b : IEEE K) = fin (a + b) := rfl
@[simp] theorem fin_sub_fin (a b : K) : (fin a - fin b : IEEE K) = fin (a - b) := by
  show add (fin a) (neg (fin b)) = _
  simp [add, neg, sub_eq_add_neg]
@[simp] theorem fin_mul_fin (a b : K) : (fin a * fin b : IEEE K) = fin (a * b) := rfl
@[simp] theorem neg_fin (a : K) : (-(fin a) : IEEE K) = fin (-a) := rfl
theorem add_def (a b : IEEE K) : a + b = add a b := rfl
theorem mul_def (a b : IEEE K) : a * b = mul a b := rfl
theorem div_def (a b : IEEE K) : a / b = div a b := rfl
theorem sub_def (a b : IEEE K) : a - b = add a (neg b) := rfl
theorem neg_def (a : IEEE K) : -a = neg a := rfl
theorem fin_div_fin (a b : K) (hb : b ≠ 0) : (fin a / fin b : IEEE K) = fin (a / b) := by
  show div (fin a) (fin b) = _
  simp [div, hb]
theorem log_fin (l : K → K) (a : K) (ha : 0 < a) : log l (fin a) = fin (l a) := by
  simp [log, not_lt.mpr ha.le, ha.ne']
end IEEE

/-- Reading an entry of a matrix after an assignment `h(i,j) = v`. -/
theorem Mat.get?_set {α : Type} (h : Mat α) (i j i' j' : Nat) (v : α) :
    (h.set i j v).get? i' j'
      = if i = i' ∧ j = j' then (h.get? i j).map (fun _ => v) else h.get? i' j' := by
  unfold Mat.set Mat.get?
  simp only [List.get?_eq_getElem?, List.getElem?_modify]
  by_cases hi : i = i'
  · subst hi
    cases hrow : h[i]? with
    | none => simp
    | some row =>
      by_cases hj : j = j'
      · subst hj
        simp only [List.getElem?_set', if_true, and_self, Option.map_eq_map, Option.some_bind, Option.map_some', Option.bind_eq_bind]
        rfl
      · simp [hj, List.getElem?_set_ne hj]
  · cases hrow : h[i']? with
    | none => simp [hi]
    | some row => simp [hi]

/-! ## GaussianModel.Loglike -/

namespace GaussianModel
variable {K : Type} [LinearOrderedField K]
open IEEE

/-- The local `SS` of `Loglike` is finite. -/
theorem SS_eq (self : GaussianModel K) :
    self.SS = fin (self.suf.sumsq_ + (-2 * self.suf.sum_ + self.suf.n_ * self.Mu_prm) * self.Mu_prm) := by
  simp [SS, GaussianModel.mu, GaussianSuf.n, GaussianSuf.sum, GaussianSuf.sumsq]

/-- For a positive variance every operation of `Loglike` is regular: the
value and the entries written to `g` and `h` are finite and given by the
expressions of the source. -/
theorem Loglike_pos (l : K → K) (c mu s sum sumsq n : K) (hs : 0 < s)
    (g : Vec (IEEE K)) (h : Mat (IEEE K)) (nd : Nat) :
    Loglike l c { Mu_prm := mu, Sigsq_prm := s, suf := { sum_ := sum, sumsq_ := sumsq, n_ := n } }
        g h nd =
      (fin (-0.5 * (n * (c + l s) + (sumsq + (-2 * sum + n * mu) * mu) / s)),
       if nd > 0 then
         (g.set 0 (fin ((sum - n * mu) / s))).set 1
           (fin (-0.5 * n / s + 0.5 * (sumsq + (-2 * sum + n * mu) * mu) / (s * s)))
       else g,
       if nd > 1 then
         (((h.set 0 0 (fin (n / s))).set 0 1 (fin (-(sum - n * mu) / (s * s)))).set 1 0
           (fin (-(sum - n * mu) / (s * s)))).set 1 1
           (fin ((n / 2 - (sumsq + (-2 * sum + n * mu) * mu) / s) / (s * s)))
       else h) := by
  have hs' : s ≠ 0 := hs.ne'
  have hss : s * s ≠ 0 := mul_ne_zero hs' hs'
  have h2 : (2 : K) ≠ 0 := two_ne_zero
  simp only [Loglike, SS_eq, sigsq, GaussianModel.mu, GaussianSuf.n, GaussianSuf.sum, not_lt.mpr hs.le, if_false,
    fin_add_fin, fin_sub_fin, fin_mul_fin, neg_fin, fin_div_fin _ _ hs', fin_div_fin _ _ hss,
    fin_div_fin _ _ h2, log_fin l _ hs]
  by_cases h0 : nd > 0
  · by_cases h1 : nd > 1
    · simp only [h0, h1, if_true]
    · simp only [h0, h1, if_true, if_false]
  · have h1 : ¬ nd > 1 := by omega
    simp only [h0, h1, if_false]

/-- Eight digits of `log(π/4)`. -/
theorem log_pi_div_four_bounds :
    -0.24156448 < Real.log (Real.pi / 4) ∧ Real.log (Real.pi / 4) < -0.24156447 := by
  have hlo : (3.1415926535 : ℝ) < Real.pi := lt_trans (by norm_num) Real.pi_gt_d20
  have hhi : Real.pi < (3.1415926536 : ℝ) := lt_trans Real.pi_lt_d20 (by norm_num)
  have key : ∀ x : ℝ, |x| < 1 → ∀ n : ℕ,
      -(∑ i ∈ Finset.range n, x ^ (i + 1) / (i + 1)) - |x| ^ (n + 1) / (1 - |x|) ≤ Real.log (1 - x)
      ∧ Real.log (1 - x) ≤ -(∑ i ∈ Finset.range n, x ^ (i + 1) / (i + 1)) + |x| ^ (n + 1) / (1 - |x|) := by
    intro x hx n
    have h := Real.abs_log_sub_add_sum_range_le hx n
    rw [abs_le] at h
    constructor <;> linarith [h.1, h.2]
  constructor
  · have hmono : Real.log (1 - (1 - 3.1415926535 / 4)) < Real.log (Real.pi / 4) :=
      Real.log_lt_log (by norm_num) (by linarith)
    have hx : |(1 - 3.1415926535 / 4 : ℝ)| < 1 := by rw [abs_lt]; constructor <;> norm_num
    have h := (key _ hx 14).1
    have habs : |(1 - 3.1415926535 / 4 : ℝ)| = 1 - 3.1415926535 / 4 := abs_of_pos (by norm_num)
    rw [habs] at h
    refine lt_of_lt_of_le ?_ (le_trans h hmono.le)
    simp only [Finset.sum_range_succ, Finset.sum_range_zero]
    norm_num
  · have hmono : Real.log (Real.pi / 4) < Real.log (1 - (1 - 3.1415926536 / 4)) :=
      Real.log_lt_log (by positivity) (by linarith)
    have hx : |(1 - 3.1415926536 / 4 : ℝ)| < 1 := by rw [abs_lt]; constructor <;> norm_num
    have h := (key _ hx 14).2
    have habs : |(1 - 3.1415926536 / 4 : ℝ)| = 1 - 3.1415926536 / 4 := abs_of_pos (by norm_num)
    rw [habs] at h
    refine lt_of_le_of_lt (le_trans hmono.le h) ?_
    simp only [Finset.sum_range_succ, Finset.sum_range_zero]
    norm_num

/-- The literal of the source for `log2pi` agrees with `log(2π)` to eight
digits. -/
theorem log2piLiteral_near : |(log2piLiteral : ℝ) - Real.log (2 * Real.pi)| < 1 / 10 ^ 8 := by
  have h2pi : Real.log (2 * Real.pi) = 3 * Real.log 2 + Real.log (Real.pi / 4) := by
    have h8 : Real.log 8 = 3 * Real.log 2 := by
      rw [show (8 : ℝ) = 2 ^ 3 by norm_num, Real.log_pow]
      norm_num
    rw [← h8, ← Real.log_mul (by norm_num) (by positivity)]
    congr 1
    ring
  have hl := Real.log_two_gt_d9
  have hu := Real.log_two_lt_d9
  obtain ⟨hp1, hp2⟩ := log_pi_div_four_bounds
  rw [h2pi, abs_lt, log2piLiteral]
  constructor <;> norm_num at hl hu hp1 hp2 ⊢ <;> linarith

/-- A sum of terms `A - f y` over a list. -/
theorem sum_map_const_sub (ys : List ℝ) (A : ℝ) (f : ℝ → ℝ) :
    (ys.map (fun y => A - f y)).sum = (ys.length : ℝ) * A - (ys.map f).sum := by
  induction ys with
  | nil => simp
  | cons y ys ih =>
    simp only [List.map_cons, List.sum_cons, List.length_cons, Nat.cast_succ, ih]
    ring

/-- For a positive variance and the statistic accumulated over `ys`, the value
of `Loglike` with the constant `log(2π)` is the sum of the log densities of
the observations. -/
theorem Loglike_value_sum (ys : List ℝ) (mu sigsq : ℝ) (hs : 0 < sigsq)
    (g : Vec (IEEE ℝ)) (h : Mat (IEEE ℝ)) (nd : Nat) :
    (Loglike Real.log (Real.log (2 * Real.pi))
        { Mu_prm := mu, Sigsq_prm := sigsq, suf := GaussianSuf.empty.update_raw_all ys } g h nd).1
      = fin ((ys.map (fun y =>
          -(1 / 2) * Real.log (2 * Real.pi * sigsq) - (y - mu) ^ 2 / (2 * sigsq))).sum) := by
  have hlog : Real.log (2 * Real.pi * sigsq) = Real.log (2 * Real.pi) + Real.log sigsq :=
    Real.log_mul (by positivity) hs.ne'
  have hsum : (ys.map (fun y =>
        -(1 / 2) * Real.log (2 * Real.pi * sigsq) - (y - mu) ^ 2 / (2 * sigsq))).sum
      = (ys.length : ℝ) * (-(1 / 2) * Real.log (2 * Real.pi * sigsq))
        - (ys.map (fun y => (y - mu) ^ 2)).sum / (2 * sigsq) := by
    rw [sum_map_const_sub ys _ (fun y => (y - mu) ^ 2 / (2 * sigsq))]
    congr 1
    induction ys with
    | nil => simp
    | cons y ys ih => simp only [List.map_cons, List.sum_cons, ih]; ring
  rw [GaussianSuf.update_raw_all_eq, GaussianSuf.empty, Loglike_pos _ _ _ _ _ _ _ hs, hsum,
    sum_sq_dev, hlog]
  field_simp
  ring

/-- With the literal of the source for `log2pi`, the value of `Loglike`
is within `n/2 · 10⁻⁸` of the sum of the log densities. -/
theorem Loglike_literal_near (ys : List ℝ) (mu sigsq : ℝ) (hs : 0 < sigsq)
    (g : Vec (IEEE ℝ)) (h : Mat (IEEE ℝ)) (nd : Nat) :
    |toFin (Loglike Real.log log2piLiteral
        { Mu_prm := mu, Sigsq_prm := sigsq, suf := GaussianSuf.empty.update_raw_all ys } g h nd).1
      - (ys.map (fun y =>
          -(1 / 2) * Real.log (2 * Real.pi * sigsq) - (y - mu) ^ 2 / (2 * sigsq))).sum|
      ≤ (ys.length : ℝ) / 2 * (1 / 10 ^ 8) := by
  have hsum := Loglike_value_sum ys mu sigsq hs g h nd
  have hval : (ys.map (fun y =>
          -(1 / 2) * Real.log (2 * Real.pi * sigsq) - (y - mu) ^ 2 / (2 * sigsq))).sum
      = toFin (Loglike Real.log (Real.log (2 * Real.pi))
        { Mu_prm := mu, Sigsq_prm := sigsq, suf := GaussianSuf.empty.update_raw_all ys }
        g h nd).1 := by
    rw [hsum]
    rfl
  have hpos : ∀ c : ℝ, toFin (Loglike Real.log c
        { Mu_prm := mu, Sigsq_prm := sigsq, suf := GaussianSuf.empty.update_raw_all ys }
        g h nd).1
      = -0.5 * ((ys.length : ℝ) * (c + Real.log sigsq)
          + ((ys.map (fun y => y * y)).sum + (-2 * ys.sum + (ys.length : ℝ) * mu) * mu)
            / sigsq) := by
    intro c
    rw [GaussianSuf.update_raw_all_eq, GaussianSuf.empty, Loglike_pos _ _ _ _ _ _ _ hs]
    simp only [zero_add]
    rfl
  rw [hval, hpos, hpos]
  have hd : |(log2piLiteral : ℝ) - Real.log (2 * Real.pi)| ≤ 1 / 10 ^ 8 := log2piLiteral_near.le
  have heq : ∀ a b L S s : ℝ, -0.5 * (L * (a + Real.log s) + S / s)
      - -0.5 * (L * (b + Real.log s) + S / s) = -(L / 2 * (a - b)) := by
    intro a b L S s
    norm_num
    ring
  rw [heq, abs_neg, abs_mul, abs_of_nonneg (by positivity : (0 : ℝ) ≤ (ys.length : ℝ) / 2)]
  exact mul_le_mul_of_nonneg_left hd (by positivity)

/-- Claim C5 as amended.  In exact arithmetic (over the reals), for the statistic accumulated
by `update_raw` over `y_1..y_n`, every `mu` and every `sigsq > 0`: the value that `Loglike`
returns with the literal `1.8378770664093453` of the source for `log2pi` is finite and equals
`Σ_i [ −½·log(2π·sigsq) − (y_i − mu)²/(2·sigsq) ] − (n/2)·(literal − log(2π))`, so it is
within `n/2 · 10⁻⁸` of the sum of the log densities; with the constant `log(2π)` in the place
of the literal it is that sum; and the local `SS`, which is `sumsq − 2·sum·mu + n·mu²`, equals
`Σ_i (y_i − mu)²`. -/
theorem Loglike_literal_eq_sum (ys : List ℝ) (mu sigsq : ℝ) (hs : 0 < sigsq)
    (g : Vec (IEEE ℝ)) (h : Mat (IEEE ℝ)) (nd : Nat) :
    (Loglike Real.log log2piLiteral
        { Mu_prm := mu, Sigsq_prm := sigsq, suf := GaussianSuf.empty.update_raw_all ys } g h nd).1
      = fin ((ys.map (fun y =>
          -(1 / 2) * Real.log (2 * Real.pi * sigsq) - (y - mu) ^ 2 / (2 * sigsq))).sum
          - (ys.length : ℝ) / 2 * (log2piLiteral - Real.log (2 * Real.pi)))
    ∧ |toFin (Loglike Real.log log2piLiteral
        { Mu_prm := mu, Sigsq_prm := sigsq, suf := GaussianSuf.empty.update_raw_all ys } g h nd).1
      - (ys.map (fun y =>
          -(1 / 2) * Real.log (2 * Real.pi * sigsq) - (y - mu) ^ 2 / (2 * sigsq))).sum|
      ≤ (ys.length : ℝ) / 2 * (1 / 10 ^ 8)
    ∧ (Loglike Real.log (Real.log (2 * Real.pi))
        { Mu_prm := mu, Sigsq_prm := sigsq, suf := GaussianSuf.empty.update_raw_all ys } g h nd).1
      = fin ((ys.map (fun y =>
          -(1 / 2) * Real.log (2 * Real.pi * sigsq) - (y - mu) ^ 2 / (2 * sigsq))).sum)
    ∧ SS { Mu_prm := mu, Sigsq_prm := sigsq, suf := GaussianSuf.empty.update_raw_all ys }
      = fin ((ys.map (fun y => (y - mu) ^ 2)).sum)
    ∧ SS { Mu_prm := mu, Sigsq_prm := sigsq, suf := GaussianSuf.empty.update_raw_all ys }
      = fin ((GaussianSuf.empty.update_raw_all ys).sumsq
          - 2 * (GaussianSuf.empty.update_raw_all ys).sum * mu
          + (GaussianSuf.empty.update_raw_all ys).n * mu ^ 2) := by
  have hsum := Loglike_value_sum ys mu sigsq hs g h nd
  have hpos : ∀ c : ℝ, (Loglike Real.log c
        { Mu_prm := mu, Sigsq_prm := sigsq, suf := GaussianSuf.empty.update_raw_all ys }
        g h nd).1
      = fin (-0.5 * ((ys.length : ℝ) * (c + Real.log sigsq)
          + ((ys.map (fun y => y * y)).sum + (-2 * ys.sum + (ys.length : ℝ) * mu) * mu)
            / sigsq)) := by
    intro c
    rw [GaussianSuf.update_raw_all_eq, GaussianSuf.empty, Loglike_pos _ _ _ _ _ _ _ hs]
    simp only [zero_add]
  have hval : (ys.map (fun y =>
          -(1 / 2) * Real.log (2 * Real.pi * sigsq) - (y - mu) ^ 2 / (2 * sigsq))).sum
      = -0.5 * ((ys.length : ℝ) * (Real.log (2 * Real.pi) + Real.log sigsq)
          + ((ys.map (fun y => y * y)).sum + (-2 * ys.sum + (ys.length : ℝ) * mu) * mu)
            / sigsq) := by
    have := hsum
    rw [hpos] at this
    exact (IEEE.fin.inj this).symm
  refine ⟨?_, Loglike_literal_near ys mu sigsq hs g h nd, hsum, ?_, ?_⟩
  · rw [hpos, hval]
    congr 1
    norm_num
    ring
  · rw [SS_eq, sum_sq_dev, GaussianSuf.update_raw_all_eq]
    simp only [GaussianSuf.empty]
    congr 1
    ring
  · rw [SS_eq, GaussianSuf.update_raw_all_eq]
    simp only [GaussianSuf.empty, GaussianSuf.sumsq, GaussianSuf.sum, GaussianSuf.n]
    congr 1
    ring

/-- An instance of `Loglike_literal_eq_sum`: the observations `1, 2` with `mu = 0` and
`sigsq = 1`. -/
theorem Loglike_literal_eq_sum_witness :
    (0 : ℝ) < 1
    ∧ SS ({ Mu_prm := 0, Sigsq_prm := 1, suf := GaussianSuf.empty.update_raw_all [1, 2] } :
        GaussianModel ℝ)
      = fin (([1, 2].map (fun y : ℝ => (y - 0) ^ 2)).sum) :=
  ⟨one_pos, (Loglike_literal_eq_sum [1, 2] 0 1 one_pos [] [] 0).2.2.2.1⟩

/-- The derivative in `mu` of the expression `Loglike` returns. -/
theorem hasDerivAt_value_mu (c sum sumsq n s mu : ℝ) :
    HasDerivAt (fun m : ℝ => -0.5 * (n * (c + Real.log s) + (sumsq + (-2 * sum + n * m) * m) / s))
      ((sum - n * mu) / s) mu := by
  have h1 : HasDerivAt (fun m : ℝ => (-2 * sum + n * m) * m) ((n * 1) * mu + (-2 * sum + n * mu) * 1) mu :=
    (((hasDerivAt_id mu).const_mul n).const_add (-2 * sum)).mul (hasDerivAt_id mu)
  have h2 := ((((h1.const_add sumsq).div_const s).const_add (n * (c + Real.log s))).const_mul (-0.5 : ℝ))
  convert h2 using 1
  norm_num
  ring

/-- The derivative in `sigsq` of the expression `Loglike` returns. -/
theorem hasDerivAt_value_sigsq (c sum sumsq n s mu : ℝ) (hs : s ≠ 0) :
    HasDerivAt (fun t : ℝ => -0.5 * (n * (c + Real.log t) + (sumsq + (-2 * sum + n * mu) * mu) / t))
      (-0.5 * n / s + 0.5 * (sumsq + (-2 * sum + n * mu) * mu) / (s * s)) s := by
  have h1 : HasDerivAt (fun t : ℝ => n * (c + Real.log t)) (n * s⁻¹) s :=
    ((Real.hasDerivAt_log hs).const_add c).const_mul n
  have h2 : HasDerivAt (fun t : ℝ => (sumsq + (-2 * sum + n * mu) * mu) / t)
      (-(sumsq + (-2 * sum + n * mu) * mu) / s ^ 2) s := by
    have := (hasDerivAt_inv hs).const_mul (sumsq + (-2 * sum + n * mu) * mu)
    convert this using 1
    field_simp
  have h3 := (h1.add h2).const_mul (-0.5 : ℝ)
  convert h3 using 1
  field_simp
  norm_num
  ring

/-- With `nd = 0` `Loglike` writes neither `g` nor `h`. -/
theorem Loglike_nd_zero {K : Type} [LinearOrderedField K] (l : K → K) (c : K)
    (self : GaussianModel K) (g : Vec (IEEE K)) (h : Mat (IEEE K)) :
    (Loglike l c self g h 0).2 = (g, h) := by
  unfold Loglike
  by_cases hs : self.sigsq < 0 <;> simp [hs]

/-- C6: for every sufficient statistic, every `mu`, every `sigsq > 0` and
`nd ≥ 1`, `Loglike` writes to `g[0]` the partial derivative in `mu` and to
`g[1]` the partial derivative in `sigsq` of the value it returns (as a
function of the two parameters), and writes no other entry of `g`; with
`nd = 0` it writes neither `g` nor `h`, whatever the model. -/
theorem Loglike_gradient (c : ℝ) (suf : GaussianSuf ℝ) (mu sigsq : ℝ) (hs : 0 < sigsq)
    (g : Vec (IEEE ℝ)) (h : Mat (IEEE ℝ)) (nd : Nat) (hnd : 1 ≤ nd) (hg : 2 ≤ g.length) :
    ∃ d0 d1 : ℝ,
      (Loglike Real.log c { Mu_prm := mu, Sigsq_prm := sigsq, suf := suf } g h nd).2.1
          = (g.set 0 (fin d0)).set 1 (fin d1)
      ∧ (Loglike Real.log c { Mu_prm := mu, Sigsq_prm := sigsq, suf := suf } g h nd).2.1.get? 0
          = some (fin d0)
      ∧ (Loglike Real.log c { Mu_prm := mu, Sigsq_prm := sigsq, suf := suf } g h nd).2.1.get? 1
          = some (fin d1)
      ∧ HasDerivAt (fun m : ℝ => toFin
          (Loglike Real.log c { Mu_prm := m, Sigsq_prm := sigsq, suf := suf } g h nd).1) d0 mu
      ∧ HasDerivAt (fun s : ℝ => toFin
          (Loglike Real.log c { Mu_prm := mu, Sigsq_prm := s, suf := suf } g h nd).1) d1 sigsq
      ∧ ∀ self : GaussianModel ℝ, (Loglike Real.log c self g h 0).2 = (g, h) := by
  obtain ⟨sum, sumsq, n⟩ := suf
  have hnd0 : nd > 0 := hnd
  refine ⟨(sum - n * mu) / sigsq,
    -0.5 * n / sigsq + 0.5 * (sumsq + (-2 * sum + n * mu) * mu) / (sigsq * sigsq),
    ?_, ?_, ?_, ?_, ?_, fun self => Loglike_nd_zero _ _ self g h⟩
  · rw [Loglike_pos _ _ _ _ _ _ _ hs]
    simp only [hnd0, if_true]
  · rw [Loglike_pos _ _ _ _ _ _ _ hs]
    simp only [hnd0, if_true, List.get?_eq_getElem?]
    rw [List.getElem?_set_ne (by decide), List.getElem?_set_self (by omega)]
  · rw [Loglike_pos _ _ _ _ _ _ _ hs]
    simp only [hnd0, if_true, List.get?_eq_getElem?]
    rw [List.getElem?_set_self (by rw [List.length_set]; omega)]
  · have hfun : (fun m : ℝ => toFin
          (Loglike Real.log c ⟨m, sigsq, ⟨sum, sumsq, n⟩⟩ g h nd).1)
        = fun m : ℝ => -0.5 * (n * (c + Real.log sigsq)
            + (sumsq + (-2 * sum + n * m) * m) / sigsq) := by
      funext m
      rw [Loglike_pos _ _ _ _ _ _ _ hs]
      rfl
    rw [hfun]
    exact hasDerivAt_value_mu c sum sumsq n sigsq mu
  · have hev : (fun s : ℝ => toFin
          (Loglike Real.log c ⟨mu, s, ⟨sum, sumsq, n⟩⟩ g h nd).1)
        =ᶠ[nhds sigsq] fun t : ℝ => -0.5 * (n * (c + Real.log t)
            + (sumsq + (-2 * sum + n * mu) * mu) / t) := by
      filter_upwards [Ioi_mem_nhds hs] with t ht
      rw [Loglike_pos _ _ _ _ _ _ _ ht]
      rfl
    exact (hasDerivAt_value_sigsq c sum sumsq n sigsq mu hs.ne').congr_of_eventuallyEq hev

/-- Witness for `Loglike_gradient`: `n = 2`, `sum = 3`, `sumsq = 5`, `mu = 1`,
`sigsq = 2`, `nd = 1`. -/
theorem Loglike_gradient_witness :
    (0 : ℝ) < 2 ∧ 1 ≤ 1 ∧ 2 ≤ [fin (0 : ℝ), fin 0].length
    ∧ ∃ d0 d1 : ℝ,
      (Loglike Real.log 0 ⟨1, 2, ⟨3, 5, 2⟩⟩ [fin 0, fin 0] [] 1).2.1
          = ([fin 0, fin 0].set 0 (fin d0)).set 1 (fin d1)
      ∧ (Loglike Real.log 0 ⟨1, 2, ⟨3, 5, 2⟩⟩ [fin 0, fin 0] [] 1).2.1.get? 0 = some (fin d0)
      ∧ (Loglike Real.log 0 ⟨1, 2, ⟨3, 5, 2⟩⟩ [fin 0, fin 0] [] 1).2.1.get? 1 = some (fin d1)
      ∧ HasDerivAt (fun m : ℝ => toFin
          (Loglike Real.log 0 ⟨m, 2, ⟨3, 5, 2⟩⟩ [fin 0, fin 0] [] 1).1) d0 1
      ∧ HasDerivAt (fun s : ℝ => toFin
          (Loglike Real.log 0 ⟨1, s, ⟨3, 5, 2⟩⟩ [fin 0, fin 0] [] 1).1) d1 2
      ∧ ∀ self : GaussianModel ℝ,
          (Loglike Real.log 0 self [fin 0, fin 0] [] 0).2 = ([fin 0, fin 0], []) :=
  ⟨two_pos, le_refl 1, le_refl 2,
    Loglike_gradient 0 ⟨3, 5, 2⟩ 1 2 two_pos [fin 0, fin 0] [] 1 (le_refl 1) (le_refl 2)⟩

/-- The finite value returned by `Loglike` for a positive variance. -/
theorem toFin_Loglike_pos (c mu s sum sumsq n : ℝ) (hs : 0 < s)
    (g : Vec (IEEE ℝ)) (h : Mat (IEEE ℝ)) (nd : Nat) :
    toFin (Loglike Real.log c ⟨mu, s, ⟨sum, sumsq, n⟩⟩ g h nd).1
      = -0.5 * (n * (c + Real.log s) + (sumsq + (-2 * sum + n * mu) * mu) / s) := by
  rw [Loglike_pos _ _ _ _ _ _ _ hs]
  rfl

/-- The partial derivative in `mu` of the value `Loglike` returns. -/
theorem deriv_mu_Loglike (c s sum sumsq n : ℝ) (hs : 0 < s)
    (g : Vec (IEEE ℝ)) (h : Mat (IEEE ℝ)) (nd : Nat) (m : ℝ) :
    deriv (fun m' : ℝ => toFin (Loglike Real.log c ⟨m', s, ⟨sum, sumsq, n⟩⟩ g h nd).1) m
      = (sum - n * m) / s := by
  have hfun : (fun m' : ℝ => toFin (Loglike Real.log c ⟨m', s, ⟨sum, sumsq, n⟩⟩ g h nd).1)
      = fun m' : ℝ => -0.5 * (n * (c + Real.log s) + (sumsq + (-2 * sum + n * m') * m') / s) := by
    funext m'
    exact toFin_Loglike_pos c m' s sum sumsq n hs g h nd
  rw [hfun]
  exact (hasDerivAt_value_mu c sum sumsq n s m).deriv

/-- The partial derivative in `sigsq` of the value `Loglike` returns. -/
theorem deriv_sigsq_Loglike (c s sum sumsq n : ℝ) (hs : 0 < s)
    (g : Vec (IEEE ℝ)) (h : Mat (IEEE ℝ)) (nd : Nat) (m : ℝ) :
    deriv (fun s' : ℝ => toFin (Loglike Real.log c ⟨m, s', ⟨sum, sumsq, n⟩⟩ g h nd).1) s
      = -0.5 * n / s + 0.5 * (sumsq + (-2 * sum + n * m) * m) / (s * s) := by
  have hev : (fun s' : ℝ => toFin (Loglike Real.log c ⟨m, s', ⟨sum, sumsq, n⟩⟩ g h nd).1)
      =ᶠ[nhds s] fun t : ℝ => -0.5 * (n * (c + Real.log t)
          + (sumsq + (-2 * sum + n * m) * m) / t) := by
    filter_upwards [Ioi_mem_nhds hs] with t ht
    exact toFin_Loglike_pos c m t sum sumsq n ht g h nd
  exact ((hasDerivAt_value_sigsq c sum sumsq n s m hs.ne').congr_of_eventuallyEq hev).deriv

/-- The four second partial derivatives of the value `Loglike` returns, for
a positive variance: `(mu, mu)`, `(mu, sigsq)` in both orders, and
`(sigsq, sigsq)`. -/
theorem second_derivs_Loglike (c s sum sumsq n : ℝ) (hs : 0 < s)
    (g : Vec (IEEE ℝ)) (h : Mat (IEEE ℝ)) (nd : Nat) (mu : ℝ) :
    deriv (fun m : ℝ => deriv (fun m' : ℝ =>
        toFin (Loglike Real.log c ⟨m', s, ⟨sum, sumsq, n⟩⟩ g h nd).1) m) mu = -(n / s)
    ∧ deriv (fun s' : ℝ => deriv (fun m' : ℝ =>
        toFin (Loglike Real.log c ⟨m', s', ⟨sum, sumsq, n⟩⟩ g h nd).1) mu) s
        = -(sum - n * mu) / (s * s)
    ∧ deriv (fun m : ℝ => deriv (fun s' : ℝ =>
        toFin (Loglike Real.log c ⟨m, s', ⟨sum, sumsq, n⟩⟩ g h nd).1) s) mu
        = -(sum - n * mu) / (s * s)
    ∧ deriv (fun s' : ℝ => deriv (fun s'' : ℝ =>
        toFin (Loglike Real.log c ⟨mu, s'', ⟨sum, sumsq, n⟩⟩ g h nd).1) s') s
        = (n / 2 - (sumsq + (-2 * sum + n * mu) * mu) / s) / (s * s) := by
  have hs' : s ≠ 0 := hs.ne'
  refine ⟨?_, ?_, ?_, ?_⟩
  · have hfun : (fun m : ℝ => deriv (fun m' : ℝ =>
        toFin (Loglike Real.log c ⟨m', s, ⟨sum, sumsq, n⟩⟩ g h nd).1) m)
        = fun m : ℝ => (sum - n * m) / s := by
      funext m
      exact deriv_mu_Loglike c s sum sumsq n hs g h nd m
    rw [hfun]
    have hd : HasDerivAt (fun m : ℝ => (sum - n * m) / s) (-(n / s)) mu := by
      have := (((hasDerivAt_id mu).const_mul n).const_sub sum).div_const s
      convert this using 1
      ring
    exact hd.deriv
  · have hev : (fun s' : ℝ => deriv (fun m' : ℝ =>
        toFin (Loglike Real.log c ⟨m', s', ⟨sum, sumsq, n⟩⟩ g h nd).1) mu)
        =ᶠ[nhds s] fun t : ℝ => (sum - n * mu) / t := by
      filter_upwards [Ioi_mem_nhds hs] with t ht
      exact deriv_mu_Loglike c t sum sumsq n ht g h nd mu
    have hd : HasDerivAt (fun t : ℝ => (sum - n * mu) / t) (-(sum - n * mu) / (s * s)) s := by
      have := (hasDerivAt_inv hs').const_mul (sum - n * mu)
      convert this using 1
      rw [pow_two, neg_div, div_eq_mul_inv, mul_neg]
    exact (hd.congr_of_eventuallyEq hev).deriv
  · have hfun : (fun m : ℝ => deriv (fun s' : ℝ =>
        toFin (Loglike Real.log c ⟨m, s', ⟨sum, sumsq, n⟩⟩ g h nd).1) s)
        = fun m : ℝ => -0.5 * n / s + 0.5 * (sumsq + (-2 * sum + n * m) * m) / (s * s) := by
      funext m
      exact deriv_sigsq_Loglike c s sum sumsq n hs g h nd m
    rw [hfun]
    have h1 : HasDerivAt (fun m : ℝ => (-2 * sum + n * m) * m)
        ((n * 1) * mu + (-2 * sum + n * mu) * 1) mu :=
      (((hasDerivAt_id mu).const_mul n).const_add (-2 * sum)).mul (hasDerivAt_id mu)
    have h2 := ((((h1.const_add sumsq).const_mul (0.5 : ℝ)).div_const (s * s)).const_add
      (-0.5 * n / s))
    have hd : HasDerivAt (fun m : ℝ => -0.5 * n / s
        + 0.5 * (sumsq + (-2 * sum + n * m) * m) / (s * s)) (-(sum - n * mu) / (s * s)) mu := by
      convert h2 using 1
      field_simp
      norm_num
      ring
    exact hd.deriv
  · have hev : (fun s' : ℝ => deriv (fun s'' : ℝ =>
        toFin (Loglike Real.log c ⟨mu, s'', ⟨sum, sumsq, n⟩⟩ g h nd).1) s')
        =ᶠ[nhds s] fun t : ℝ => -0.5 * n / t
          + 0.5 * (sumsq + (-2 * sum + n * mu) * mu) / (t * t) := by
      filter_upwards [Ioi_mem_nhds hs] with t ht
      exact deriv_sigsq_Loglike c t sum sumsq n ht g h nd mu
    have h1 : HasDerivAt (fun t : ℝ => -0.5 * n / t) (-0.5 * n * (-(s ^ 2)⁻¹)) s := by
      have := (hasDerivAt_inv hs').const_mul (-0.5 * n)
      exact this
    have h2 : HasDerivAt (fun t : ℝ => 0.5 * (sumsq + (-2 * sum + n * mu) * mu) / (t * t))
        (0.5 * (sumsq + (-2 * sum + n * mu) * mu) * (-(1 * s + s * 1) / (s * s) ^ 2)) s := by
      have hm : HasDerivAt (fun t : ℝ => t * t) (1 * s + s * 1) s :=
        (hasDerivAt_id s).mul (hasDerivAt_id s)
      have := (hm.inv (mul_ne_zero hs' hs')).const_mul (0.5 * (sumsq + (-2 * sum + n * mu) * mu))
      exact this
    have hd : HasDerivAt (fun t : ℝ => -0.5 * n / t
        + 0.5 * (sumsq + (-2 * sum + n * mu) * mu) / (t * t))
        ((n / 2 - (sumsq + (-2 * sum + n * mu) * mu) / s) / (s * s)) s := by
      convert h1.add h2 using 1
      field_simp
      norm_num
      ring
    exact (hd.congr_of_eventuallyEq hev).deriv

/-- The four entries `Loglike` writes to `h` for a positive variance and
`nd ≥ 2`, when `h` has the entries `(i, j)` for `i, j < 2`. -/
theorem Loglike_hessian_entries {K : Type} [LinearOrderedField K] (l : K → K)
    (c mu s sum sumsq n : K) (hs : 0 < s) (g : Vec (IEEE K)) (h : Mat (IEEE K)) (nd : Nat)
    (hnd : 2 ≤ nd) (hh : ∀ i j, i < 2 → j < 2 → (h.get? i j).isSome) :
    Mat.get? (Loglike l c ⟨mu, s, ⟨sum, sumsq, n⟩⟩ g h nd).2.2 0 0 = some (fin (n / s))
    ∧ Mat.get? (Loglike l c ⟨mu, s, ⟨sum, sumsq, n⟩⟩ g h nd).2.2 0 1
        = some (fin (-(sum - n * mu) / (s * s)))
    ∧ Mat.get? (Loglike l c ⟨mu, s, ⟨sum, sumsq, n⟩⟩ g h nd).2.2 1 0
        = some (fin (-(sum - n * mu) / (s * s)))
    ∧ Mat.get? (Loglike l c ⟨mu, s, ⟨sum, sumsq, n⟩⟩ g h nd).2.2 1 1
        = some (fin ((n / 2 - (sumsq + (-2 * sum + n * mu) * mu) / s) / (s * s))) := by
  have hnd1 : nd > 1 := hnd
  obtain ⟨a00, h00⟩ := Option.isSome_iff_exists.mp (hh 0 0 (by decide) (by decide))
  obtain ⟨a01, h01⟩ := Option.isSome_iff_exists.mp (hh 0 1 (by decide) (by decide))
  obtain ⟨a10, h10⟩ := Option.isSome_iff_exists.mp (hh 1 0 (by decide) (by decide))
  obtain ⟨a11, h11⟩ := Option.isSome_iff_exists.mp (hh 1 1 (by decide) (by decide))
  rw [Loglike_pos _ _ _ _ _ _ _ hs]
  simp [hnd1, Mat.get?_set, h00, h01, h10, h11]

/-- For every sufficient statistic, every `mu`, every `sigsq > 0` and
`nd ≥ 2`: the entries `h(0,1)`, `h(1,0)` and `h(1,1)` written by `Loglike`
are the second partial derivatives of the value it returns, and the entry
`h(0,0)` is the negative of the second partial derivative in `(mu, mu)`. -/
theorem Loglike_hessian (c : ℝ) (suf : GaussianSuf ℝ) (mu sigsq : ℝ) (hs : 0 < sigsq)
    (g : Vec (IEEE ℝ)) (h : Mat (IEEE ℝ)) (nd : Nat) (hnd : 2 ≤ nd)
    (hh : ∀ i j, i < 2 → j < 2 → (h.get? i j).isSome) :
    Mat.get? (Loglike Real.log c ⟨mu, sigsq, suf⟩ g h nd).2.2 0 0
      = some (fin (-(deriv (fun m : ℝ => deriv (fun m' : ℝ =>
          toFin (Loglike Real.log c ⟨m', sigsq, suf⟩ g h nd).1) m) mu)))
    ∧ Mat.get? (Loglike Real.log c ⟨mu, sigsq, suf⟩ g h nd).2.2 0 1
      = some (fin (deriv (fun s' : ℝ => deriv (fun m' : ℝ =>
          toFin (Loglike Real.log c ⟨m', s', suf⟩ g h nd).1) mu) sigsq))
    ∧ Mat.get? (Loglike Real.log c ⟨mu, sigsq, suf⟩ g h nd).2.2 1 0
      = some (fin (deriv (fun m : ℝ => deriv (fun s' : ℝ =>
          toFin (Loglike Real.log c ⟨m, s', suf⟩ g h nd).1) sigsq) mu))
    ∧ Mat.get? (Loglike Real.log c ⟨mu, sigsq, suf⟩ g h nd).2.2 1 1
      = some (fin (deriv (fun s' : ℝ => deriv (fun s'' : ℝ =>
          toFin (Loglike Real.log c ⟨mu, s'', suf⟩ g h nd).1) s') sigsq)) := by
  obtain ⟨sum, sumsq, n⟩ := suf
  obtain ⟨d00, d01, d10, d11⟩ := second_derivs_Loglike c sigsq sum sumsq n hs g h nd mu
  obtain ⟨e00, e01, e10, e11⟩ :=
    Loglike_hessian_entries Real.log c mu sigsq sum sumsq n hs g h nd hnd hh
  rw [d00, d01, d10, d11, neg_neg]
  exact ⟨e00, e01, e10, e11⟩

/-- C7, at a failing input: for the statistic of the single observation `0`
with `mu = 0`, `sigsq = 1` and `nd = 2`, `Loglike` writes `h(0,0) = 1`, while
the second partial derivative in `(mu, mu)` of the value it returns
is `−1`. -/
theorem Loglike_hessian_mu_mu_sign :
    Mat.get? (Loglike Real.log (Real.log (2 * Real.pi)) ⟨0, 1, GaussianSuf.empty.update_raw_all [0]⟩
      [fin 0, fin 0] [[fin 0, fin 0], [fin 0, fin 0]] 2).2.2 0 0 = some (fin 1)
    ∧ deriv (fun m : ℝ => deriv (fun m' : ℝ => toFin
        (Loglike Real.log (Real.log (2 * Real.pi)) ⟨m', 1, GaussianSuf.empty.update_raw_all [0]⟩
          [fin 0, fin 0] [[fin 0, fin 0], [fin 0, fin 0]] 2).1) m) 0 = -1 := by
  have hsuf : (GaussianSuf.empty : GaussianSuf ℝ).update_raw_all [0] = ⟨0, 0, 1⟩ := by
    simp [GaussianSuf.update_raw_all, GaussianSuf.update_raw, GaussianSuf.empty]
  have hh : ∀ i j, i < 2 → j < 2 →
      (Mat.get? [[fin (0 : ℝ), fin 0], [fin 0, fin 0]] i j).isSome := by
    intro i j hi hj
    interval_cases i <;> interval_cases j <;> rfl
  rw [hsuf]
  constructor
  · have := (Loglike_hessian_entries Real.log (Real.log (2 * Real.pi)) 0 1 0 0 1 one_pos
      [fin 0, fin 0] [[fin 0, fin 0], [fin 0, fin 0]] 2 (le_refl 2) hh).1
    simpa using this
  · have := (second_derivs_Loglike (Real.log (2 * Real.pi)) 1 0 0 1 one_pos
      [fin 0, fin 0] [[fin 0, fin 0], [fin 0, fin 0]] 2 0).1
    simpa using this

/-- C8 as amended: for every sufficient statistic, every `mu`, every `nd`
and every `sigsq < 0`, `Loglike` returns `−∞` and writes neither `g` nor
`h`. -/
theorem Loglike_neg {K : Type} [LinearOrderedField K] (l : K → K) (c : K)
    (self : GaussianModel K) (hs : self.Sigsq_prm < 0)
    (g : Vec (IEEE K)) (h : Mat (IEEE K)) (nd : Nat) :
    Loglike l c self g h nd = (negInf, g, h) := by
  simp [Loglike, sigsq, hs]

/-- Witness for `Loglike_neg`: the variance `−1`. -/
theorem Loglike_neg_witness :
    (-1 : ℚ) < 0
    ∧ Loglike (fun _ => 0) log2piLiteral
        { Mu_prm := 0, Sigsq_prm := (-1 : ℚ), suf := { sum_ := 1, sumsq_ := 1, n_ := 1 } }
        [fin 7, fin 8] [] 2 = (negInf, [fin 7, fin 8], []) :=
  ⟨by norm_num, Loglike_neg (fun _ => 0) log2piLiteral
    { Mu_prm := 0, Sigsq_prm := (-1 : ℚ), suf := { sum_ := 1, sumsq_ := 1, n_ := 1 } }
    (by norm_num) [fin 7, fin 8] [] 2⟩

/-- C8, counterexample: with the variance `0`, `mu = 0` and the statistic of
the single observation `1`, `Loglike` evaluates `1·(log2pi + log 0) + 1/0`,
which is `−∞ + ∞`, and returns NaN, not `−∞`. -/
theorem Loglike_zero_variance_nan :
    (0 : ℝ) ≤ 0
    ∧ (Loglike Real.log (Real.log (2 * Real.pi))
        { Mu_prm := 0, Sigsq_prm := 0, suf := GaussianSuf.empty.update_raw_all [1] }
        [] [] 0).1 = nan
    ∧ (Loglike Real.log (Real.log (2 * Real.pi))
        { Mu_prm := 0, Sigsq_prm := 0, suf := GaussianSuf.empty.update_raw_all [1] }
        [] [] 0).1 ≠ negInf := by
  have hv : (Loglike Real.log (Real.log (2 * Real.pi))
        { Mu_prm := 0, Sigsq_prm := 0, suf := GaussianSuf.empty.update_raw_all [1] }
        [] [] 0).1 = nan := by
    norm_num [Loglike, SS, GaussianModel.mu, sigsq, GaussianSuf.n, GaussianSuf.sum,
      GaussianSuf.sumsq, GaussianSuf.update_raw_all, GaussianSuf.update_raw, GaussianSuf.empty,
      IEEE.log, IEEE.add_def, IEEE.mul_def, IEEE.div_def, IEEE.add, IEEE.mul, IEEE.div,
      IEEE.signedInf]
  refine ⟨le_refl 0, hv, ?_⟩
  rw [hv]
  exact fun hne => IEEE.noConfusion hne

end GaussianModel

/-! ## GaussianModelBase.Logp -/

namespace GaussianModelBase

/-- The derivative in `x` of the log of the normal density. -/
theorem hasDerivAt_logNormalDensity (mu sigsq x : ℝ) :
    HasDerivAt (fun t : ℝ => logNormalDensity Real.log (2 * Real.pi) t mu sigsq)
      (-(x - mu) / sigsq) x := by
  have h1 : HasDerivAt (fun t : ℝ => (t - mu) ^ 2) (2 * (x - mu) ^ 1 * 1) x :=
    ((hasDerivAt_id x).sub_const mu).pow 2
  have h2 := ((h1.div_const (2 * sigsq)).const_sub (-(1 / 2) * Real.log (2 * Real.pi * sigsq)))
  unfold logNormalDensity
  convert h2 using 1
  by_cases hs : sigsq = 0
  · simp [hs]
  · field_simp
    ring

/-- The derivative in `x` of `−(x − mu)/sigsq`. -/
theorem hasDerivAt_neg_sub_div (mu sigsq x : ℝ) :
    HasDerivAt (fun t : ℝ => -(t - mu) / sigsq) (-1 / sigsq) x := by
  have h := (((hasDerivAt_id x).sub_const mu).neg).div_const sigsq
  exact h

/-- C9: for every `x`, `mu` and `sigsq > 0`, `Logp` with `nd ≥ 1` sets `g` to
`−(x − mu)/sigsq`, the derivative in `x` of the log density
`log N(x | mu, sigsq)`, and with `nd ≥ 2` sets `h` to `−1/sigsq`, its second
derivative; with `nd = 0` it leaves `g` and `h` as they were and with
`nd = 1` it leaves `h` as it was; the vector overload writes the same two
numbers to `g[0]` and `h(0,0)`, under the same conditions on `nd`.  The
hypothesis on `sigsq` keeps the division of the model within the range
where it is the division of the source. -/
theorem Logp_derivatives (dnorm : ℝ → ℝ → ℝ → Bool → ℝ) (self : GaussianModelBase ℝ)
    (hs : 0 < self.sigsq) (x g h : ℝ) (xs : List ℝ) (gv : Vec ℝ) (hm : Mat ℝ) (nd : Nat) :
    (1 ≤ nd →
      (self.Logp dnorm x g h nd).2.1 = -(x - self.mu) / self.sigsq
      ∧ HasDerivAt (fun t : ℝ => logNormalDensity Real.log (2 * Real.pi) t self.mu self.sigsq)
          (self.Logp dnorm x g h nd).2.1 x)
    ∧ (2 ≤ nd →
      (self.Logp dnorm x g h nd).2.2 = -1 / self.sigsq
      ∧ HasDerivAt (fun t : ℝ =>
          deriv (fun u : ℝ => logNormalDensity Real.log (2 * Real.pi) u self.mu self.sigsq) t)
          (self.Logp dnorm x g h nd).2.2 x)
    ∧ (nd = 0 → (self.Logp dnorm x g h nd).2 = (g, h))
    ∧ (nd = 1 → (self.Logp dnorm x g h nd).2.2 = h)
    ∧ self.LogpVec dnorm (x :: xs) gv hm nd
        = some ((self.Logp dnorm x 0 0 nd).1,
            if nd > 0 then gv.set 0 (self.Logp dnorm x g h nd).2.1 else gv,
            if nd > 1 then hm.set 0 0 (self.Logp dnorm x g h nd).2.2 else hm) := by
  have _ := hs
  refine ⟨?_, ?_, ?_, ?_, ?_⟩
  · intro h1
    have h0 : nd > 0 := h1
    have hg : (self.Logp dnorm x g h nd).2.1 = -(x - self.mu) / self.sigsq := by
      simp [Logp, h0]
    rw [hg]
    exact ⟨rfl, hasDerivAt_logNormalDensity self.mu self.sigsq x⟩
  · intro h2
    have h1 : nd > 1 := h2
    have hh : (self.Logp dnorm x g h nd).2.2 = -1 / self.sigsq := by
      simp [Logp, h1]
    rw [hh]
    refine ⟨rfl, ?_⟩
    have hfun : (fun t : ℝ =>
          deriv (fun u : ℝ => logNormalDensity Real.log (2 * Real.pi) u self.mu self.sigsq) t)
        = fun t : ℝ => -(t - self.mu) / self.sigsq := by
      funext t
      exact (hasDerivAt_logNormalDensity self.mu self.sigsq t).deriv
    rw [hfun]
    exact hasDerivAt_neg_sub_div self.mu self.sigsq x
  · intro h0
    simp [Logp, h0]
  · intro h1
    simp [Logp, h1]
  · by_cases h0 : nd > 0
    · by_cases h1 : nd > 1
      · simp [LogpVec, Logp, h0, h1]
      · simp [LogpVec, Logp, h0, h1]
    · have h1 : ¬ nd > 1 := by omega
      simp [LogpVec, Logp, h0, h1]

/-- Witness for `Logp_derivatives`: `mu = 1`, `sigsq = 4`, `x = 3`,
`nd = 2`. -/
theorem Logp_derivatives_witness :
    (0 : ℝ) < 4
    ∧ (Logp (fun x m s _ => logNormalDensity Real.log (2 * Real.pi) x m (s * s))
        ⟨1, 4, 2, GaussianSuf.empty⟩ 3 0 0 2).2.1 = -(3 - 1) / 4
    ∧ (Logp (fun x m s _ => logNormalDensity Real.log (2 * Real.pi) x m (s * s))
        ⟨1, 4, 2, GaussianSuf.empty⟩ 3 0 0 2).2.2 = -1 / 4 := by
  have h := Logp_derivatives
    (fun x m s _ => logNormalDensity Real.log (2 * Real.pi) x m (s * s))
    ⟨1, 4, 2, GaussianSuf.empty⟩ (by norm_num) 3 0 0 [] [] [] 2
  exact ⟨by norm_num, (h.1 (by decide)).1, (h.2.1 (le_refl 2)).1⟩

end GaussianModelBase

/-! ## CompositeModel.pdf -/

namespace CompositeModel
variable {D α : Type}

/-- The loop of `pdf`: after `k` rounds, with `k` at most the common length
of `m_` and the datum, no read has failed and `ans` holds the initial value
plus the first `k` log densities. -/
theorem pdf_loop [AddMonoid α] (ms : List (MixtureComponent D α)) (ds : List D)
    (hlen : ds.length = ms.length) (k : Nat) (hk : k ≤ ds.length) (a0 : α) :
    (List.range k).foldlM
      (fun (ans : α) (i : Nat) => do
        let mi ← List.get? ms i
        let di ← List.get? ds i
        pure (ans + mi.pdf di true)) a0
      = some (a0 + ((List.zipWith (fun m d => m.pdf d true) ms ds).take k).sum) := by
  induction k with
  | zero => simp
  | succ k ih =>
    have hkd : k < ds.length := hk
    have hkm : k < ms.length := hlen ▸ hkd
    rw [List.range_succ, List.foldlM_append, ih (Nat.le_of_succ_le hk)]
    have hz : k < (List.zipWith (fun m d => m.pdf d true) ms ds).length := by
      simp [List.length_zipWith, hkd, hkm]
    rw [List.take_succ, List.sum_append]
    simp [List.getElem?_eq_getElem hkd, List.getElem?_eq_getElem hkm, List.getElem?_eq_getElem hz,
      add_assoc]

/-- When the dimension of the datum is the number of sub-models, `pdf`
returns the sum of the log densities of the sub-models on their parts, or
`exp` of that sum when `logscale` is false; for densities in any additive
monoid. -/
theorem pdf_eq_sum [AddMonoid α] (exp : α → α) (self : CompositeModel D α)
    (dp : CompositeData D) (hdim : dp.dim = self.m_.length) (logscale : Bool) :
    self.pdf exp dp logscale
      = some (if logscale then (List.zipWith (fun m d => m.pdf d true) self.m_ dp.dat_).sum
              else exp (List.zipWith (fun m d => m.pdf d true) self.m_ dp.dat_).sum) := by
  have hz : (List.zipWith (fun (m : MixtureComponent D α) d => m.pdf d true)
      self.m_ dp.dat_).length ≤ dp.dim := by
    simp [List.length_zipWith, CompositeData.dim]
  have hloop := pdf_loop self.m_ dp.dat_ hdim dp.dim (le_refl _) (0 : α)
  rw [List.take_of_length_le hz, zero_add] at hloop
  unfold pdf
  simp only [CompositeData.get, hdim, ne_eq, not_true_eq_false, if_false]
  rw [← hdim]
  simp only [bind_pure_comp, Option.pure_def, Option.bind_eq_bind] at hloop ⊢
  rw [hloop]
  rfl

/-- The density of a Gaussian model is `exp` of its log density. -/
theorem pdf_false_eq_exp {K : Type} [LinearOrderedField K] (dnorm : K → K → K → Bool → K)
    (exp : K → K) (m : GaussianModelBase K) (dat : List (DoubleData K)) (d : DoubleData K) :
    (m.toMixtureComponent dnorm exp dat).pdf d false
      = exp ((m.toMixtureComponent dnorm exp dat).pdf d true) := rfl

/-- C10: for every composite datum whose dimension is the number of
sub-models, `pdf(d, true)` is the sum over `i` of the log density of
sub-model `i` on part `i` of `d` and `pdf(d, false)` is the exponential of
that sum; and for two sub-models whose density on their part is the
exponential of their log density, `pdf(d, false)` is the product
`pdf_1(part_1, false) · pdf_2(part_2, false)`. -/
theorem pdf_factorises (self : CompositeModel D ℝ) (dp : CompositeData D)
    (hdim : dp.dim = self.m_.length)
    (m1 m2 : MixtureComponent D ℝ) (d1 d2 : D) (dat : List (CompositeData D))
    (h1 : m1.pdf d1 false = Real.exp (m1.pdf d1 true))
    (h2 : m2.pdf d2 false = Real.exp (m2.pdf d2 true)) :
    self.pdf Real.exp dp true
      = some ((List.zipWith (fun m d => m.pdf d true) self.m_ dp.dat_).sum)
    ∧ self.pdf Real.exp dp false
      = some (Real.exp (List.zipWith (fun m d => m.pdf d true) self.m_ dp.dat_).sum)
    ∧ pdf Real.exp { m_ := [m1, m2], dat := dat } { dat_ := [d1, d2] } false
      = some (m1.pdf d1 false * m2.pdf d2 false) := by
  refine ⟨pdf_eq_sum Real.exp self dp hdim true, pdf_eq_sum Real.exp self dp hdim false, ?_⟩
  have hp := pdf_eq_sum Real.exp { m_ := [m1, m2], dat := dat } { dat_ := [d1, d2] } rfl false
  rw [hp, h1, h2, ← Real.exp_add]
  simp

/-- Witness for `pdf_factorises`: two Gaussian models, `N(0, 1)` and
`N(1, 4)`, and the datum `(0, 3)`. -/
theorem pdf_factorises_witness :
    CompositeData.dim { dat_ := [(⟨0⟩ : DoubleData ℝ), ⟨3⟩] } = 2
    ∧ pdf Real.exp
        { m_ := [GaussianModelBase.toMixtureComponent
                   (fun x m s _ => logNormalDensity Real.log (2 * Real.pi) x m (s * s))
                   Real.exp ⟨0, 1, 1, GaussianSuf.empty⟩ [],
                 GaussianModelBase.toMixtureComponent
                   (fun x m s _ => logNormalDensity Real.log (2 * Real.pi) x m (s * s))
                   Real.exp ⟨1, 4, 2, GaussianSuf.empty⟩ []],
          dat := [] }
        { dat_ := [(⟨0⟩ : DoubleData ℝ), ⟨3⟩] } false
      = some (GaussianModelBase.pdf
                (fun x m s _ => logNormalDensity Real.log (2 * Real.pi) x m (s * s))
                Real.exp ⟨0, 1, 1, GaussianSuf.empty⟩ ⟨0⟩ false
              * GaussianModelBase.pdf
                (fun x m s _ => logNormalDensity Real.log (2 * Real.pi) x m (s * s))
                Real.exp ⟨1, 4, 2, GaussianSuf.empty⟩ ⟨3⟩ false) :=
  ⟨rfl, (pdf_factorises
    { m_ := [GaussianModelBase.toMixtureComponent
               (fun x m s _ => logNormalDensity Real.log (2 * Real.pi) x m (s * s))
               Real.exp ⟨0, 1, 1, GaussianSuf.empty⟩ [],
             GaussianModelBase.toMixtureComponent
               (fun x m s _ => logNormalDensity Real.log (2 * Real.pi) x m (s * s))
               Real.exp ⟨1, 4, 2, GaussianSuf.empty⟩ []],
      dat := [] }
    { dat_ := [(⟨0⟩ : DoubleData ℝ), ⟨3⟩] } rfl
    (GaussianModelBase.toMixtureComponent
      (fun x m s _ => logNormalDensity Real.log (2 * Real.pi) x m (s * s))
      Real.exp ⟨0, 1, 1, GaussianSuf.empty⟩ [])
    (GaussianModelBase.toMixtureComponent
      (fun x m s _ => logNormalDensity Real.log (2 * Real.pi) x m (s * s))
      Real.exp ⟨1, 4, 2, GaussianSuf.empty⟩ [])
    ⟨0⟩ ⟨3⟩ []
    (pdf_false_eq_exp _ _ _ _ _) (pdf_false_eq_exp _ _ _ _ _)).2.2⟩

end CompositeModel

/-! ## CompositeModel.add_data -/

namespace CompositeModel

variable {D α : Type}

/-- The loop of `add_data`: after `k` rounds the first `k` sub-models have
received their parts and the others are as they were. -/
theorem add_data_loop (ms : List (MixtureComponent D α)) (ds : List D) (k : Nat)
    (hk : k ≤ ds.length) (j : Nat) :
    ((List.range k).foldl
      (fun (m_ : List (MixtureComponent D α)) (i : Nat) =>
        match List.get? ds i with
        | some di => List.modify (fun mi => mi.add_data di) i m_
        | none => m_) ms)[j]?
      = if j < k then
          (ms[j]?).bind (fun m => (ds[j]?).map (fun d => m.add_data d))
        else ms[j]? := by
  induction k with
  | zero => simp
  | succ k ih =>
    have hkd : k < ds.length := hk
    rw [List.range_succ, List.foldl_append]
    simp only [List.foldl_cons, List.foldl_nil, List.get?_eq_getElem?,
      List.getElem?_eq_getElem hkd]
    rw [List.getElem?_modify]
    have ih' := ih (Nat.le_of_succ_le hk)
    simp only [List.get?_eq_getElem?] at ih'
    rw [ih']
    by_cases hjk : j < k
    · have h1 : j < k + 1 := by omega
      have h2 : k ≠ j := by omega
      simp [hjk, h1, h2]
    · by_cases hj : j = k
      · subst hj
        simp [List.getElem?_eq_getElem hkd]
        cases ms[j]? <;> simp
      · have h1 : ¬ j < k + 1 := by omega
        have h2 : k ≠ j := fun h => hj h.symm
        simp [hjk, h1, h2]

/-- C11 as amended: `add_data` first appends the datum to the data set of
the composite model; if the dimension of the datum differs from the number
of sub-models the `assert` then fails, with the datum already in the data
set and no sub-model changed; if the dimensions agree, part `i` of the datum
is added to sub-model `i` for every `i`. -/
theorem add_data_eq (self : CompositeModel D α) (dp : CompositeData D) :
    self.add_data dp
      = if dp.dim = self.m_.length then
          Outcome.returned
            { m_ := List.zipWith (fun m d => m.add_data d) self.m_ dp.dat_,
              dat := self.dat ++ [dp] }
        else
          Outcome.raised Thrown.assertion { m_ := self.m_, dat := self.dat ++ [dp] } := by
  unfold add_data DataPolicy_add_data
  by_cases hdim : dp.dim = self.m_.length
  · simp only [hdim, ne_eq, not_true_eq_false, if_false, if_true]
    congr 1
    congr 1
    apply List.ext_getElem?
    intro j
    have h := add_data_loop self.m_ dp.dat_ dp.dim (le_refl _) j
    simp only [CompositeData.get]
    rw [hdim] at h
    refine h.trans ?_
    rw [List.getElem?_zipWith]
    by_cases hj : j < self.m_.length
    · have hj2 : j < self.m_.length := hj
      have hj1 : j < dp.dat_.length := by rw [← hdim] at hj; exact hj
      simp [hj, List.getElem?_eq_getElem hj1, List.getElem?_eq_getElem hj2]
    · have hj2 : self.m_.length ≤ j := Nat.le_of_not_lt hj
      have hj1 : dp.dat_.length ≤ j := by rw [← hdim] at hj2; exact hj2
      simp [hj, List.getElem?_eq_none hj1, List.getElem?_eq_none hj2]
  · simp [hdim]

/-- C11, counterexample: a datum of dimension 1 given to a composite model
with no sub-model makes the `assert` fail, and when it fails the data set of
the composite model already holds the datum. -/
theorem add_data_stores_before_assert :
    (add_data ({ m_ := [], dat := [] } : CompositeModel Nat Nat) { dat_ := [7] })
      = Outcome.raised Thrown.assertion { m_ := [], dat := [{ dat_ := [7] }] }
    ∧ (add_data ({ m_ := [], dat := [] } : CompositeModel Nat Nat) { dat_ := [7] }).state.dat
      ≠ [] := by
  constructor
  · rfl
  · simp [add_data, DataPolicy_add_data, CompositeData.dim, Outcome.state]

end CompositeModel

/-! ## MarkovConjSampler -/

namespace MarkovConjSampler

variable {K ρ : Type}

/-- A loop that assigns row `s` in round `s` and updates the rest of its
state with `next`: after `k` rounds the rest of the state is
`loop_state next a0 k`, the rows below `k` that exist hold the values
assigned and the other rows are as they were. -/
theorem set_row_fold {A : Type} (val : A → Nat → Vec K) (next : A → Nat → A)
    (Q : Mat K) (a0 : A) (k : Nat) :
    ((List.range k).foldl
        (fun (st : Mat K × A) (s : Nat) => (st.1.set_row s (val st.2 s), next st.2 s))
        (Q, a0)).2 = loop_state next a0 k
    ∧ ∀ j, ((List.range k).foldl
        (fun (st : Mat K × A) (s : Nat) => (st.1.set_row s (val st.2 s), next st.2 s))
        (Q, a0)).1[j]?
      = if j < k then (Q[j]?).map (fun _ => val (loop_state next a0 j) j) else Q[j]? := by
  induction k with
  | zero => simp [loop_state]
  | succ k ih =>
    rw [List.range_succ, List.foldl_append]
    simp only [List.foldl_cons, List.foldl_nil]
    generalize (List.range k).foldl
        (fun (st : Mat K × A) (s : Nat) => (st.1.set_row s (val st.2 s), next st.2 s))
        (Q, a0) = R at ih ⊢
    obtain ⟨ih2, ih1⟩ := ih
    refine ⟨?_, ?_⟩
    · show next R.2 k = _
      rw [ih2]; rfl
    · intro j
      show (List.set R.1 k (val R.2 k))[j]? = _
      rw [List.getElem?_set', ih1 j, ih2]
      by_cases hj : k = j
      · subst hj
        simp
        rfl
      · have : (j < k + 1) ↔ (j < k) := by omega
        simp [hj, this]

/-- The generator component of the loop state of `draw()`. -/
theorem rng_before_eq [Add K] (rd : ρ → Vec K → Vec K × ρ) (Nu N : Mat K) (wsp : Vec K)
    (rng : ρ) (j : Nat) :
    (loop_state
      (fun (a : Vec K × ρ) (s : Nat) =>
        (Vec.add (Nu.row s) (N.row s), (rd a.2 (Vec.add (Nu.row s) (N.row s))).2))
      (wsp, rng) j).2 = rng_before rd Nu N rng j := by
  induction j with
  | zero => rfl
  | succ j ih =>
    simp only [loop_state, rng_before, ih]

/-- The row `s` of a matrix whose entry `s` is `v`. -/
theorem row_of_getElem? (Q : Mat K) (s : Nat) (v : Vec K) (h : Q[s]? = some v) :
    Q.row s = v := by
  simp [Mat.row, List.getD_eq_getElem?_getD, h]

/-- Matrices of the same dimension have the same number of rows. -/
theorem same_dim_nrow (A B : Mat K) (h : A.same_dim B = true) : A.nrow = B.nrow := by
  simp only [Mat.same_dim, Bool.and_eq_true, beq_iff_eq] at h
  exact h.1

/-- After `draw()`, row `s` of the transition matrix of the model is the
Dirichlet draw with parameter `Nu.row(s) + trans.row(s)`. -/
theorem draw_rows [Add K] (rd : ρ → Vec K → Vec K × ρ) (self : MarkovConjSampler K ρ)
    (hdim : self.Nu.same_dim self.mod_.Q = true) (s : Nat) (hs : s < self.Nu.nrow) :
    (self.draw rd).state.mod_.Q.row s
      = (rd (rng_before rd self.Nu self.mod_.suf.trans self.rng s)
          (Vec.add (self.Nu.row s) (self.mod_.suf.trans.row s))).1 := by
  have hn := same_dim_nrow _ _ hdim
  have hsQ : s < self.mod_.Q.length := by
    have : s < self.mod_.Q.nrow := hn ▸ hs
    exact this
  obtain ⟨_, h1⟩ := set_row_fold
    (fun (a : Vec K × ρ) (s : Nat) =>
      (rd a.2 (Vec.add (self.Nu.row s) (self.mod_.suf.trans.row s))).1)
    (fun (a : Vec K × ρ) (s : Nat) =>
      (Vec.add (self.Nu.row s) (self.mod_.suf.trans.row s),
       (rd a.2 (Vec.add (self.Nu.row s) (self.mod_.suf.trans.row s))).2))
    self.mod_.Q (self.wsp, self.rng) self.Nu.nrow
  have h1s := h1 s
  rw [if_pos hs, List.getElem?_eq_getElem hsQ, rng_before_eq] at h1s
  apply row_of_getElem?
  unfold draw
  simp only [hdim, not_true_eq_false, if_false]
  split_ifs <;> first
    | exact h1s
    | (split <;> first | exact h1s | (split <;> exact h1s))

/-- The state of the generator after the loop of `draw()`. -/
theorem draw_rng [Add K] (rd : ρ → Vec K → Vec K × ρ) (self : MarkovConjSampler K ρ) :
    ((List.range self.Nu.nrow).foldl
      (fun (st : Mat K × Vec K × ρ) (s : Nat) =>
        (st.1.set_row s (rd st.2.2 (Vec.add (self.Nu.row s) (self.mod_.suf.trans.row s))).1,
         Vec.add (self.Nu.row s) (self.mod_.suf.trans.row s),
         (rd st.2.2 (Vec.add (self.Nu.row s) (self.mod_.suf.trans.row s))).2))
      (self.mod_.Q, self.wsp, self.rng)).2.2
      = rng_before rd self.Nu self.mod_.suf.trans self.rng self.Nu.nrow := by
  obtain ⟨h2, _⟩ := set_row_fold
    (fun (a : Vec K × ρ) (s : Nat) =>
      (rd a.2 (Vec.add (self.Nu.row s) (self.mod_.suf.trans.row s))).1)
    (fun (a : Vec K × ρ) (s : Nat) =>
      (Vec.add (self.Nu.row s) (self.mod_.suf.trans.row s),
       (rd a.2 (Vec.add (self.Nu.row s) (self.mod_.suf.trans.row s))).2))
    self.mod_.Q (self.wsp, self.rng) self.Nu.nrow
  rw [← rng_before_eq rd self.Nu self.mod_.suf.trans self.wsp self.rng, ← h2]

/-- After `draw()` with a free `pi0` and a prior for it, `pi0` is the
Dirichlet draw with parameter `nu + init`. -/
theorem draw_pi0 [Add K] (rd : ρ → Vec K → Vec K × ρ) (self : MarkovConjSampler K ρ)
    (hdim : self.Nu.same_dim self.mod_.Q = true) (nu : Vec K) (hnu : self.pi0_ = some nu)
    (hfree : self.mod_.pi0_fixed = false) :
    (self.draw rd).state.mod_.pi0
      = (rd (rng_before rd self.Nu self.mod_.suf.trans self.rng self.Nu.nrow)
          (Vec.add nu self.mod_.suf.init)).1 := by
  have hr := draw_rng rd self
  unfold draw
  simp only [hdim, not_true_eq_false, if_false, MarkovModel.set_Q, hfree, check_pi0,
    MarkovConjSampler.nu, check_nu, hnu, Option.isSome_some, if_true, Outcome.state, MarkovModel.set_pi0,
    Bool.false_eq_true, hr]

/-- After `find_posterior_mode()`, row `s` of the transition matrix of the
model is the Dirichlet mode with parameter `Nu.row(s) + trans.row(s)`. -/
theorem mode_rows [Add K] (md : Vec K → Vec K) (self : MarkovConjSampler K ρ)
    (hdim : self.Nu.same_dim self.mod_.Q = true) (s : Nat) (hs : s < self.Nu.nrow) :
    (self.find_posterior_mode md).state.mod_.Q.row s
      = md (Vec.add (self.Nu.row s) (self.mod_.suf.trans.row s)) := by
  have hn := same_dim_nrow _ _ hdim
  have hsQ : s < self.mod_.Q.length := by
    have : s < self.mod_.Q.nrow := hn ▸ hs
    exact this
  obtain ⟨_, h1⟩ := set_row_fold
    (fun (_ : Vec K) (s : Nat) => md (Vec.add (self.Nu.row s) (self.mod_.suf.trans.row s)))
    (fun (_ : Vec K) (s : Nat) => Vec.add (self.Nu.row s) (self.mod_.suf.trans.row s))
    self.mod_.Q self.wsp self.Nu.nrow
  have h1s := h1 s
  rw [if_pos hs, List.getElem?_eq_getElem hsQ] at h1s
  apply row_of_getElem?
  unfold find_posterior_mode
  simp only [hdim, not_true_eq_false, if_false]
  split_ifs <;> first
    | exact h1s
    | (split <;> first | exact h1s | (split <;> exact h1s))

/-- After `find_posterior_mode()` with a free `pi0` and a prior for it,
`pi0` is the Dirichlet mode with parameter `nu + init`. -/
theorem mode_pi0 [Add K] (md : Vec K → Vec K) (self : MarkovConjSampler K ρ)
    (hdim : self.Nu.same_dim self.mod_.Q = true) (nu : Vec K) (hnu : self.pi0_ = some nu)
    (hfree : self.mod_.pi0_fixed = false) :
    (self.find_posterior_mode md).state.mod_.pi0 = md (Vec.add nu self.mod_.suf.init) := by
  unfold find_posterior_mode
  simp only [hdim, not_true_eq_false, if_false, MarkovModel.set_Q, hfree, check_pi0,
    MarkovConjSampler.nu, check_nu, hnu, Option.isSome_some, if_true, Outcome.state, MarkovModel.set_pi0,
    Bool.false_eq_true]

/-- C12: when the prior matrix `Nu` has the dimension of the transition
matrix, then for every row `s` the vector passed to the Dirichlet draw of
`draw()` is `Nu.row(s) + trans.row(s)`, the draw is made with the state the
generator has after the draws of the rows before, and the result is row `s`
of the `Q` written to the model; when `pi0` is free and has a prior, `pi0`
is drawn with parameter `nu + init`, after the rows; and
`find_posterior_mode()` writes the Dirichlet modes of the same parameter
vectors. -/
theorem posterior_hyperparameters [Add K] (rd : ρ → Vec K → Vec K × ρ) (md : Vec K → Vec K)
    (self : MarkovConjSampler K ρ) (hdim : self.Nu.same_dim self.mod_.Q = true) :
    (∀ s, s < self.Nu.nrow →
      (self.draw rd).state.mod_.Q.row s
        = (rd (rng_before rd self.Nu self.mod_.suf.trans self.rng s)
            (Vec.add (self.Nu.row s) (self.mod_.suf.trans.row s))).1
      ∧ (self.find_posterior_mode md).state.mod_.Q.row s
        = md (Vec.add (self.Nu.row s) (self.mod_.suf.trans.row s)))
    ∧ (∀ nu, self.pi0_ = some nu → self.mod_.pi0_fixed = false →
      (self.draw rd).state.mod_.pi0
        = (rd (rng_before rd self.Nu self.mod_.suf.trans self.rng self.Nu.nrow)
            (Vec.add nu self.mod_.suf.init)).1
      ∧ (self.find_posterior_mode md).state.mod_.pi0 = md (Vec.add nu self.mod_.suf.init)) :=
  ⟨fun s hs => ⟨draw_rows rd self hdim s hs, mode_rows md self hdim s hs⟩,
   fun nu hnu hfree => ⟨draw_pi0 rd self hdim nu hnu hfree, mode_pi0 md self hdim nu hnu hfree⟩⟩

/-- C13: for a sampler whose prior matrix `Nu` has the dimension of the
transition matrix.  Without a prior for `pi0`, `nu()` raises a runtime error,
and each of `draw()`, `find_posterior_mode()` and `logpri()` raises a runtime
error if and only if the `pi0` of the model is not fixed; when it is fixed,
`draw()` returns and leaves `pi0` as it was.  With a prior for `pi0` none of
the four raises. -/
theorem missing_pi0_prior [Zero K] [Add K] (rd : ρ → Vec K → Vec K × ρ)
    (md : Vec K → Vec K) (dd : Vec K → Vec K → Bool → K) (self : MarkovConjSampler K ρ)
    (hdim : self.Nu.same_dim self.mod_.Q = true) :
    (self.pi0_ = none →
      self.nu = Except.error Thrown.runtime_error
      ∧ ((self.draw rd).error = some Thrown.runtime_error ↔ self.mod_.pi0_fixed = false)
      ∧ ((self.find_posterior_mode md).error = some Thrown.runtime_error
          ↔ self.mod_.pi0_fixed = false)
      ∧ (self.logpri dd = Except.error Thrown.runtime_error ↔ self.mod_.pi0_fixed = false)
      ∧ (self.mod_.pi0_fixed = true →
          (self.draw rd).error = none ∧ (self.draw rd).state.mod_.pi0 = self.mod_.pi0))
    ∧ (self.pi0_.isSome = true →
      (∃ v, self.nu = Except.ok v)
      ∧ (self.draw rd).error = none
      ∧ (self.find_posterior_mode md).error = none
      ∧ ∃ v, self.logpri dd = Except.ok v) := by
  constructor
  · intro hnone
    refine ⟨?_, ?_, ?_, ?_, ?_⟩
    · simp [MarkovConjSampler.nu, check_nu, hnone]
    · cases hf : self.mod_.pi0_fixed <;>
        simp [draw, hdim, hf, check_pi0, hnone, MarkovModel.set_Q, Outcome.error]
    · cases hf : self.mod_.pi0_fixed <;>
        simp [find_posterior_mode, hdim, hf, check_pi0, hnone, MarkovModel.set_Q, Outcome.error]
    · cases hf : self.mod_.pi0_fixed <;>
        simp [logpri, hdim, hf, check_pi0, hnone]
    · intro hf
      simp [draw, hdim, hf, MarkovModel.set_Q, Outcome.error, Outcome.state]
  · intro hsome
    obtain ⟨nu, hnu⟩ := Option.isSome_iff_exists.mp hsome
    refine ⟨?_, ?_, ?_, ?_⟩
    · exact ⟨nu, by simp [MarkovConjSampler.nu, check_nu, hnu]⟩
    · cases hf : self.mod_.pi0_fixed <;>
        simp [draw, hdim, hf, check_pi0, MarkovConjSampler.nu, check_nu, hnu,
          MarkovModel.set_Q, Outcome.error]
    · cases hf : self.mod_.pi0_fixed <;>
        simp [find_posterior_mode, hdim, hf, check_pi0, MarkovConjSampler.nu, check_nu, hnu,
          MarkovModel.set_Q, Outcome.error]
    · cases hf : self.mod_.pi0_fixed <;>
        simp [logpri, hdim, hf, check_pi0, MarkovConjSampler.nu, check_nu, hnu]

/-- Witness for `posterior_hyperparameters`: two states, prior counts `1`,
transition counts `(3 1; 2 5)` and a generator that adds its state to the
parameter vector: row 1 is drawn with parameter `(3, 6)` and state `11`. -/
theorem posterior_hyperparameters_witness :
    Mat.same_dim [[1, 1], [1, 1]] [[1, 0], [0, 1]] = true
    ∧ ((draw (fun (r : Nat) (v : Vec Nat) => (v.map (· + r), r + 1))
          (mk_with_pi0 ⟨[[1, 0], [0, 1]], [1, 0], true, ⟨[[3, 1], [2, 5]], [1, 0]⟩⟩
            [[1, 1], [1, 1]] [1, 1] 10)).state.mod_.Q.row 1
        = [14, 17]) := by
  refine ⟨by decide, ?_⟩
  rw [((posterior_hyperparameters (fun (r : Nat) (v : Vec Nat) => (v.map (· + r), r + 1))
    id (mk_with_pi0 ⟨[[1, 0], [0, 1]], [1, 0], true, ⟨[[3, 1], [2, 5]], [1, 0]⟩⟩
            [[1, 1], [1, 1]] [1, 1] 10) (by decide)).1 1 (by decide)).1]
  decide

/-- Witness for `missing_pi0_prior`: a sampler without a prior for `pi0`
on a model whose `pi0` is free. -/
theorem missing_pi0_prior_witness :
    Mat.same_dim [[1, 1], [1, 1]] [[1, 0], [0, 1]] = true
    ∧ (draw (fun (r : Nat) (v : Vec Nat) => (v.map (· + r), r + 1))
        (mk_without_pi0 ⟨[[1, 0], [0, 1]], [1, 0], false, ⟨[[3, 1], [2, 5]], [1, 0]⟩⟩
          [[1, 1], [1, 1]] 10)).error = some Thrown.runtime_error :=
  ⟨by decide,
   (((missing_pi0_prior (fun (r : Nat) (v : Vec Nat) => (v.map (· + r), r + 1)) id
      (fun _ _ _ => 0)
      (mk_without_pi0 ⟨[[1, 0], [0, 1]], [1, 0], false, ⟨[[3, 1], [2, 5]], [1, 0]⟩⟩
        [[1, 1], [1, 1]] 10) (by decide)).1 rfl).2.1).mpr rfl⟩

end MarkovConjSampler

/-! ## LogitSampler -/

namespace LogitSampler

open IEEE

/-- The logistic quantile is at least `0` from the value of the distribution
function at `0` on. -/
theorem logit_ge (eta v : ℝ) (hv0 : 0 < v) (hv1 : v < 1) (h : 1 / (1 + Real.exp eta) ≤ v) :
    0 ≤ eta + Real.log (v / (1 - v)) := by
  have he : 0 < Real.exp eta := Real.exp_pos eta
  have h1v : 0 < 1 - v := by linarith
  have hw : 0 < v / (1 - v) := div_pos hv0 h1v
  have h1 : 1 ≤ v * (1 + Real.exp eta) := by
    rwa [div_le_iff₀ (by linarith)] at h
  have h2 : Real.exp (-eta) ≤ v / (1 - v) := by
    rw [Real.exp_neg, le_div_iff₀ h1v, inv_mul_le_iff₀ he]
    nlinarith
  have h3 := (Real.le_log_iff_exp_le hw).mpr h2
  linarith

/-- The logistic quantile is at most `0` up to the value of the distribution
function at `0`. -/
theorem logit_le (eta v : ℝ) (hv0 : 0 < v) (hv1 : v < 1) (h : v ≤ 1 / (1 + Real.exp eta)) :
    eta + Real.log (v / (1 - v)) ≤ 0 := by
  have he : 0 < Real.exp eta := Real.exp_pos eta
  have h1v : 0 < 1 - v := by linarith
  have hw : 0 < v / (1 - v) := div_pos hv0 h1v
  have h1 : v * (1 + Real.exp eta) ≤ 1 := by
    rwa [le_div_iff₀ (by linarith)] at h
  have h2 : v / (1 - v) ≤ Real.exp (-eta) := by
    rw [Real.exp_neg, div_le_iff₀ h1v, le_inv_mul_iff₀ he]
    nlinarith
  have h3 := (Real.log_le_iff_le_exp hw).mpr h2
  linarith

/-- The value `plogis(0, eta)`. -/
theorem plogis_zero (eta : ℝ) :
    plogis_spec Real.exp (0 : IEEE ℝ) (fin eta) = fin (1 / (1 + Real.exp eta)) := by
  show plogis_spec Real.exp (fin 0) (fin eta) = _
  simp [plogis_spec]

/-- C20: with `plogis` the logistic distribution function and `qlogis` its
quantile function, for every linear predictor `eta` and every `runif` whose
value lies in the interval it is asked for, `draw_z(y, eta)` returns
`z ≥ 0` when `y` is true and `z ≤ 0` when `y` is false (with `z = +∞` for a
draw at `1` and `z = −∞` for a draw at `0`). -/
theorem draw_z_truncation {ρ : Type} (D : Distributions (IEEE ℝ) ρ)
    (hp : D.plogis = plogis_spec Real.exp) (hq : D.qlogis = qlogis_spec Real.log)
    (hu : ∀ g a b, IEEE.le a b = true →
      IEEE.le a (D.runif_mt g a b).1 = true ∧ IEEE.le (D.runif_mt g a b).1 b = true)
    (self : LogitSampler (IEEE ℝ) ρ) (g : ρ) (eta : ℝ) :
    IEEE.le 0 (self.draw_z D g true (fin eta)).1 = true
    ∧ IEEE.le (self.draw_z D g false (fin eta)).1 0 = true := by
  have he : 0 < Real.exp eta := Real.exp_pos eta
  have hp0 : 0 < 1 / (1 + Real.exp eta) := by positivity
  have hp1 : 1 / (1 + Real.exp eta) < 1 := by
    rw [div_lt_one (by linarith)]; linarith
  constructor
  · have hab : IEEE.le (fin (1 / (1 + Real.exp eta))) (1 : IEEE ℝ) = true := by
      show IEEE.le (fin _) (fin 1) = true
      simp only [IEEE.le, decide_eq_true_eq]
      exact hp1.le
    obtain ⟨h1, h2⟩ := hu g _ _ hab
    simp only [draw_z, Distributions.runif, hp, hq, plogis_zero, if_true]
    generalize (D.runif_mt g (fin (1 / (1 + Real.exp eta))) 1).1 = u at h1 h2
    cases u with
    | fin v =>
      have h1' : 1 / (1 + Real.exp eta) ≤ v := by simpa [IEEE.le] using h1
      have h2' : v ≤ 1 := by
        have : IEEE.le (fin v) (fin (1 : ℝ)) = true := h2
        simpa [IEEE.le] using this
      have hv0 : 0 < v := lt_of_lt_of_le hp0 h1'
      by_cases hv1 : v = 1
      · subst hv1
        simp [qlogis_spec]
        rfl
      · have hv1' : v < 1 := lt_of_le_of_ne h2' hv1
        simp only [qlogis_spec, hv0.ne', hv1, if_false, hv0, hv1', and_self, if_true]
        show IEEE.le (fin 0) (fin _) = true
        simp [IEEE.le, logit_ge eta v hv0 hv1' h1']
    | posInf => exact absurd h2 (by simp [show (1 : IEEE ℝ) = fin 1 from rfl, IEEE.le])
    | negInf => exact absurd h1 (by simp [IEEE.le])
    | nan => exact absurd h1 (by simp [IEEE.le])
  · have hab : IEEE.le (0 : IEEE ℝ) (fin (1 / (1 + Real.exp eta))) = true := by
      show IEEE.le (fin 0) (fin _) = true
      simp only [IEEE.le, decide_eq_true_eq]
      exact hp0.le
    obtain ⟨h1, h2⟩ := hu g _ _ hab
    simp only [draw_z, Distributions.runif, hp, hq, plogis_zero, if_false, Bool.false_eq_true]
    generalize (D.runif_mt g 0 (fin (1 / (1 + Real.exp eta)))).1 = u at h1 h2
    cases u with
    | fin v =>
      have h2' : v ≤ 1 / (1 + Real.exp eta) := by simpa [IEEE.le] using h2
      have h1' : 0 ≤ v := by
        have : IEEE.le (fin (0 : ℝ)) (fin v) = true := h1
        simpa [IEEE.le] using this
      have hv1 : v < 1 := lt_of_le_of_lt h2' hp1
      by_cases hv0 : v = 0
      · subst hv0
        simp [qlogis_spec]
        rfl
      · have hv0' : 0 < v := lt_of_le_of_ne h1' (Ne.symm hv0)
        simp only [qlogis_spec, hv0, hv1.ne, if_false, hv0', hv1, and_self, if_true]
        show IEEE.le (fin _) (fin 0) = true
        simp [IEEE.le, logit_le eta v hv0' hv1 h2']
    | posInf => exact absurd h2 (by simp [IEEE.le])
    | negInf => exact absurd h1 (by simp [show (0 : IEEE ℝ) = fin 0 from rfl, IEEE.le])
    | nan => exact absurd h1 (by simp [show (0 : IEEE ℝ) = fin 0 from rfl, IEEE.le])

/-- Witness for `draw_z_truncation`: a `runif` that returns the lower end of
its interval, at `eta = 2`. -/
theorem draw_z_truncation_witness :
    IEEE.le 0 (draw_z
        (⟨fun g a _ => (a, g), plogis_spec Real.exp, qlogis_spec Real.log, fun r x => (x, r),
          fun g _ b => (b, g), fun g m _ => (m, g), fun g m _ _ _ => (m, g),
          fun g l => (l, g)⟩ : Distributions (IEEE ℝ) Unit)
        ⟨⟨[], [], 0, []⟩, ⟨[], []⟩, ⟨[], []⟩, [], [], ()⟩ () true (fin 2)).1 = true
    ∧ IEEE.le (draw_z
        (⟨fun g a _ => (a, g), plogis_spec Real.exp, qlogis_spec Real.log, fun r x => (x, r),
          fun g _ b => (b, g), fun g m _ => (m, g), fun g m _ _ _ => (m, g),
          fun g l => (l, g)⟩ : Distributions (IEEE ℝ) Unit)
        ⟨⟨[], [], 0, []⟩, ⟨[], []⟩, ⟨[], []⟩, [], [], ()⟩ () false (fin 2)).1 0 = true :=
  draw_z_truncation _ rfl rfl
    (fun _ a b hab => by
      refine ⟨?_, hab⟩
      cases a <;> cases b <;> simp_all [IEEE.le])
    _ () 2

/-- The coefficient vector that `draw()` writes to the model is the value
of `rmvn_suf` on the state in which the imputation step leaves the global
generator. -/
theorem draw_beta_eq {α ρ : Type} [Zero α] [One α] [Add α] [Sub α] [Mul α] [Div α]
    (D : Distributions α ρ) (predict : LogisticRegressionModel α → Vec α → α)
    (fabs : α → α) (self : LogitSampler α ρ) (g : ρ) :
    (self.draw D predict fabs g).1.mod_.beta
      = (D.rmvn_suf_mt (self.impute_latent_data D predict fabs g).2
          (Mat.add self.pri_.siginv (self.impute_latent_data D predict fabs g).1.suf_.xtx)
          (Vec.add (Mat.mulVec self.pri_.siginv self.pri_.mu)
            (self.impute_latent_data D predict fabs g).1.suf_.xty)).1 := by
  have hpri : ∀ (l : List (BinaryRegressionData α)) (st : LogitSampler α ρ × ρ),
      (l.foldl
        (fun (st : LogitSampler α ρ × ρ) (dp : BinaryRegressionData α) =>
          let x := dp.x
          let eta := predict st.1.mod_ x + self.mod_.log_alpha
          let z := st.1.draw_z D st.2 dp.y eta
          let lam := st.1.draw_lambda D (fabs (z.1 - eta))
          ({ lam.2 with suf_ := lam.2.suf_.add_data x z.1 (1 / lam.1) }, z.2)) st).1.pri_
        = st.1.pri_ := by
    intro l
    induction l with
    | nil => intro st; rfl
    | cons dp l ih => intro st; rw [List.foldl_cons, ih]; rfl
  have h : (self.impute_latent_data D predict fabs g).1.pri_ = self.pri_ := by
    unfold impute_latent_data
    exact hpri _ _
  simp only [draw, draw_beta, Distributions.rmvn_suf, LogisticRegressionModel.set_beta, h]

/-- C16, at a failing input: two runs of `draw()` on the same sampler, seeded
with the same value `7`, on the same model with the single observation
`(x, y) = (1, true)`, give the coefficient `1/2` when the global generator is
in state `0` and `3/2` when it is in state `1`; the generator functions are
stand-ins whose draws are `a` for `runif(a, b)` and `b + state` for
`rmvn_suf(ivar, b)`. -/
theorem draw_depends_on_global_rng :
    (draw (⟨fun g a _ => (a, g), fun _ _ => 1 / 2, fun u _ => u, fun r _ => (1, r),
            fun g _ b => (b.map (· + g), g + 1), fun g m _ => (m, g),
            fun g m _ _ _ => (m, g), fun g l => (l, g)⟩ : Distributions ℚ ℚ)
        (fun m x => Vec.dot m.beta x) (fun x => |x|)
        (set_seed (fun s => (s : ℚ)) ⟨⟨[0], [true], 0, [⟨[1], true⟩]⟩, ⟨[0], [[1]]⟩,
          ⟨[[0]], [0]⟩, [], [], 0⟩ 7) 0).1.mod_.beta = [1 / 2]
    ∧ (draw (⟨fun g a _ => (a, g), fun _ _ => 1 / 2, fun u _ => u, fun r _ => (1, r),
            fun g _ b => (b.map (· + g), g + 1), fun g m _ => (m, g),
            fun g m _ _ _ => (m, g), fun g l => (l, g)⟩ : Distributions ℚ ℚ)
        (fun m x => Vec.dot m.beta x) (fun x => |x|)
        (set_seed (fun s => (s : ℚ)) ⟨⟨[0], [true], 0, [⟨[1], true⟩]⟩, ⟨[0], [[1]]⟩,
          ⟨[[0]], [0]⟩, [], [], 0⟩ 7) 1).1.mod_.beta = [3 / 2] := by
  constructor <;>
    norm_num [draw, draw_beta, impute_latent_data, draw_z, draw_lambda, set_seed,
      Distributions.runif, Distributions.rmvn_suf, WeightedRegSuf.clear, WeightedRegSuf.add_data,
      LogisticRegressionModel.set_beta, Mat.add, Vec.add, Mat.mulVec, Vec.dot, Vec.outer,
      Vec.smul, Mat.zero]

end LogitSampler

/-! ## LogitSamplerBma -/

namespace LogitSamplerBma

open IEEE

variable {K ρ : Type} [LinearOrderedField K]

/-- The comparison with `−∞`. -/
theorem beq_negInf (a : IEEE K) : a.beq negInf = true ↔ a = negInf := by
  cases a <;> simp [IEEE.beq]

/-- C14 as amended: for every flip limit `max_nflips_` other than `0`, if
`log_model_prob` of the inclusion vector of the model is `−∞`, `draw_gamma`
raises a runtime error with the sampler, the inclusion vector of the model
and the global generator as they were: no flip has been proposed. -/
theorem draw_gamma_illegal_start (D : Distributions K ρ) (logit_inv : IEEE K → IEEE K)
    (LA : LinAlg K) (log : K → K) (self : LogitSamplerBma K ρ) (g : ρ)
    (hlimit : self.max_nflips_ ≠ 0)
    (hinf : self.log_model_prob LA log self.mod_.inc = negInf) :
    self.draw_gamma D logit_inv LA log g = Outcome.raised Thrown.runtime_error (self, g) := by
  simp [draw_gamma, hlimit, hinf, IEEE.finite]

/-- Witness for `draw_gamma_illegal_start`: the flip limit `1` and a prior
that gives every selector the log probability `−∞`. -/
theorem draw_gamma_illegal_start_witness :
    (1 : Nat) ≠ 0
    ∧ draw_gamma (⟨fun g a _ => (a, g), fun _ _ => 0, fun u _ => u, fun r _ => (1, r),
          fun g _ b => (b, g), fun g m _ => (m, g), fun g m _ _ _ => (m, g),
          fun g l => (l, g)⟩ : Distributions ℚ Nat)
        (fun x => x) ⟨fun _ => fin 0, fun M => (M, true), fun _ v => v⟩ (fun x => x)
        ⟨⟨⟨[0], [true], 0, []⟩, ⟨[0], [[1]]⟩, ⟨[[0]], [0]⟩, [], [], 0⟩, ⟨fun _ => negInf⟩, 1⟩ 5
      = Outcome.raised Thrown.runtime_error
        (⟨⟨⟨[0], [true], 0, []⟩, ⟨[0], [[1]]⟩, ⟨[[0]], [0]⟩, [], [], 0⟩, ⟨fun _ => negInf⟩, 1⟩, 5) :=
  ⟨by decide, draw_gamma_illegal_start _ _ _ _ _ _ (by decide)
    (by simp [log_model_prob, IEEE.beq])⟩

/-- C14, counterexample: with the flip limit `max_nflips_ = 0` and a prior
that gives the inclusion vector of the model the log probability `−∞`,
`log_model_prob` is `−∞` and `draw_gamma` returns without an error. -/
theorem draw_gamma_zero_limit_no_error :
    log_model_prob ⟨fun _ => fin 0, fun M => (M, true), fun _ v => v⟩ (fun x => x)
        (⟨⟨⟨[0], [true], 0, []⟩, ⟨[0], [[1]]⟩, ⟨[[0]], [0]⟩, [], [], 0⟩, ⟨fun _ => negInf⟩, 0⟩ :
          LogitSamplerBma ℚ Nat) [true] = negInf
    ∧ (draw_gamma (⟨fun g a _ => (a, g), fun _ _ => 0, fun u _ => u, fun r _ => (1, r),
          fun g _ b => (b, g), fun g m _ => (m, g), fun g m _ _ _ => (m, g),
          fun g l => (l, g)⟩ : Distributions ℚ Nat)
        (fun x => x) ⟨fun _ => fin 0, fun M => (M, true), fun _ v => v⟩ (fun x => x)
        ⟨⟨⟨[0], [true], 0, []⟩, ⟨[0], [[1]]⟩, ⟨[[0]], [0]⟩, [], [], 0⟩, ⟨fun _ => negInf⟩, 0⟩
        5).error = none := by
  constructor
  · simp [log_model_prob, IEEE.beq]
  · simp [draw_gamma, Outcome.error]

/-- Flipping a position twice restores the selector. -/
theorem flip_flip (g : Selector) (I : Nat) : (g.flip I).flip I = g := by
  apply List.ext_getElem?
  intro j
  simp only [Selector.flip, List.getElem?_modify]
  cases g[j]? with
  | none => rfl
  | some b => by_cases h : I = j <;> simp [h]

/-- For finite arguments `keep_flip` compares the uniform draw with
`logit_inv(logp_new − logp_old)`. -/
theorem keep_flip_eq (D : Distributions K ρ) (logit_inv : IEEE K → IEEE K) (g : ρ)
    (a b : K) :
    keep_flip D logit_inv g (fin a) (fin b)
      = ((fin (D.runif_mt g 0 1).1).lt (logit_inv (fin (b - a))), (D.runif_mt g 0 1).2) := by
  simp [keep_flip, IEEE.finite, Distributions.runif]

/-- One round of the loop of `draw_gamma` leaves the position flipped when
`keep_flip` returns true and flips it back when it returns false. -/
theorem draw_gamma_step_inc (D : Distributions K ρ) (logit_inv : IEEE K → IEEE K)
    (LA : LinAlg K) (log : K → K) (self : LogitSamplerBma K ρ) (g : ρ)
    (inc : Selector) (logp : IEEE K) (I : Nat) :
    (self.draw_gamma_step D logit_inv LA log (inc, logp, g) I).1
      = if (keep_flip D logit_inv g logp (self.log_model_prob LA log (inc.flip I))).1
        then inc.flip I else inc := by
  simp only [draw_gamma_step]
  split_ifs <;> simp [flip_flip]

/-- With `logit_inv` the inverse logit, `keep_flip` returns true exactly when
the uniform draw is below `1/(1 + exp(−(logp_new − logp_old)))`. -/
theorem keep_flip_logit_inv (D : Distributions ℝ ρ) (g : ρ) (a b : ℝ) :
    (keep_flip D (logit_inv_spec Real.exp) g (fin a) (fin b)).1 = true
      ↔ (D.runif_mt g 0 1).1 < 1 / (1 + Real.exp (-(b - a))) := by
  simp [keep_flip, IEEE.finite, Distributions.runif, logit_inv_spec, IEEE.lt]

/-- C18, counterexample: for `logp_old = logp_new = 0` and the uniform draw
`u = 7/10`, `u` is below the Metropolis probability `min(1, exp(0)) = 1`, but
`keep_flip` returns false, since `logit_inv(0) = 1/2`. -/
theorem keep_flip_not_metropolis :
    (7 / 10 : ℝ) < min 1 (Real.exp (0 - 0))
    ∧ (keep_flip (⟨fun g _ _ => (7 / 10, g), fun _ _ => 0, fun u _ => u, fun r _ => (1, r),
          fun g _ b => (b, g), fun g m _ => (m, g), fun g m _ _ _ => (m, g),
          fun g l => (l, g)⟩ : Distributions ℝ Unit)
        (logit_inv_spec Real.exp) () (fin 0) (fin 0)).1 = false := by
  constructor
  · norm_num
  · have h := keep_flip_logit_inv (⟨fun g _ _ => (7 / 10, g), fun _ _ => 0, fun u _ => u,
          fun r _ => (1, r), fun g _ b => (b, g), fun g m _ => (m, g),
          fun g m _ _ _ => (m, g), fun g l => (l, g)⟩ : Distributions ℝ Unit) () 0 0
    rw [Bool.eq_false_iff]
    intro hk
    have := h.mp hk
    norm_num at this

/-- C18 as amended: for every finite `logp_old` and finite `logp_new`,
`keep_flip` returns true exactly when the uniform(0,1) draw `u` is below
`logit_inv(logp_new − logp_old) = 1/(1 + exp(−(logp_new − logp_old)))`; and
a round of the loop of `draw_gamma` flips the indicator back exactly when
`keep_flip` returns false. -/
theorem keep_flip_accepts (D : Distributions ℝ ρ) (LA : LinAlg ℝ)
    (self : LogitSamplerBma ℝ ρ) (g : ρ) (a b : ℝ) (inc : Selector) (logp : IEEE ℝ)
    (I : Nat) :
    ((keep_flip D (logit_inv_spec Real.exp) g (fin a) (fin b)).1 = true
      ↔ (D.runif_mt g 0 1).1 < 1 / (1 + Real.exp (-(b - a))))
    ∧ (self.draw_gamma_step D (logit_inv_spec Real.exp) LA Real.log (inc, logp, g) I).1
      = if (keep_flip D (logit_inv_spec Real.exp) g logp
            (self.log_model_prob LA Real.log (inc.flip I))).1
        then inc.flip I else inc :=
  ⟨keep_flip_logit_inv D g a b, draw_gamma_step_inc D _ LA Real.log self g inc logp I⟩

/-- The sum of the logarithms of positive numbers is finite. -/
theorem sum_log_diag_fin (log : K → K) (ds : List K) (hpos : ∀ d ∈ ds, 0 < d) (a0 : K) :
    ∃ v : K, (ds.map (fun d => IEEE.log log (fin d))).foldl (· + ·) (fin a0) = fin v := by
  induction ds generalizing a0 with
  | nil => exact ⟨a0, rfl⟩
  | cons d ds ih =>
    have hd : 0 < d := hpos d (List.mem_cons_self _ _)
    simp only [List.map_cons, List.foldl_cons, IEEE.log_fin log d hd, IEEE.fin_add_fin]
    exact ih (fun d' hd' => hpos d' (List.mem_cons_of_mem _ hd')) _

/-- The difference of `−∞` and a finite number. -/
theorem negInf_sub_fin (a : K) : (negInf - fin a : IEEE K) = negInf := rfl

/-- C19: for every selector `g`, `log_model_prob` returns `−∞` when the
prior `vs_` gives `g` the log probability `−∞`; it returns `−∞` when the
Cholesky factorisation of the selected prior precision plus the selected
`XᵗWX` reports failure; and in every other case it returns
`logp(g) + ½·logdet(Ω⁻¹) − ½·μᵗΩ⁻¹μ − (Σ log diag(L) − ½·‖L⁻¹(XᵗWz + Ω⁻¹μ)‖²)`
over the selected subset.  The Cholesky factor of a successful
factorisation is taken to have a positive diagonal. -/
theorem log_model_prob_cases (LA : LinAlg K) (log : K → K) (self : LogitSamplerBma K ρ)
    (g : Selector)
    (hdiag : (LA.chol (Mat.add (g.select_mat self.pri_.siginv)
        (g.select_mat self.suf_.xtx))).2 = true →
      ∀ d ∈ (LA.chol (Mat.add (g.select_mat self.pri_.siginv)
        (g.select_mat self.suf_.xtx))).1.diag, 0 < d) :
    (self.vs_.logp g = negInf → self.log_model_prob LA log g = negInf)
    ∧ ((LA.chol (Mat.add (g.select_mat self.pri_.siginv)
        (g.select_mat self.suf_.xtx))).2 = false → self.log_model_prob LA log g = negInf)
    ∧ (self.vs_.logp g ≠ negInf →
       (LA.chol (Mat.add (g.select_mat self.pri_.siginv)
        (g.select_mat self.suf_.xtx))).2 = true →
       self.log_model_prob LA log g
        = self.vs_.logp g + fin 0.5 * LA.logdet (g.select_mat self.pri_.siginv)
          - fin 0.5 * fin (Vec.dot (g.select self.pri_.mu)
              (Mat.mulVec (g.select_mat self.pri_.siginv) (g.select self.pri_.mu)))
          - (((LA.chol (Mat.add (g.select_mat self.pri_.siginv)
                (g.select_mat self.suf_.xtx))).1.diag.map
                (fun d => IEEE.log log (fin d))).foldl (· + ·) (fin 0)
             - fin 0.5 * fin (Vec.normsq
                (LA.Lsolve (LA.chol (Mat.add (g.select_mat self.pri_.siginv)
                    (g.select_mat self.suf_.xtx))).1
                  (Vec.add (g.select self.suf_.xty)
                    (Mat.mulVec (g.select_mat self.pri_.siginv)
                      (g.select self.pri_.mu))))))) := by
  refine ⟨?_, ?_, ?_⟩
  · intro h
    simp [log_model_prob, h, IEEE.beq]
  · intro hfail
    unfold log_model_prob
    by_cases h1 : (self.vs_.logp g).beq negInf = true
    · simp only [h1, if_true]
      exact (beq_negInf _).mp h1
    · simp only [h1, if_false, Bool.false_eq_true]
      by_cases h2 : (self.vs_.logp g
          + fin 0.5 * LA.logdet (g.select_mat self.pri_.siginv)).beq negInf = true
      · simp only [h2, if_true]
        exact (beq_negInf _).mp h2
      · simp only [h2, if_false, Bool.false_eq_true, hfail, Bool.not_false, if_true]
  · intro hne hok
    unfold log_model_prob
    have h1 : ¬ (self.vs_.logp g).beq negInf = true := fun h => hne ((beq_negInf _).mp h)
    simp only [h1, if_false, Bool.false_eq_true]
    by_cases h2 : (self.vs_.logp g
        + fin 0.5 * LA.logdet (g.select_mat self.pri_.siginv)).beq negInf = true
    · simp only [h2, if_true]
      have h2' := (beq_negInf _).mp h2
      obtain ⟨v, hv⟩ := sum_log_diag_fin log _ (hdiag hok) 0
      rw [h2', hv]
      rfl
    · simp only [h2, if_false, Bool.false_eq_true, hok, Bool.not_true]

/-- Witness for `log_model_prob_cases`: one included predictor, prior
precision `1`, `XᵗWX = 1`, and stand-ins for the collaborators. -/
theorem log_model_prob_cases_witness :
    (∀ d ∈ (Mat.add (Selector.select_mat [true] [[(1 : ℚ)]])
        (Selector.select_mat [true] [[(1 : ℚ)]])).diag, 0 < d)
    ∧ log_model_prob ⟨fun _ => fin 0, fun M => (M, true), fun _ v => v⟩ (fun x => x)
        (⟨⟨⟨[0], [true], 0, []⟩, ⟨[0], [[1]]⟩, ⟨[[1]], [0]⟩, [], [], 0⟩, ⟨fun _ => fin 0⟩, 1⟩ :
          LogitSamplerBma ℚ Nat) [true] = fin (-2) := by
  have hd : ∀ d ∈ (Mat.add (Selector.select_mat [true] [[(1 : ℚ)]])
        (Selector.select_mat [true] [[(1 : ℚ)]])).diag, 0 < d := by
    intro d hd
    simp [Mat.add, Vec.add, Selector.select_mat, Selector.select, Mat.diag, List.enum,
      List.enumFrom] at hd
    rw [hd]
    norm_num
  refine ⟨hd, ?_⟩
  rw [(log_model_prob_cases ⟨fun _ => fin 0, fun M => (M, true), fun _ v => v⟩ (fun x => x)
        (⟨⟨⟨[0], [true], 0, []⟩, ⟨[0], [[1]]⟩, ⟨[[1]], [0]⟩, [], [], 0⟩, ⟨fun _ => fin 0⟩, 1⟩ :
          LogitSamplerBma ℚ Nat) [true] (fun _ => hd)).2.2
        (fun h => IEEE.noConfusion h) rfl]
  simp [Mat.add, Vec.add, Selector.select_mat, Selector.select, Mat.diag, List.enum,
    List.enumFrom, Vec.dot, Vec.normsq, Mat.mulVec, IEEE.log]
  norm_num

end LogitSamplerBma

/-! ## dgamma -/

namespace Rmath

open IEEE

variable {K : Type} [LinearOrderedField K]

/-- C15: for every `shape > 0`, every `scale > 0` and every `x < 0`,
`dgamma(x, shape, scale, give_log)` returns `−∞` when `give_log` is set and
`0` when it is not. -/
theorem dgamma_negative (IEEE_754 : Bool) (dpois_raw : IEEE K → IEEE K → Int → IEEE K)
    (log : K → K) (x shape scale : IEEE K) (give_log : Int)
    (hshape : (fin 0).lt shape = true) (hscale : (fin 0).lt scale = true)
    (hx : x.lt (fin 0) = true) :
    dgamma IEEE_754 dpois_raw log x shape scale give_log
      = if give_log ≠ 0 then negInf else fin 0 := by
  have h1 : x.isnan = false := by cases x <;> simp_all [IEEE.lt, IEEE.isnan]
  have h2 : shape.isnan = false := by cases shape <;> simp_all [IEEE.lt, IEEE.isnan]
  have h3 : scale.isnan = false := by cases scale <;> simp_all [IEEE.lt, IEEE.isnan]
  have h4 : shape.le (fin 0) = false := by
    cases shape <;> simp_all [IEEE.lt, IEEE.le]
  have h5 : scale.le (fin 0) = false := by
    cases scale <;> simp_all [IEEE.lt, IEEE.le]
  simp [dgamma, h1, h2, h3, h4, h5, hx, R_D__0]

/-- Witness for `dgamma_negative`: `x = −1`, `shape = 2`, `scale = 3`. -/
theorem dgamma_negative_witness :
    (fin (0 : ℚ)).lt (fin 2) = true ∧ (fin (0 : ℚ)).lt (fin 3) = true
    ∧ (fin (-1 : ℚ)).lt (fin 0) = true
    ∧ dgamma true (fun _ _ _ => fin 0) (fun x => x) (fin (-1 : ℚ)) (fin 2) (fin 3) 1 = negInf
    ∧ dgamma true (fun _ _ _ => fin 0) (fun x => x) (fin (-1 : ℚ)) (fin 2) (fin 3) 0
      = fin 0 :=
  ⟨by simp [IEEE.lt], by simp [IEEE.lt], by simp [IEEE.lt],
   dgamma_negative true _ _ _ _ _ 1 (by simp [IEEE.lt]) (by simp [IEEE.lt]) (by simp [IEEE.lt]),
   dgamma_negative true _ _ _ _ _ 0 (by simp [IEEE.lt]) (by simp [IEEE.lt]) (by simp [IEEE.lt])⟩

end Rmath

/-! ## ArPosteriorSampler::draw_phi -/

namespace ArPosteriorSampler

variable {K ρ : Type}

/-- The global generator after one draw and then `k` more is the generator after `k + 1`
draws. -/
theorem global_before_shift (D : Distributions K ρ) (ph : Vec K) (iv : Mat K) (g : ρ)
    (k : Nat) :
    global_before D ph iv (D.rmvn_ivar_mt g ph iv).2 k = global_before D ph iv g (k + 1) := by
  induction k with
  | zero => rfl
  | succ k ih => simp only [global_before, ih]

/-- The `k`-th proposal made from the generator left by one draw is proposal `k + 1`. -/
theorem proposal_shift (D : Distributions K ρ) (ph : Vec K) (iv : Mat K) (g : ρ) (k : Nat) :
    proposal D ph iv (D.rmvn_ivar_mt g ph iv).2 k = proposal D ph iv g (k + 1) := by
  simp only [proposal, global_before_shift]

/-- The `while` loop of `draw_phi` when every proposal it can still make is non-stationary:
it makes exactly the `m` proposals its limit allows, leaves the model alone and ends with
`ok = false`. -/
theorem draw_phi_while_fail [LinearOrderedField K] (D : Distributions K ρ)
    (check : Vec K → Bool) (max : Int) (ph : Vec K) (model : ArModel K) (m : Nat) :
    ∀ (a : Int) (g : ρ), (max - a).toNat = m →
      (∀ j, j < m →
        check (proposal D ph (Mat.divScalar model.suf.xtx model.sigsq) g j) = false) →
      draw_phi_while D check max ph false a model g
        = (false, a + m + 1, model,
            global_before D ph (Mat.divScalar model.suf.xtx model.sigsq) g m) := by
  induction m with
  | zero =>
    intro a g hm _
    have hle : ¬ a + 1 ≤ max := by omega
    rw [draw_phi_while]
    simp [hle, global_before]
  | succ m ih =>
    intro a g hm hfail
    have hle : a + 1 ≤ max := by omega
    have h0 := hfail 0 (Nat.succ_pos m)
    simp only [proposal, global_before] at h0
    rw [draw_phi_while]
    simp only [Bool.false_eq_true, if_false, hle, if_true, Distributions.rmvn_ivar, h0]
    rw [ih (a + 1) _ (by omega)
      (fun j hj => by rw [proposal_shift]; exact hfail (j + 1) (Nat.succ_lt_succ hj))]
    rw [global_before_shift]
    simp only [Nat.cast_succ, Prod.mk.injEq, true_and, and_true]
    ring

/-- The `while` loop of `draw_phi` when proposal `k` (within the limit) is the first
stationary one: it stops there, having written that proposal to the model. -/
theorem draw_phi_while_success [LinearOrderedField K] (D : Distributions K ρ)
    (check : Vec K → Bool) (max : Int) (ph : Vec K) (model : ArModel K) (k : Nat) :
    ∀ (a : Int) (g : ρ), k < (max - a).toNat →
      (∀ j, j < k →
        check (proposal D ph (Mat.divScalar model.suf.xtx model.sigsq) g j) = false) →
      check (proposal D ph (Mat.divScalar model.suf.xtx model.sigsq) g k) = true →
      draw_phi_while D check max ph false a model g
        = (true, a + k + 1,
            model.set_phi (proposal D ph (Mat.divScalar model.suf.xtx model.sigsq) g k),
            global_before D ph (Mat.divScalar model.suf.xtx model.sigsq) g (k + 1)) := by
  induction k with
  | zero =>
    intro a g hk _ hok
    have hle : a + 1 ≤ max := by omega
    simp only [proposal, global_before] at hok
    rw [draw_phi_while]
    simp only [Bool.false_eq_true, if_false, hle, if_true, Distributions.rmvn_ivar, hok]
    rw [draw_phi_while]
    simp [proposal, global_before]
  | succ k ih =>
    intro a g hk hfail hok
    have hle : a + 1 ≤ max := by omega
    have h0 := hfail 0 (Nat.succ_pos k)
    simp only [proposal, global_before] at h0
    rw [draw_phi_while]
    simp only [Bool.false_eq_true, if_false, hle, if_true, Distributions.rmvn_ivar, h0]
    rw [ih (a + 1) _ (by omega)
      (fun j hj => by rw [proposal_shift]; exact hfail (j + 1) (Nat.succ_lt_succ hj))
      (by rw [proposal_shift]; exact hok)]
    rw [global_before_shift, proposal_shift]
    simp only [Nat.cast_succ, Prod.mk.injEq, true_and, and_true]
    ring

/-- Claim C17. `ArPosteriorSampler::draw_phi` falls back after a bounded number of joint
proposals. With `m = max_number_of_regression_proposals_` (read as a natural number, so `0`
when negative), `phi_hat = xtx.solve(xty)` and the proposals
`rmvn_ivar(phi_hat, xtx / sigsq)` drawn in turn from the global generator:
* if none of the first `m` proposals passes `check_stationary`, exactly `m` proposals are
  made and the result is that of `draw_phi_univariate` on the unchanged sampler;
* if proposal `k < m` is the first stationary one, `draw_phi` returns after `k + 1`
  proposals with that proposal written to the model, and `draw_phi_univariate` is not run;
* if the limit is zero or negative no proposal is made (the generator is untouched) and the
  result is that of `draw_phi_univariate`;
* the constructor sets the limit to `3`, and
  `set_max_number_of_regression_proposals` stores any integer. -/
theorem draw_phi_fallback [LinearOrderedField K] (D : Distributions K ρ)
    (check_stationary : Vec K → Bool) (sqrt : K → K) (solve : Mat K → Vec K → Vec K)
    (fuel : Nat) (self : ArPosteriorSampler K ρ) (g : ρ) :
    ((∀ j, j < self.max_number_of_regression_proposals_.toNat →
        check_stationary (proposal D (solve self.model_.suf.xtx self.model_.suf.xty)
          (Mat.divScalar self.model_.suf.xtx self.model_.sigsq) g j) = false) →
      self.draw_phi D check_stationary sqrt solve fuel g
        = (self.draw_phi_univariate D check_stationary sqrt fuel).map
            (Outcome.map (fun s =>
              (s, global_before D (solve self.model_.suf.xtx self.model_.suf.xty)
                (Mat.divScalar self.model_.suf.xtx self.model_.sigsq) g
                self.max_number_of_regression_proposals_.toNat))))
    ∧ (∀ k, k < self.max_number_of_regression_proposals_.toNat →
        (∀ j, j < k →
          check_stationary (proposal D (solve self.model_.suf.xtx self.model_.suf.xty)
            (Mat.divScalar self.model_.suf.xtx self.model_.sigsq) g j) = false) →
        check_stationary (proposal D (solve self.model_.suf.xtx self.model_.suf.xty)
            (Mat.divScalar self.model_.suf.xtx self.model_.sigsq) g k) = true →
        self.draw_phi D check_stationary sqrt solve fuel g
          = some (Outcome.returned
              ({ self with model_ := (self.model_.set_phi
                  (proposal D (solve self.model_.suf.xtx self.model_.suf.xty)
                    (Mat.divScalar self.model_.suf.xtx self.model_.sigsq) g k)) },
               global_before D (solve self.model_.suf.xtx self.model_.suf.xty)
                (Mat.divScalar self.model_.suf.xtx self.model_.sigsq) g (k + 1))))
    ∧ (self.max_number_of_regression_proposals_ ≤ 0 →
        self.draw_phi D check_stationary sqrt solve fuel g
          = (self.draw_phi_univariate D check_stationary sqrt fuel).map
              (Outcome.map (fun s => (s, g))))
    ∧ (∀ (model : ArModel K) (prior : GammaModelBase K) (rng : ρ),
        (mk_sampler model prior rng).max_number_of_regression_proposals_ = 3)
    ∧ (∀ n : Int,
        (self.set_max_number_of_regression_proposals n).max_number_of_regression_proposals_
          = n) := by
  have hfail : ∀ m : Nat, self.max_number_of_regression_proposals_.toNat = m →
      (∀ j, j < m →
        check_stationary (proposal D (solve self.model_.suf.xtx self.model_.suf.xty)
          (Mat.divScalar self.model_.suf.xtx self.model_.sigsq) g j) = false) →
      self.draw_phi D check_stationary sqrt solve fuel g
        = (self.draw_phi_univariate D check_stationary sqrt fuel).map
            (Outcome.map (fun s =>
              (s, global_before D (solve self.model_.suf.xtx self.model_.suf.xty)
                (Mat.divScalar self.model_.suf.xtx self.model_.sigsq) g m))) := by
    intro m hm hf
    have hw := draw_phi_while_fail D check_stationary self.max_number_of_regression_proposals_
      (solve self.model_.suf.xtx self.model_.suf.xty) self.model_ m 0 g (by simpa using hm) hf
    simp only [draw_phi, hw, Bool.not_false, if_true]
    cases hu : self.draw_phi_univariate D check_stationary sqrt fuel with
    | none => rfl
    | some o => cases o <;> rfl
  refine ⟨fun hf => hfail _ rfl hf, ?_, ?_, fun _ _ _ => rfl, fun _ => rfl⟩
  · intro k hk hf hok
    have hw := draw_phi_while_success D check_stationary
      self.max_number_of_regression_proposals_
      (solve self.model_.suf.xtx self.model_.suf.xty) self.model_ k 0 g (by simpa using hk)
      hf hok
    simp only [draw_phi, hw, Bool.not_true, if_false, Bool.false_eq_true]
  · intro hmax
    have hm : self.max_number_of_regression_proposals_.toNat = 0 := by omega
    have := hfail 0 hm (fun j hj => absurd hj (Nat.not_lt_zero j))
    simpa [global_before] using this

/-- The second case of `draw_phi_fallback` on a concrete sampler: limit `3`, proposals
`[0]`, `[1]`, `[2]`, of which only `[2]` is stationary; the generator ends at `3`. -/
theorem draw_phi_fallback_witness :
    draw_phi (⟨fun g a _ => (a, g), fun _ _ => 0, fun u _ => u, fun r _ => (1, r),
          fun g _ b => (b, g), fun g _ _ => ([(g : ℚ)], g + 1), fun g m _ _ _ => (m, g),
          fun g l => (l, g)⟩ : Distributions ℚ Nat)
        (fun v => decide (v = [2])) (fun x => x) (fun _ v => v) 5
        (mk_sampler ⟨[2], 1, ⟨[[1]], [1], 1, 1⟩⟩ ⟨1, 1⟩ 0) 0
      = some (Outcome.returned
          ({ mk_sampler ⟨[2], 1, ⟨[[1]], [1], 1, 1⟩⟩ ⟨1, 1⟩ 0 with
              model_ := ⟨[2], 1, ⟨[[1]], [1], 1, 1⟩⟩ }, 3)) := by
  have h := (draw_phi_fallback (⟨fun g a _ => (a, g), fun _ _ => 0, fun u _ => u,
          fun r _ => (1, r), fun g _ b => (b, g), fun g _ _ => ([(g : ℚ)], g + 1),
          fun g m _ _ _ => (m, g), fun g l => (l, g)⟩ : Distributions ℚ Nat)
        (fun v => decide (v = [2])) (fun x => x) (fun _ v => v) 5
        (mk_sampler ⟨[2], 1, ⟨[[1]], [1], 1, 1⟩⟩ ⟨1, 1⟩ 0) 0).2.1 2 (by decide)
        (by
          intro j hj
          interval_cases j <;> simp [proposal, global_before])
        (by simp [proposal, global_before])
  rw [h]
  simp [proposal, global_before, ArModel.set_phi, mk_sampler]

end ArPosteriorSampler

/-! ## LogitSampler: the statistic of a sweep -/

namespace LogitSampler

variable {α ρ : Type}

/-- The loop of `impute_latent_data()` over the observations `dat`, started
with any statistic `suf`: the model, the prior and the work space stay as
they are, and the statistic is `suf` with the latent data added in order. -/
theorem impute_loop [Zero α] [One α] [Add α] [Sub α] [Mul α] [Div α]
    (D : Distributions α ρ) (predict : LogisticRegressionModel α → Vec α → α)
    (fabs : α → α) (self : LogitSampler α ρ) (dat : List (BinaryRegressionData α)) :
    ∀ (st : LogitSampler α ρ) (g : ρ), st.mod_ = self.mod_ →
      let res := dat.foldl
        (fun (st : LogitSampler α ρ × ρ) (dp : BinaryRegressionData α) =>
          let x := dp.x
          let eta := predict st.1.mod_ x + self.mod_.log_alpha
          let z := st.1.draw_z D st.2 dp.y eta
          let lam := st.1.draw_lambda D (fabs (z.1 - eta))
          ({ lam.2 with suf_ := lam.2.suf_.add_data x z.1 (1 / lam.1) }, z.2))
        (st, g)
      res.1.suf_ = (latent_data D predict fabs self dat g st.rng).foldl
          (fun s t => s.add_data t.1 t.2.1 (1 / t.2.2)) st.suf_
        ∧ res.1.mod_ = st.mod_ ∧ res.1.pri_ = st.pri_ ∧ res.1.ivar = st.ivar
        ∧ res.1.ivar_mu = st.ivar_mu := by
  induction dat with
  | nil => intro st g _; simp [latent_data]
  | cons dp rest ih =>
    intro st g hst
    simp only [List.foldl_cons, latent_data]
    have := ih
      ({ (st.draw_lambda D (fabs ((st.draw_z D g dp.y
            (predict st.mod_ dp.x + self.mod_.log_alpha)).1
            - (predict st.mod_ dp.x + self.mod_.log_alpha)))).2 with
          suf_ := (st.draw_lambda D (fabs ((st.draw_z D g dp.y
            (predict st.mod_ dp.x + self.mod_.log_alpha)).1
            - (predict st.mod_ dp.x + self.mod_.log_alpha)))).2.suf_.add_data dp.x
              (st.draw_z D g dp.y (predict st.mod_ dp.x + self.mod_.log_alpha)).1
              (1 / (st.draw_lambda D (fabs ((st.draw_z D g dp.y
                (predict st.mod_ dp.x + self.mod_.log_alpha)).1
                - (predict st.mod_ dp.x + self.mod_.log_alpha)))).1) })
      (st.draw_z D g dp.y (predict st.mod_ dp.x + self.mod_.log_alpha)).2
      (by simpa [draw_lambda] using hst)
    simp only [draw_lambda, draw_z] at this ⊢
    rw [hst] at this ⊢
    exact this

/-- The length of the latent data and their predictors. -/
theorem latent_data_x [Zero α] [One α] [Add α] [Sub α]
    (D : Distributions α ρ) (predict : LogisticRegressionModel α → Vec α → α)
    (fabs : α → α) (self : LogitSampler α ρ) (dat : List (BinaryRegressionData α)) :
    ∀ (g r : ρ), (latent_data D predict fabs self dat g r).map (fun t => t.1)
      = dat.map (fun dp => dp.x) := by
  induction dat with
  | nil => intro g r; rfl
  | cons dp rest ih => intro g r; simp [latent_data, ih]

/-- The result of `impute_latent_data()` does not depend on the content of
the statistic the sampler had before. -/
theorem impute_eq [Zero α] [One α] [Add α] [Sub α] [Mul α] [Div α]
    (D : Distributions α ρ) (predict : LogisticRegressionModel α → Vec α → α)
    (fabs : α → α) (self : LogitSampler α ρ) (g : ρ) (suf : WeightedRegSuf α)
    (h : suf.xty.length = self.suf_.xty.length) :
    ({ self with suf_ := suf }).impute_latent_data D predict fabs g
      = self.impute_latent_data D predict fabs g := by
  simp only [impute_latent_data, WeightedRegSuf.clear, h]

/-- Claim C21.  One sweep of `LogitSampler` reads the statistic of exactly that sweep's
latent data.  With `L` the latent data `(x_i, z_i, lam_i)` of the sweep (one triple for each
observation of the model, in order, `z_i` drawn for `eta_i = predict(x_i) + log_alpha` and
`lam_i` drawn from `fabs(z_i - eta_i)`), the statistic after `impute_latent_data()` is the
cleared statistic with `add_data(x_i, z_i, 1/lam_i)` applied once for every triple of `L`;
`draw()` is `draw_beta()` run on that state; and a sampler that differs only in the content
of its statistic before the sweep gives the same `draw()`. -/
theorem draw_reads_fresh_statistic [Zero α] [One α] [Add α] [Sub α] [Mul α] [Div α]
    (D : Distributions α ρ) (predict : LogisticRegressionModel α → Vec α → α)
    (fabs : α → α) (self : LogitSampler α ρ) (g : ρ) :
    (self.impute_latent_data D predict fabs g).1.suf_
        = (latent_data D predict fabs self self.mod_.dat g self.rng).foldl
            (fun s t => s.add_data t.1 t.2.1 (1 / t.2.2)) self.suf_.clear
    ∧ (latent_data D predict fabs self self.mod_.dat g self.rng).map (fun t => t.1)
        = self.mod_.dat.map (fun dp => dp.x)
    ∧ (latent_data D predict fabs self self.mod_.dat g self.rng).length
        = self.mod_.dat.length
    ∧ (self.impute_latent_data D predict fabs g).1.mod_ = self.mod_
    ∧ (self.impute_latent_data D predict fabs g).1.pri_ = self.pri_
    ∧ self.draw D predict fabs g
        = (self.impute_latent_data D predict fabs g).1.draw_beta D
            (self.impute_latent_data D predict fabs g).2
    ∧ (self.draw D predict fabs g).1.mod_.beta
        = (D.rmvn_suf_mt (self.impute_latent_data D predict fabs g).2
            (Mat.add self.pri_.siginv
              ((latent_data D predict fabs self self.mod_.dat g self.rng).foldl
                (fun s t => s.add_data t.1 t.2.1 (1 / t.2.2)) self.suf_.clear).xtx)
            (Vec.add (Mat.mulVec self.pri_.siginv self.pri_.mu)
              ((latent_data D predict fabs self self.mod_.dat g self.rng).foldl
                (fun s t => s.add_data t.1 t.2.1 (1 / t.2.2)) self.suf_.clear).xty)).1
    ∧ ∀ suf : WeightedRegSuf α, suf.xty.length = self.suf_.xty.length →
        ({ self with suf_ := suf }).draw D predict fabs g = self.draw D predict fabs g := by
  have hloop := impute_loop D predict fabs self self.mod_.dat
    { self with suf_ := self.suf_.clear } g rfl
  have hx := latent_data_x D predict fabs self self.mod_.dat g self.rng
  have hsuf : (self.impute_latent_data D predict fabs g).1.suf_
        = (latent_data D predict fabs self self.mod_.dat g self.rng).foldl
            (fun s t => s.add_data t.1 t.2.1 (1 / t.2.2)) self.suf_.clear := hloop.1
  have hpri : (self.impute_latent_data D predict fabs g).1.pri_ = self.pri_ := hloop.2.2.1
  refine ⟨hsuf, hx, ?_, hloop.2.1, hpri, rfl, ?_, ?_⟩
  · have := congrArg List.length hx
    simpa using this
  · simp only [draw, draw_beta, LogisticRegressionModel.set_beta, Distributions.rmvn_suf,
      hsuf, hpri]
  · intro suf h
    simp only [draw, impute_eq D predict fabs self g suf h]

/-- An instance of `draw_reads_fresh_statistic`: a sampler whose statistic holds sums left
by an earlier sweep (`xtx = ((5))`, `xty = (7)`) gives the same `draw()` as the sampler with
the zero statistic. -/
theorem draw_reads_fresh_statistic_witness :
    draw (⟨fun g a _ => (a, g), fun _ _ => 0, fun u _ => u, fun r _ => (1, r),
          fun g _ b => (b, g + 1), fun g _ _ => ([], g), fun g m _ _ _ => (m, g),
          fun g l => (l, g)⟩ : Distributions ℚ Nat)
        (fun m x => Vec.dot m.beta x) (fun x => |x|)
        ({ (⟨⟨[0], [true], 0, [⟨[1], true⟩]⟩, ⟨[0], [[1]]⟩, ⟨[[0]], [0]⟩, [], [], 0⟩ :
            LogitSampler ℚ Nat) with suf_ := ⟨[[5]], [7]⟩ }) 0
      = draw (⟨fun g a _ => (a, g), fun _ _ => 0, fun u _ => u, fun r _ => (1, r),
          fun g _ b => (b, g + 1), fun g _ _ => ([], g), fun g m _ _ _ => (m, g),
          fun g l => (l, g)⟩ : Distributions ℚ Nat)
        (fun m x => Vec.dot m.beta x) (fun x => |x|)
        (⟨⟨[0], [true], 0, [⟨[1], true⟩]⟩, ⟨[0], [[1]]⟩, ⟨[[0]], [0]⟩, [], [], 0⟩ :
            LogitSampler ℚ Nat) 0 :=
  (draw_reads_fresh_statistic _ _ _ _ _).2.2.2.2.2.2.2 ⟨[[5]], [7]⟩ rfl

end LogitSampler

/-! ## The coefficient draws of LogitSampler and LogitSamplerBma -/

namespace Selector

/-- A selector that includes every position selects the whole of a vector
that is not longer than the selector. -/
theorem select_all {α : Type} (g : Selector) (hg : ∀ b ∈ g, b = true) :
    ∀ v : Vec α, v.length ≤ g.length → g.select v = v := by
  induction g with
  | nil =>
    intro v hv
    have : v = [] := List.length_eq_zero.mp (Nat.le_zero.mp hv)
    subst this
    rfl
  | cons b g ih =>
    intro v hv
    cases v with
    | nil => rfl
    | cons x v =>
      have hb : b = true := hg b (List.mem_cons_self _ _)
      subst hb
      have := ih (fun b hb => hg b (List.mem_cons_of_mem _ hb)) v
        (Nat.le_of_succ_le_succ hv)
      simp only [select] at this ⊢
      simp [this]

/-- A selector that includes every position selects the whole of a matrix
whose numbers of rows and of columns do not exceed the length of the
selector. -/
theorem select_mat_all {α : Type} (g : Selector) (hg : ∀ b ∈ g, b = true) (A : Mat α)
    (hA : A.length ≤ g.length) (hrow : ∀ row ∈ A, row.length ≤ g.length) :
    g.select_mat A = A := by
  simp only [select_mat, select_all g hg A hA]
  conv_rhs => rw [← List.map_id A]
  exact List.map_congr_left (fun row hr => select_all g hg row (hrow row hr))

end Selector

namespace LogitSamplerBma

variable {K ρ : Type} [LinearOrderedField K]

/-- The sum of two vectors does not depend on their order. -/
theorem vec_add_comm (a b : Vec K) : Vec.add a b = Vec.add b a := by
  simp only [Vec.add]
  exact List.zipWith_comm_of_comm _ (fun x y => add_comm x y) a b

/-- Claim C22.  `LogitSampler::draw_beta` passes to the multivariate-normal draw the
precision `pri.siginv + suf.xtx` and the vector `pri.siginv · pri.mu + suf.xty`, and writes
the vector drawn to the model as `beta`; `LogitSamplerBma::draw_beta_given_gamma` passes
the same two quantities restricted to the included positions of the selector of the model
and writes its draw as `beta`; and when the selector includes every position (and the
prior and the statistic are not larger than the selector) both pass the same precision and
the same vector, so both write the same `beta` and leave the global generator in the same
state. -/
theorem draw_beta_conjugate (D : Distributions K ρ) (self : LogitSamplerBma K ρ) (g : ρ) :
    (self.toLogitSampler.draw_beta D g).1.mod_.beta
        = (D.rmvn_suf_mt g (Mat.add self.pri_.siginv self.suf_.xtx)
            (Vec.add (Mat.mulVec self.pri_.siginv self.pri_.mu) self.suf_.xty)).1
    ∧ (self.toLogitSampler.draw_beta D g).1.ivar = Mat.add self.pri_.siginv self.suf_.xtx
    ∧ (self.draw_beta_given_gamma D g).1.mod_.beta
        = (D.rmvn_suf_mt g
            (Mat.add (self.mod_.inc.select_mat self.pri_.siginv)
              (self.mod_.inc.select_mat self.suf_.xtx))
            (Vec.add (self.mod_.inc.select self.suf_.xty)
              (Mat.mulVec (self.mod_.inc.select_mat self.pri_.siginv)
                (self.mod_.inc.select self.pri_.mu)))).1
    ∧ ((∀ b ∈ self.mod_.inc, b = true) →
        self.pri_.mu.length ≤ self.mod_.inc.length →
        self.suf_.xty.length ≤ self.mod_.inc.length →
        self.pri_.siginv.length ≤ self.mod_.inc.length →
        (∀ row ∈ self.pri_.siginv, row.length ≤ self.mod_.inc.length) →
        self.suf_.xtx.length ≤ self.mod_.inc.length →
        (∀ row ∈ self.suf_.xtx, row.length ≤ self.mod_.inc.length) →
        (self.draw_beta_given_gamma D g).1.mod_ = (self.toLogitSampler.draw_beta D g).1.mod_
        ∧ (self.draw_beta_given_gamma D g).2 = (self.toLogitSampler.draw_beta D g).2) := by
  refine ⟨rfl, rfl, rfl, ?_⟩
  intro hg hmu hxty hsi hsir hxx hxxr
  simp only [draw_beta_given_gamma, LogitSampler.draw_beta, Distributions.rmvn_suf,
    Selector.select_all _ hg _ hmu, Selector.select_all _ hg _ hxty,
    Selector.select_mat_all _ hg _ hsi hsir, Selector.select_mat_all _ hg _ hxx hxxr,
    vec_add_comm self.suf_.xty, and_self]

/-- An instance of `draw_beta_conjugate` with two predictors, both included. -/
theorem draw_beta_conjugate_witness :
    (draw_beta_given_gamma (⟨fun g a _ => (a, g), fun _ _ => 0, fun u _ => u,
          fun r _ => (1, r), fun g A b => (b ++ A.flatten, g + 1), fun g _ _ => ([], g),
          fun g m _ _ _ => (m, g), fun g l => (l, g)⟩ : Distributions ℚ Nat)
        (⟨⟨⟨[0, 0], [true, true], 0, []⟩, ⟨[1, 2], [[2, 0], [0, 2]]⟩,
            ⟨[[1, 3], [3, 4]], [5, 6]⟩, [], [], 0⟩, ⟨fun _ => 0⟩, 2⟩ :
          LogitSamplerBma ℚ Nat) 7).1.mod_.beta
      = [7, 10, 3, 3, 3, 6] := by
  rw [((draw_beta_conjugate _ _ _).2.2.2 (by decide) (by decide) (by decide) (by decide)
    (by decide) (by decide) (by decide)).1]
  simp [LogitSampler.draw_beta, Distributions.rmvn_suf, Mat.add, Vec.add, Mat.mulVec,
    Vec.dot, LogisticRegressionModel.set_beta]
  norm_num

end LogitSamplerBma

/-! ## ArPosteriorSampler::draw_sigma -/

namespace ArSuf

variable {K : Type} [LinearOrderedField K]

end ArSuf

namespace ArPosteriorSampler

variable {K ρ : Type} [LinearOrderedField K]

end ArPosteriorSampler

/-! ## NormalMixtureApproximationTable -/

namespace NormalMixtureApproximationTable

/-- The insertion of `x` at its lower bound in a vector `v`: the lower bound
is within `v`, the lower bound of `x` in the new vector is the same position,
which now holds `x`, and a sorted vector stays sorted. -/
theorem insert_at_lower_bound (x : Int) : ∀ v : List Int,
    lower_bound v x ≤ v.length
    ∧ lower_bound (vector_insert v (lower_bound v x) x) x = lower_bound v x
    ∧ (vector_insert v (lower_bound v x) x)[lower_bound v x]? = some x
    ∧ (∀ e ∈ vector_insert v (lower_bound v x) x, e = x ∨ e ∈ v)
    ∧ (List.Sorted (· ≤ ·) v → List.Sorted (· ≤ ·) (vector_insert v (lower_bound v x) x)) := by
  intro v
  induction v with
  | nil => simp [lower_bound, vector_insert]
  | cons a v ih =>
    obtain ⟨h1, h2, h3, h4, h5⟩ := ih
    by_cases hax : a < x
    · have hp : lower_bound (a :: v) x = lower_bound v x + 1 := by
        simp [lower_bound, List.takeWhile_cons, hax]
      have hv : vector_insert (a :: v) (lower_bound v x + 1) x
          = a :: vector_insert v (lower_bound v x) x := by
        simp [vector_insert]
      rw [hp, hv]
      refine ⟨by simpa using h1, ?_, ?_, ?_, ?_⟩
      · have : lower_bound (a :: vector_insert v (lower_bound v x) x) x
            = lower_bound (vector_insert v (lower_bound v x) x) x + 1 := by
          simp [lower_bound, List.takeWhile_cons, hax]
        rw [this, h2]
      · simpa using h3
      · intro e he
        rcases List.mem_cons.mp he with rfl | he
        · exact Or.inr (List.mem_cons_self _ _)
        · rcases h4 e he with h | h
          · exact Or.inl h
          · exact Or.inr (List.mem_cons_of_mem _ h)
      · intro hs
        rw [List.sorted_cons] at hs ⊢
        refine ⟨?_, h5 hs.2⟩
        intro e he
        rcases h4 e he with rfl | h
        · exact le_of_lt hax
        · exact hs.1 e h
    · have hp : lower_bound (a :: v) x = 0 := by
        simp [lower_bound, List.takeWhile_cons, hax]
      rw [hp]
      have hv : vector_insert (a :: v) 0 x = x :: a :: v := by simp [vector_insert]
      rw [hv]
      refine ⟨Nat.zero_le _, ?_, rfl, ?_, ?_⟩
      · simp [lower_bound, List.takeWhile_cons]
      · intro e he
        rcases List.mem_cons.mp he with rfl | he
        · exact Or.inl rfl
        · exact Or.inr he
      · intro hs
        have hxa : x ≤ a := not_lt.mp hax
        rw [List.sorted_cons]
        refine ⟨?_, hs⟩
        intro e he
        rcases List.mem_cons.mp he with rfl | he
        · exact hxa
        · exact le_trans hxa ((List.sorted_cons.mp hs).1 e he)

/-- The lower bound of `x` in `v ++ [x]` when every element of `v` is less
than `x`. -/
theorem lower_bound_push_back (x : Int) : ∀ v : List Int, (∀ e ∈ v, e < x) →
    lower_bound (v ++ [x]) x = v.length := by
  intro v
  induction v with
  | nil => intro _; simp [lower_bound, List.takeWhile_cons]
  | cons a v ih =>
    intro h
    have ha : a < x := h a (List.mem_cons_self _ _)
    have := ih (fun e he => h e (List.mem_cons_of_mem _ he))
    simp only [lower_bound] at this ⊢
    simp [List.takeWhile_cons, ha, this]

/-- In a sorted vector no element is greater than the last. -/
theorem le_back (v : List Int) (hs : List.Sorted (· ≤ ·) v) (b : Int)
    (hb : v.getLast? = some b) : ∀ e ∈ v, e ≤ b := by
  have hv : v.dropLast ++ [b] = v := List.dropLast_append_getLast? b hb
  intro e he
  rw [← hv] at he hs
  rcases List.mem_append.mp he with h | h
  · exact (List.pairwise_append.mp hs).2.2 e h b (List.mem_singleton_self b)
  · rw [List.mem_singleton.mp h]

/-- The insertion into a vector at a position within it: the length and the
entry at the position. -/
theorem vector_insert_get {α : Type} (v : List α) (p : Nat) (x : α) (hp : p ≤ v.length) :
    (vector_insert v p x).length = v.length + 1 ∧ (vector_insert v p x)[p]? = some x := by
  constructor
  · simp only [vector_insert, List.length_append, List.length_take, List.length_cons,
      List.length_drop]
    omega
  · simp only [vector_insert]
    rw [List.getElem?_append_right (by simp [hp])]
    simp [hp]

variable {K A : Type} [LinearOrderedField K]

/-- Claim C24.  The recursion in `NormalMixtureApproximationTable::approximate` stops after
one step.  For every table whose `index_` is sorted ascending and has the length of
`approximations_`, every integer `nu` and every approximation `a`: `add(nu, a)` is defined,
the new table is sorted and aligned, the lower bound of `nu` in the new `index_` is a position
that holds `nu` and at which `approximations_` holds `a`, and `approximate(nu)` on the new
table returns `a` at its equality check, leaving the table as it is, without a nested call
(one unit of fuel is enough).  Hence a call `approximate(nu)` that does not return at its
equality check and whose new approximation is `a` returns `a` and the table `add(nu, a)`
with exactly one nested call. -/
theorem approximate_recursion_stops (M : NormalMixtureApproximationMethods K A)
    (log sqrt : K → K) (t : NormalMixtureApproximationTable A) (nu : Int) (a : A)
    (hs : List.Sorted (· ≤ ·) t.index_)
    (hal : t.index_.length = t.approximations_.length) :
    ∃ t1 : NormalMixtureApproximationTable A,
      t.add nu a = some t1
      ∧ List.Sorted (· ≤ ·) t1.index_
      ∧ t1.index_.length = t1.approximations_.length
      ∧ t1.index_[lower_bound t1.index_ nu]? = some nu
      ∧ t1.approximations_[lower_bound t1.index_ nu]? = some a
      ∧ (∀ fuel, approximate M log sqrt (fuel + 1) t1 nu = some (Except.ok (a, t1)))
      ∧ (∀ v, t.index_[lower_bound t.index_ nu]? = some v → v ≠ nu →
          new_approximation M log sqrt t nu (lower_bound t.index_ nu) = some (Except.ok a) →
          ∀ fuel, approximate M log sqrt (fuel + 2) t nu = some (Except.ok (a, t1))) := by
  have key : ∃ t1 : NormalMixtureApproximationTable A,
      t.add nu a = some t1
      ∧ List.Sorted (· ≤ ·) t1.index_
      ∧ t1.index_.length = t1.approximations_.length
      ∧ t1.index_[lower_bound t1.index_ nu]? = some nu
      ∧ t1.approximations_[lower_bound t1.index_ nu]? = some a := by
    by_cases hc : (t.index_.isEmpty || decide (nu > t.index_.getLast?.getD 0)) = true
    · refine ⟨⟨t.index_ ++ [nu], t.approximations_ ++ [a]⟩, by rw [add, if_pos hc],
        ?_, ?_, ?_, ?_⟩
      all_goals
        have hlt : ∀ e ∈ t.index_, e < nu := by
          intro e he
          cases hb : t.index_.getLast? with
          | none => rw [List.getLast?_eq_none_iff.mp hb] at he; simp at he
          | some b =>
            have hne : t.index_.isEmpty = false := by
              cases hi : t.index_ with
              | nil => rw [hi] at he; simp at he
              | cons _ _ => rfl
            rw [hne, hb] at hc
            simp only [Bool.false_or, Option.getD_some, decide_eq_true_eq] at hc
            exact lt_of_le_of_lt (le_back t.index_ hs b hb e he) hc
      · show List.Sorted (· ≤ ·) (t.index_ ++ [nu])
        rw [List.Sorted, List.pairwise_append]
        refine ⟨hs, List.pairwise_singleton _ _, ?_⟩
        intro e he b hb
        rw [List.mem_singleton.mp hb]
        exact le_of_lt (hlt e he)
      · simp [hal]
      · show (t.index_ ++ [nu])[lower_bound (t.index_ ++ [nu]) nu]? = some nu
        rw [lower_bound_push_back nu t.index_ hlt]
        simp
      · show (t.approximations_ ++ [a])[lower_bound (t.index_ ++ [nu]) nu]? = some a
        rw [lower_bound_push_back nu t.index_ hlt, hal]
        simp
    · obtain ⟨h1, h2, h3, _, h5⟩ := insert_at_lower_bound nu t.index_
      have hp : lower_bound t.index_ nu ≤ t.approximations_.length := hal ▸ h1
      refine ⟨⟨vector_insert t.index_ (lower_bound t.index_ nu) nu,
          vector_insert t.approximations_ (lower_bound t.index_ nu) a⟩,
        by rw [add, if_neg hc]; simp only [hp, if_true], h5 hs, ?_, ?_, ?_⟩
      · show (vector_insert t.index_ _ nu).length = (vector_insert t.approximations_ _ a).length
        rw [(vector_insert_get _ _ nu h1).1, (vector_insert_get _ _ a hp).1, hal]
      · show (vector_insert t.index_ _ nu)[lower_bound (vector_insert t.index_ _ nu) nu]? = _
        rw [h2, h3]
      · show (vector_insert t.approximations_ _ a)[lower_bound (vector_insert t.index_ _ nu) nu]?
          = _
        rw [h2]
        exact (vector_insert_get _ _ a hp).2
  obtain ⟨t1, hadd, hs1, hal1, hi1, ha1⟩ := key
  have hret : ∀ fuel, approximate M log sqrt (fuel + 1) t1 nu = some (Except.ok (a, t1)) := by
    intro fuel
    simp only [approximate, hi1, ha1, if_true]
  refine ⟨t1, hadd, hs1, hal1, hi1, ha1, hret, ?_⟩
  intro v hv hne hnew fuel
  rw [approximate]
  simp only [hv, hne, if_false, hnew, hadd]
  exact hret fuel

/-- An instance of `approximate_recursion_stops`: the table with indices `1, 4`, from which
`approximate(2)` builds a new entry and returns it after one nested call. -/
theorem approximate_recursion_stops_witness :
    approximate (⟨fun _ => 1, fun a => [a], fun _ => [1], fun _ => [1],
        fun mu _ _ => Except.ok (mu.headD 0), fun _ _ _ _ _ _ _ => Except.ok 0,
        fun a _ => Except.ok (0, a)⟩ : NormalMixtureApproximationMethods ℚ ℚ)
      (fun x => x) (fun x => x) 2 ⟨[1, 4], [10, 40]⟩ 2
      = some (Except.ok (20, ⟨[1, 2, 4], [10, 20, 40]⟩)) := by
  obtain ⟨t1, hadd, -, -, -, -, -, h⟩ := approximate_recursion_stops
    (⟨fun _ => 1, fun a => [a], fun _ => [1], fun _ => [1],
        fun mu _ _ => Except.ok (mu.headD 0), fun _ _ _ _ _ _ _ => Except.ok 0,
        fun a _ => Except.ok (0, a)⟩ : NormalMixtureApproximationMethods ℚ ℚ)
    (fun x => x) (fun x => x) ⟨[1, 4], [10, 40]⟩ 2 20 (by decide) rfl
  have hadd2 : t1 = ⟨[1, 2, 4], [10, 20, 40]⟩ := by
    have : (⟨[1, 4], [10, 40]⟩ : NormalMixtureApproximationTable ℚ).add 2 20
        = some ⟨[1, 2, 4], [10, 20, 40]⟩ := by
      simp [add, lower_bound, vector_insert, List.takeWhile_cons]
    rw [this] at hadd
    exact (Option.some.inj hadd).symm
  rw [← hadd2]
  refine h 4 (by simp [lower_bound, List.takeWhile_cons]) (by decide) ?_ 0
  simp [new_approximation, lower_bound, List.takeWhile_cons, linear_combination, Vec.add,
    Vec.smul]
  norm_num

end NormalMixtureApproximationTable

/-! ## LogitSamplerBma::draw_gamma keeps a finite log probability -/

namespace LogitSamplerBma

open IEEE

variable {K ρ : Type} [LinearOrderedField K]

/-- When `keep_flip` returns true, `logp_new` is finite. -/
theorem keep_flip_finite (D : Distributions K ρ) (logit_inv : IEEE K → IEEE K) (g : ρ)
    (logp_old logp_new : IEEE K) (h : (keep_flip D logit_inv g logp_old logp_new).1 = true) :
    logp_new.finite = true := by
  by_contra hf
  simp [keep_flip, hf] at h

/-- One round of the loop of `draw_gamma()` keeps `logp` equal to
`log_model_prob` of the selector and finite, and keeps the length of the
selector. -/
theorem draw_gamma_step_inv (D : Distributions K ρ) (logit_inv : IEEE K → IEEE K)
    (LA : LinAlg K) (log : K → K) (self : LogitSamplerBma K ρ) (st : Selector × IEEE K × ρ)
    (I : Nat) (h1 : st.2.1 = self.log_model_prob LA log st.1) (h2 : st.2.1.finite = true) :
    (self.draw_gamma_step D logit_inv LA log st I).2.1
        = self.log_model_prob LA log (self.draw_gamma_step D logit_inv LA log st I).1
    ∧ (self.draw_gamma_step D logit_inv LA log st I).2.1.finite = true
    ∧ (self.draw_gamma_step D logit_inv LA log st I).1.length = st.1.length := by
  simp only [draw_gamma_step]
  by_cases hk : (keep_flip D logit_inv st.2.2 st.2.1
      (self.log_model_prob LA log (st.1.flip I))).1 = true
  · simp only [hk, if_true]
    exact ⟨trivial, keep_flip_finite D logit_inv _ _ _ hk, by simp [Selector.flip]⟩
  · simp only [hk, if_false, flip_flip, Bool.false_eq_true]
    exact ⟨h1, h2, trivial⟩

/-- The state of the loop at the head of the next round. -/
theorem draw_gamma_state_succ (D : Distributions K ρ) (logit_inv : IEEE K → IEEE K)
    (LA : LinAlg K) (log : K → K) (self : LogitSamplerBma K ρ) (g : ρ) (i : Nat) :
    draw_gamma_state D logit_inv LA log self g (i + 1)
      = self.draw_gamma_step D logit_inv LA log (draw_gamma_state D logit_inv LA log self g i)
          ((draw_gamma_flips D self g).1.getD i 0) := by
  simp only [draw_gamma_state, List.range_succ, List.foldl_append, List.foldl_cons,
    List.foldl_nil]

/-- At the head of every round of the loop of `draw_gamma()` that starts
from a finite `logp`, `logp` is `log_model_prob` of the selector and is
finite, and the selector has its first length. -/
theorem draw_gamma_state_inv (D : Distributions K ρ) (logit_inv : IEEE K → IEEE K)
    (LA : LinAlg K) (log : K → K) (self : LogitSamplerBma K ρ) (g : ρ)
    (hstart : (self.log_model_prob LA log self.mod_.inc).finite = true) (i : Nat) :
    (draw_gamma_state D logit_inv LA log self g i).2.1
        = self.log_model_prob LA log (draw_gamma_state D logit_inv LA log self g i).1
    ∧ (draw_gamma_state D logit_inv LA log self g i).2.1.finite = true
    ∧ (draw_gamma_state D logit_inv LA log self g i).1.length = self.mod_.inc.length := by
  induction i with
  | zero => exact ⟨rfl, hstart, rfl⟩
  | succ i ih =>
    rw [draw_gamma_state_succ]
    obtain ⟨h1, h2, h3⟩ := draw_gamma_step_inv D logit_inv LA log self
      (draw_gamma_state D logit_inv LA log self g i) ((draw_gamma_flips D self g).1.getD i 0)
      ih.1 ih.2.1
    exact ⟨h1, h2, h3.trans ih.2.2⟩

/-- The first `i` entries of a list, read one by one. -/
theorem map_getD_range (l : List Nat) (i : Nat) (hi : i ≤ l.length) :
    (List.range i).map (fun j => l.getD j 0) = l.take i := by
  apply List.ext_getElem?
  intro j
  by_cases hj : j < i
  · have hjl : j < l.length := lt_of_lt_of_le hj hi
    simp [List.getElem?_take, hj, List.getElem?_range, hjl, List.getD_eq_getElem?_getD]
  · simp [List.getElem?_take, hj, List.getElem?_range]
    omega

/-- Claim C25.  `LogitSamplerBma::draw_gamma` only commits configurations of finite
log probability.  For a model with fewer than `2^32` candidate predictors whose selector has
a finite `log_model_prob`, and a shuffle that permutes its argument: at the head of every
round of the flip loop the local `logp` is `log_model_prob` of the current selector and is
finite, and the selector has its first length; the positions proposed are
`min(nvars_possible, max_nflips_)` in number, pairwise different and below
`nvars_possible`; and `draw_gamma` returns, with a model whose selector has a finite
`log_model_prob` and the length it had, which is the selector of the loop after its last
round when `max_nflips_` is not zero. -/
theorem draw_gamma_commits_finite (D : Distributions K ρ) (logit_inv : IEEE K → IEEE K)
    (LA : LinAlg K) (log : K → K) (self : LogitSamplerBma K ρ) (g : ρ)
    (hstart : (self.log_model_prob LA log self.mod_.inc).finite = true)
    (hnv : self.mod_.inc.nvars_possible < 2 ^ 32)
    (hperm : ∀ (r : ρ) (l : List Nat), List.Perm (D.random_shuffle r l).1 l) :
    (∀ i, i ≤ min self.mod_.inc.nvars_possible self.max_nflips_ →
      (draw_gamma_state D logit_inv LA log self g i).2.1
          = self.log_model_prob LA log (draw_gamma_state D logit_inv LA log self g i).1
      ∧ (draw_gamma_state D logit_inv LA log self g i).2.1.finite = true
      ∧ (draw_gamma_state D logit_inv LA log self g i).1.length = self.mod_.inc.length)
    ∧ ((List.range (min self.mod_.inc.nvars_possible self.max_nflips_)).map
        (fun i => (draw_gamma_flips D self g).1.getD i 0)).Nodup
    ∧ ((List.range (min self.mod_.inc.nvars_possible self.max_nflips_)).map
        (fun i => (draw_gamma_flips D self g).1.getD i 0)).length
        = min self.mod_.inc.nvars_possible self.max_nflips_
    ∧ (∀ I ∈ (List.range (min self.mod_.inc.nvars_possible self.max_nflips_)).map
        (fun i => (draw_gamma_flips D self g).1.getD i 0), I < self.mod_.inc.nvars_possible)
    ∧ ∃ (s : LogitSamplerBma K ρ) (g1 : ρ),
        self.draw_gamma D logit_inv LA log g = Outcome.returned (s, g1)
        ∧ (s.log_model_prob LA log s.mod_.inc).finite = true
        ∧ s.mod_.inc.length = self.mod_.inc.length
        ∧ (self.max_nflips_ ≠ 0 →
            s.mod_.inc = (draw_gamma_state D logit_inv LA log self g
              (min self.mod_.inc.nvars_possible self.max_nflips_)).1) := by
  have hinv := draw_gamma_state_inv D logit_inv LA log self g hstart
  have hprop : ((List.range (min self.mod_.inc.nvars_possible self.max_nflips_)).map
        (fun i => (draw_gamma_flips D self g).1.getD i 0)).Nodup
      ∧ (∀ I ∈ (List.range (min self.mod_.inc.nvars_possible self.max_nflips_)).map
        (fun i => (draw_gamma_flips D self g).1.getD i 0),
          I < self.mod_.inc.nvars_possible) := by
    by_cases h0 : self.mod_.inc.nvars_possible = 0
    · rw [h0]
      simp
    · have hpow : (2 : Nat) ^ 32 = 4294967296 := by norm_num
      have hseq : seq 0 ((self.mod_.inc.nvars_possible + 2 ^ 32 - 1) % 2 ^ 32)
          = List.range' 0 self.mod_.inc.nvars_possible := by
        rw [hpow] at hnv ⊢
        have : (self.mod_.inc.nvars_possible + 4294967296 - 1) % 4294967296
            = self.mod_.inc.nvars_possible - 1 := by omega
        rw [this, seq]
        have h1 : self.mod_.inc.nvars_possible - 1 + 1 - 0 = self.mod_.inc.nvars_possible := by
          omega
        rw [h1]
      have hp : List.Perm (draw_gamma_flips D self g).1
          (List.range' 0 self.mod_.inc.nvars_possible) := by
        rw [← hseq]
        exact hperm _ _
      have hlen : (draw_gamma_flips D self g).1.length = self.mod_.inc.nvars_possible := by
        rw [hp.length_eq, List.length_range']
      have hnd : (draw_gamma_flips D self g).1.Nodup :=
        hp.nodup_iff.mpr (List.nodup_range' _ _)
      rw [map_getD_range _ _ (by rw [hlen]; exact Nat.min_le_left _ _)]
      refine ⟨hnd.sublist (List.take_sublist _ _), ?_⟩
      intro I hI
      have hI2 : I ∈ List.range' 0 self.mod_.inc.nvars_possible :=
        hp.mem_iff.mp (List.mem_of_mem_take hI)
      rw [List.mem_range'_1] at hI2
      omega
  refine ⟨fun i _ => hinv i, hprop.1, by simp, hprop.2, ?_⟩
  by_cases hm : self.max_nflips_ = 0
  · exact ⟨self, g, by simp [draw_gamma, hm], hstart, rfl, fun h => absurd hm h⟩
  · have hfin := hinv (min self.mod_.inc.nvars_possible self.max_nflips_)
    refine ⟨{ self with mod_ := (self.mod_.set_inc
          (draw_gamma_state D logit_inv LA log self g
            (min self.mod_.inc.nvars_possible self.max_nflips_)).1) },
      (draw_gamma_state D logit_inv LA log self g
        (min self.mod_.inc.nvars_possible self.max_nflips_)).2.2, ?_, ?_, hfin.2.2,
      fun _ => rfl⟩
    · simp only [draw_gamma, hm, if_false, hstart, Bool.not_true, Bool.false_eq_true,
        draw_gamma_state, draw_gamma_flips]
    · have h := hfin.2.1
      rw [hfin.1] at h
      exact h

/-- An instance of `draw_gamma_commits_finite`: one candidate predictor, a shuffle that
leaves its argument in place, and stand-ins for the collaborators; at the head of round `1`
the local `logp` is finite. -/
theorem draw_gamma_commits_finite_witness :
    (draw_gamma_state (⟨fun g a _ => (a, g), fun _ _ => 0, fun u _ => u, fun r _ => (1, r),
          fun g _ b => (b, g), fun g m _ => (m, g), fun g m _ _ _ => (m, g),
          fun g l => (l, g)⟩ : Distributions ℚ Nat)
        (fun x => x) ⟨fun _ => fin 0, fun M => (M, true), fun _ v => v⟩ (fun x => x)
        ⟨⟨⟨[0], [true], 0, []⟩, ⟨[0], [[1]]⟩, ⟨[[1]], [0]⟩, [], [], 0⟩, ⟨fun _ => fin 0⟩, 1⟩ 5
        1).2.1.finite = true :=
  ((draw_gamma_commits_finite
    (⟨fun g a _ => (a, g), fun _ _ => 0, fun u _ => u, fun r _ => (1, r),
          fun g _ b => (b, g), fun g m _ => (m, g), fun g m _ _ _ => (m, g),
          fun g l => (l, g)⟩ : Distributions ℚ Nat)
    (fun x => x) ⟨fun _ => fin 0, fun M => (M, true), fun _ v => v⟩ (fun x => x)
    ⟨⟨⟨[0], [true], 0, []⟩, ⟨[0], [[1]]⟩, ⟨[[1]], [0]⟩, [], [], 0⟩, ⟨fun _ => fin 0⟩, 1⟩ 5
    (by
      simp [log_model_prob, IEEE.beq, Mat.add, Vec.add, Selector.select_mat, Selector.select,
        Mat.diag, List.enum, List.enumFrom, Vec.dot, Vec.normsq, Mat.mulVec, IEEE.log,
        IEEE.finite]
      norm_num [IEEE.finite, IEEE.add_def, IEEE.sub_def, IEEE.mul_def, IEEE.add, IEEE.mul,
        IEEE.neg])
    (by norm_num [Selector.nvars_possible])
    (fun _ _ => List.Perm.refl _)).1 1 (by decide)).2.1

end LogitSamplerBma

/-! ## ArPosteriorSampler keeps phi stationary -/

namespace ArPosteriorSampler

variable {K ρ : Type}

/-- A property that every successful step of a loop establishes, and that
holds at the start, holds for the result of the loop. -/
theorem foldlM_some_inv {σ ι : Type} (P : σ → Prop) (f : σ → ι → Option σ)
    (hf : ∀ s i s1, f s i = some s1 → P s1) :
    ∀ (l : List ι) (s r : σ), P s → l.foldlM f s = some r → P r := by
  intro l
  induction l with
  | nil =>
    intro s r hs h
    simp only [List.foldlM_nil, Option.pure_def, Option.some.injEq] at h
    exact h ▸ hs
  | cons i l ih =>
    intro s r _ h
    simp only [List.foldlM_cons, Option.bind_eq_bind] at h
    cases hfi : f s i with
    | none => simp [hfi] at h
    | some s1 =>
      rw [hfi] at h
      exact ih s1 r (hf s i s1 hfi) h

/-- The inner loop of `draw_phi_univariate()` ends only with a stationary
vector. -/
theorem draw_phi_univariate_while_stationary [LinearOrderedField K] (D : Distributions K ρ)
    (check : Vec K → Bool) (sqrt : K → K) (i : Nat) (initial_phi mu ivar : K) :
    ∀ (fuel : Nat) (phi : Vec K) (lo hi : K) (rng : ρ) (r : Vec K × ρ),
      draw_phi_univariate_while D check sqrt i initial_phi mu ivar fuel phi lo hi rng = some r →
      check r.1 = true := by
  intro fuel
  induction fuel with
  | zero => intro phi lo hi rng r h; simp [draw_phi_univariate_while] at h
  | succ fuel ih =>
    intro phi lo hi rng r h
    simp only [draw_phi_univariate_while] at h
    split_ifs at h with h1 h2
    · simp only [Option.some.injEq] at h
      rw [← h]
      exact h1
    · exact ih _ _ _ _ r h
    · exact ih _ _ _ _ r h

/-- The method `draw_phi_univariate()` raises an error, leaving the sampler
as it is, when the `phi` of the model is not stationary, and returns only
with a stationary `phi`. -/
theorem draw_phi_univariate_post [LinearOrderedField K] (D : Distributions K ρ)
    (check : Vec K → Bool) (sqrt : K → K) (fuel : Nat) (self : ArPosteriorSampler K ρ) :
    (check self.model_.phi = false →
      self.draw_phi_univariate D check sqrt fuel = some (Outcome.raised Thrown.report_error self))
    ∧ (∀ s, self.draw_phi_univariate D check sqrt fuel = some (Outcome.returned s) →
        check s.model_.phi = true ∧ check self.model_.phi = true)
    ∧ (∀ e s, self.draw_phi_univariate D check sqrt fuel = some (Outcome.raised e s) →
        e = Thrown.report_error ∧ s = self ∧ check self.model_.phi = false) := by
  refine ⟨?_, ?_, ?_⟩
  · intro h
    simp [draw_phi_univariate, h]
  · intro s h
    cases hc : check self.model_.phi with
    | false => simp [draw_phi_univariate, hc] at h
    | true =>
      refine ⟨?_, rfl⟩
      simp only [draw_phi_univariate, hc, Bool.not_true, Bool.false_eq_true, if_false] at h
      split at h
      · simp at h
      · rename_i st hst
        simp only [Option.some.injEq, Outcome.returned.injEq] at h
        rw [← h]
        exact foldlM_some_inv (fun st : Vec K × ρ => check st.1 = true) _
          (fun s i s1 hs => draw_phi_univariate_while_stationary D check sqrt _ _ _ _ _ _ _ _ _
            s1 hs)
          _ _ st hc hst
  · intro e s h
    cases hc : check self.model_.phi with
    | false =>
      simp only [draw_phi_univariate, hc, Bool.not_false, if_true, Option.some.injEq,
        Outcome.raised.injEq] at h
      exact ⟨h.1.symm, h.2.symm, rfl⟩
    | true =>
      simp only [draw_phi_univariate, hc, Bool.not_true, Bool.false_eq_true, if_false] at h
      split at h <;> simp at h

/-- The loop of `draw_phi()` ends with `ok` true only after it has written a
stationary proposal to the model, and with `ok` false only with the model as
it was. -/
theorem draw_phi_while_post [LinearOrderedField K] (D : Distributions K ρ)
    (check : Vec K → Bool) (max : Int) (ph : Vec K) (m : Nat) :
    ∀ (a : Int) (model : ArModel K) (g : ρ), (max - a).toNat = m →
      ((draw_phi_while D check max ph false a model g).1 = true →
        check (draw_phi_while D check max ph false a model g).2.2.1.phi = true)
      ∧ ((draw_phi_while D check max ph false a model g).1 = false →
        (draw_phi_while D check max ph false a model g).2.2.1 = model) := by
  induction m with
  | zero =>
    intro a model g hm
    have hle : ¬ a + 1 ≤ max := by omega
    rw [draw_phi_while]
    simp [hle]
  | succ m ih =>
    intro a model g hm
    have hle : a + 1 ≤ max := by omega
    rw [draw_phi_while]
    simp only [Bool.false_eq_true, if_false, hle, if_true]
    cases hc : check (D.rmvn_ivar g ph (Mat.divScalar model.suf.xtx model.sigsq)).1 with
    | true =>
      rw [draw_phi_while]
      simp [ArModel.set_phi, hc]
    | false =>
      simp only [Bool.false_eq_true, if_false]
      exact ih (a + 1) model _ (by omega)

/-- Claim C26.  `ArPosteriorSampler` never writes a non-stationary coefficient vector.
Whenever `draw_phi()` returns normally the `phi` of the model passes
`ArModel::check_stationary`; whenever it raises, the error is the one of
`draw_phi_univariate()`, the sampler is as it was and its `phi` is not stationary;
whenever `draw_phi_univariate()` returns normally the `phi` it has written is stationary;
and when the `phi` of the model is not stationary `draw_phi_univariate()` raises the error
without sampling, for every bound on its loops. -/
theorem draw_phi_stationary [LinearOrderedField K] (D : Distributions K ρ)
    (check_stationary : Vec K → Bool) (sqrt : K → K) (solve : Mat K → Vec K → Vec K)
    (fuel : Nat) (self : ArPosteriorSampler K ρ) (g : ρ) :
    (∀ s g1, self.draw_phi D check_stationary sqrt solve fuel g
        = some (Outcome.returned (s, g1)) → check_stationary s.model_.phi = true)
    ∧ (∀ e s g1, self.draw_phi D check_stationary sqrt solve fuel g
        = some (Outcome.raised e (s, g1)) →
        e = Thrown.report_error ∧ s = self ∧ check_stationary self.model_.phi = false)
    ∧ (∀ s, self.draw_phi_univariate D check_stationary sqrt fuel = some (Outcome.returned s) →
        check_stationary s.model_.phi = true)
    ∧ (check_stationary self.model_.phi = false →
        ∀ fuel1, self.draw_phi_univariate D check_stationary sqrt fuel1
          = some (Outcome.raised Thrown.report_error self)) := by
  have hw := draw_phi_while_post D check_stationary self.max_number_of_regression_proposals_
    (solve self.model_.suf.xtx self.model_.suf.xty) _ 0 self.model_ g rfl
  refine ⟨?_, ?_, fun s h => ((draw_phi_univariate_post D check_stationary sqrt fuel self).2.1
    s h).1, fun h fuel1 => (draw_phi_univariate_post D check_stationary sqrt fuel1 self).1 h⟩
  · intro s g1 h
    simp only [draw_phi] at h
    cases hok : (draw_phi_while D check_stationary self.max_number_of_regression_proposals_
        (solve self.model_.suf.xtx self.model_.suf.xty) false 0 self.model_ g).1 with
    | true =>
      simp only [hok, Bool.not_true, Bool.false_eq_true, if_false, Option.some.injEq,
        Outcome.returned.injEq, Prod.mk.injEq] at h
      rw [← h.1]
      exact hw.1 hok
    | false =>
      simp only [hok, Bool.not_false, if_true] at h
      split at h
      · simp at h
      · rename_i s1 hs1
        simp only [Option.some.injEq, Outcome.returned.injEq, Prod.mk.injEq] at h
        rw [← h.1]
        exact ((draw_phi_univariate_post D check_stationary sqrt fuel _).2.1 s1 hs1).1
      · simp at h
  · intro e s g1 h
    simp only [draw_phi] at h
    cases hok : (draw_phi_while D check_stationary self.max_number_of_regression_proposals_
        (solve self.model_.suf.xtx self.model_.suf.xty) false 0 self.model_ g).1 with
    | true => simp [hok] at h
    | false =>
      have hm := hw.2 hok
      simp only [hok, Bool.not_false, if_true, hm] at h
      split at h
      · simp at h
      · simp at h
      · rename_i e1 s1 hs1
        simp only [Option.some.injEq, Outcome.raised.injEq, Prod.mk.injEq] at h
        obtain ⟨he, hs, _⟩ := h
        have := (draw_phi_univariate_post D check_stationary sqrt fuel _).2.2 e1 s1 hs1
        rw [← he, ← hs]
        exact this

/-- An instance of `draw_phi_stationary`: a sampler whose model holds a `phi` that is not
stationary; `draw_phi_univariate()` raises its error and leaves the sampler as it is. -/
theorem draw_phi_stationary_witness :
    draw_phi_univariate (⟨fun g a _ => (a, g), fun _ _ => 0, fun u _ => u,
          fun r _ => (1, r), fun g _ b => (b, g), fun g _ _ => ([(g : ℚ)], g + 1),
          fun g m _ _ _ => (m, g), fun g l => (l, g)⟩ : Distributions ℚ Nat)
        (fun v => decide (v = [2])) (fun x => x) 7
        (mk_sampler ⟨[5], 1, ⟨[[1]], [1], 1, 1⟩⟩ ⟨1, 1⟩ 0)
      = some (Outcome.raised Thrown.report_error
          (mk_sampler ⟨[5], 1, ⟨[[1]], [1], 1, 1⟩⟩ ⟨1, 1⟩ 0)) :=
  (draw_phi_stationary (⟨fun g a _ => (a, g), fun _ _ => 0, fun u _ => u,
          fun r _ => (1, r), fun g _ b => (b, g), fun g _ _ => ([(g : ℚ)], g + 1),
          fun g m _ _ _ => (m, g), fun g l => (l, g)⟩ : Distributions ℚ Nat)
        (fun v => decide (v = [2])) (fun x => x) (fun _ v => v) 0
        (mk_sampler ⟨[5], 1, ⟨[[1]], [1], 1, 1⟩⟩ ⟨1, 1⟩ 0) 0).2.2.2 (by decide) 7

end ArPosteriorSampler

/-! ## PoissonGammaPosteriorSampler: the targets of the slice samplers -/

namespace PoissonGammaPosteriorSampler

variable {K M S : Type}

/-- The method `draw()` leaves the targets of both slice samplers as they
are. -/
theorem draw_logf [Add K] [Mul K] (PM : PoissonGammaModelMethods K M)
    (SS : ScalarSliceSamplerMethods K S) (self : PoissonGammaPosteriorSampler K M S) :
    (self.draw PM SS).prior_mean_sampler_.logf = self.prior_mean_sampler_.logf
    ∧ (self.draw PM SS).prior_sample_size_sampler_.logf
        = self.prior_sample_size_sampler_.logf :=
  ⟨rfl, rfl⟩

/-- Any number of calls of `draw()` leaves the targets of both slice
samplers as they are. -/
theorem iterate_draw_logf [Add K] [Mul K] (PM : PoissonGammaModelMethods K M)
    (SS : ScalarSliceSamplerMethods K S) (self : PoissonGammaPosteriorSampler K M S)
    (n : Nat) :
    (Nat.iterate (draw PM SS) n self).prior_mean_sampler_.logf = self.prior_mean_sampler_.logf
    ∧ (Nat.iterate (draw PM SS) n self).prior_sample_size_sampler_.logf
        = self.prior_sample_size_sampler_.logf := by
  induction n generalizing self with
  | zero => exact ⟨rfl, rfl⟩
  | succ n ih =>
    rw [Function.iterate_succ_apply]
    have h := ih (self.draw PM SS)
    exact ⟨h.1.trans (draw_logf PM SS self).1, h.2.trans (draw_logf PM SS self).2⟩

/-- Claim C27.  The two slice-sampling targets of `PoissonGammaPosteriorSampler` are fixed
when the sampler is constructed.  For the sampler made for a model with prior mean `m0` and
prior sample size `b0`, after any number `n` of calls of `draw()`: the target of the sampler
of the prior mean is still `logp(_1, b0)` and the target of the sampler of the prior sample
size is still `logp(m0, _1)`; the next `draw()` draws the prior sample size with the target
`b ↦ logp(m0, b)` and then, after `set_b` has written that draw to the model, the prior mean
with the target `m ↦ logp(m, b0)`, where `logp` is evaluated on the sampler as it is at the
call; and when `loglike(a, b)` of the model does not depend on what `set_b` writes, that
target is the same function as before `set_b`. -/
theorem targets_fixed_at_construction [Zero K] [Add K] [Mul K]
    (PM : PoissonGammaModelMethods K M) (SS : ScalarSliceSamplerMethods K S) (model : M)
    (mean_prior_distribution sample_size_prior : DoubleModel K) (n : Nat) :
    (Nat.iterate (draw PM SS) n
        (mk_sampler PM SS model mean_prior_distribution sample_size_prior)).prior_mean_sampler_.logf
      = BoundLogp.first_free (PM.prior_sample_size model)
    ∧ (Nat.iterate (draw PM SS) n
        (mk_sampler PM SS model mean_prior_distribution
          sample_size_prior)).prior_sample_size_sampler_.logf
      = BoundLogp.second_free (PM.prior_mean model)
    ∧ ∀ self : PoissonGammaPosteriorSampler K M S,
        self = Nat.iterate (draw PM SS) n
          (mk_sampler PM SS model mean_prior_distribution sample_size_prior) →
        ∀ (b1 : K) (st1 : S),
          SS.draw (fun b => self.logp PM (PM.prior_mean model) b)
            self.prior_sample_size_sampler_.state (PM.prior_sample_size self.model_)
            = (b1, st1) →
        ∀ self1 : PoissonGammaPosteriorSampler K M S,
          self1 = { self with
            prior_sample_size_sampler_ := { self.prior_sample_size_sampler_ with state := st1 },
            model_ := PM.set_b self.model_ b1 } →
        ∀ (m1 : K) (st2 : S),
          SS.draw (fun m => self1.logp PM m (PM.prior_sample_size model))
            self1.prior_mean_sampler_.state (PM.prior_mean self1.model_) = (m1, st2) →
          self.draw PM SS
            = { self1 with
                prior_mean_sampler_ := { self1.prior_mean_sampler_ with state := st2 },
                model_ := PM.set_prior_mean_and_sample_size self1.model_ m1 b1 }
          ∧ ((∀ (x : M) (b : K), PM.loglike (PM.set_b x b) = PM.loglike x) →
              (fun m => self1.logp PM m (PM.prior_sample_size model))
                = (fun m => self.logp PM m (PM.prior_sample_size model))) := by
  have hit := iterate_draw_logf PM SS
    (mk_sampler PM SS model mean_prior_distribution sample_size_prior) n
  have h1 : (Nat.iterate (draw PM SS) n
        (mk_sampler PM SS model mean_prior_distribution sample_size_prior)).prior_mean_sampler_.logf
      = BoundLogp.first_free (PM.prior_sample_size model) := hit.1
  have h2 : (Nat.iterate (draw PM SS) n
        (mk_sampler PM SS model mean_prior_distribution
          sample_size_prior)).prior_sample_size_sampler_.logf
      = BoundLogp.second_free (PM.prior_mean model) := hit.2
  refine ⟨h1, h2, ?_⟩
  intro self hself b1 st1 hd1 self1 hself1 m1 st2 hd2
  rw [← hself] at h1 h2
  have hl1 : self1.prior_mean_sampler_.logf = BoundLogp.first_free (PM.prior_sample_size model) := by
    rw [hself1]
    exact h1
  constructor
  · have e1 : (fun x => call PM self.prior_sample_size_sampler_.logf self x)
        = (fun b => self.logp PM (PM.prior_mean model) b) := by
      rw [h2]
      rfl
    have e2 : (fun x => call PM self1.prior_mean_sampler_.logf self1 x)
        = (fun m => self1.logp PM m (PM.prior_sample_size model)) := by
      rw [hl1]
      rfl
    have hd2a := hd2
    rw [← e2, hself1] at hd2a
    rw [hself1]
    simp only [draw, e1, hd1]
    simp only [hd2a]
  · intro hll
    funext m
    rw [hself1]
    simp only [logp, hll]

/-- An instance of `targets_fixed_at_construction`: a model `(a, b)` with prior mean `a / b`
and prior sample size `b`, and a slice sampler that returns the value of its
target at `1`.  The model is made with prior mean `2` and prior sample size `3`;
`draw()` draws the prior sample size `logp(2, 1) = 5` and then the prior mean
`logp(1, 3) = 7`, with the sample size `3` of the construction and not the `5` just
written to the model. -/
theorem targets_fixed_at_construction_witness :
    (draw (⟨fun m => m.1 / m.2, fun m => m.2, fun m b => (m.1, b), fun _ m b => (m * b, b),
          fun _ a b => a + b⟩ : PoissonGammaModelMethods ℚ (ℚ × ℚ))
        (⟨fun _ => (), fun s _ => s, fun f s _ => (f 1, s)⟩ : ScalarSliceSamplerMethods ℚ Unit)
        (mk_sampler (⟨fun m => m.1 / m.2, fun m => m.2, fun m b => (m.1, b),
            fun _ m b => (m * b, b), fun _ a b => a + b⟩ :
            PoissonGammaModelMethods ℚ (ℚ × ℚ))
          (⟨fun _ => (), fun s _ => s, fun f s _ => (f 1, s)⟩ :
            ScalarSliceSamplerMethods ℚ Unit)
          (6, 3) ⟨fun x => x⟩ ⟨fun _ => 0⟩)).model_ = (35, 5) := by
  have h := ((targets_fixed_at_construction
      (⟨fun m => m.1 / m.2, fun m => m.2, fun m b => (m.1, b), fun _ m b => (m * b, b),
          fun _ a b => a + b⟩ : PoissonGammaModelMethods ℚ (ℚ × ℚ))
      (⟨fun _ => (), fun s _ => s, fun f s _ => (f 1, s)⟩ : ScalarSliceSamplerMethods ℚ Unit)
      (6, 3) ⟨fun x => x⟩ ⟨fun _ => 0⟩ 0).2.2 _ rfl 5 () (by
        simp [logp, mk_sampler]
        norm_num) _ rfl 7 () (by
        simp [logp, mk_sampler]
        norm_num)).1
  simp only [Function.iterate_zero, id_eq] at h
  rw [h]
  norm_num

end PoissonGammaPosteriorSampler

/-! ## MarkovConjSampler: a failing draw has already written Q -/

namespace MarkovConjSampler

variable {K ρ : Type}

/-- Claim C28.  A failing `MarkovConjSampler::draw` is not atomic.  For a sampler without a
prior for `pi0` on a model whose `pi0` is free (and whose `Q` has the dimension of `Nu`):
`draw()` raises the runtime error of `check_pi0()`, and in the state it leaves every row `s`
of the `Q` of the model is already the new Dirichlet draw with parameter
`Nu.row(s) + trans.row(s)`, while `pi0` is as it was; `find_posterior_mode()` raises the
same error with every row of `Q` already replaced by the Dirichlet mode, and `pi0` as it
was. -/
theorem failing_draw_not_atomic [Add K] (rd : ρ → Vec K → Vec K × ρ) (md : Vec K → Vec K)
    (self : MarkovConjSampler K ρ) (hdim : self.Nu.same_dim self.mod_.Q = true)
    (hnone : self.pi0_ = none) (hfree : self.mod_.pi0_fixed = false) :
    (self.draw rd).error = some Thrown.runtime_error
    ∧ (∀ s, s < self.Nu.nrow →
        (self.draw rd).state.mod_.Q.row s
          = (rd (rng_before rd self.Nu self.mod_.suf.trans self.rng s)
              (Vec.add (self.Nu.row s) (self.mod_.suf.trans.row s))).1)
    ∧ (self.draw rd).state.mod_.pi0 = self.mod_.pi0
    ∧ (self.find_posterior_mode md).error = some Thrown.runtime_error
    ∧ (∀ s, s < self.Nu.nrow →
        (self.find_posterior_mode md).state.mod_.Q.row s
          = md (Vec.add (self.Nu.row s) (self.mod_.suf.trans.row s)))
    ∧ (self.find_posterior_mode md).state.mod_.pi0 = self.mod_.pi0 := by
  refine ⟨?_, fun s hs => draw_rows rd self hdim s hs, ?_, ?_,
    fun s hs => mode_rows md self hdim s hs, ?_⟩
  · simp [draw, hdim, hfree, check_pi0, hnone, MarkovModel.set_Q, Outcome.error]
  · simp [draw, hdim, hfree, check_pi0, hnone, MarkovModel.set_Q, Outcome.state]
  · simp [find_posterior_mode, hdim, hfree, check_pi0, hnone, MarkovModel.set_Q,
      Outcome.error]
  · simp [find_posterior_mode, hdim, hfree, check_pi0, hnone, MarkovModel.set_Q,
      Outcome.state]

/-- An instance of `failing_draw_not_atomic`: the failing `draw()` has replaced row `0` of
`Q`, which was `(1, 0)`, by the draw `(14, 12)`. -/
theorem failing_draw_not_atomic_witness :
    (draw (fun (r : Nat) (v : Vec Nat) => (v.map (· + r), r + 1))
        (mk_without_pi0 ⟨[[1, 0], [0, 1]], [1, 0], false, ⟨[[3, 1], [2, 5]], [1, 0]⟩⟩
          [[1, 1], [1, 1]] 10)).state.mod_.Q.row 0 = [14, 12] := by
  rw [(failing_draw_not_atomic (fun (r : Nat) (v : Vec Nat) => (v.map (· + r), r + 1)) id
      (mk_without_pi0 ⟨[[1, 0], [0, 1]], [1, 0], false, ⟨[[3, 1], [2, 5]], [1, 0]⟩⟩
        [[1, 1], [1, 1]] 10) (by decide) rfl rfl).2.1 0 (by decide)]
  decide

end MarkovConjSampler

/-! ## ChoiceData: the copy constructor -/

namespace ChoiceData

/-- Claim C29, divergence.  The loop of the copy constructor runs over the number of
subject-level predictors, not over the number of choice-level vectors.  (1) For a
`ChoiceData` with two subject-level predictors `(7, 8)` and one choice-level vector `(5)`,
the second round reads `rhs.xchoice_[1]` outside the vector: the copy is undefined.  (2) For
a `ChoiceData` with one subject-level predictor `(7)` and two choice-level vectors `(5)` and
`(6)`, the copy constructor returns, `Xchoice(1)` of the source is `(6)`, but the second
pointer of the copy is null, so `Xchoice(1)` of the copy is undefined.  (3) When the two
numbers agree (two subject-level predictors, two choice-level vectors) the copy has the
values of the source in objects of their own. -/
theorem copy_loop_bound :
    copy [[7, 8], [5]] (mk_data 1 (some 0) [some 1] : ChoiceData Nat) = none
    ∧ (copy [[7], [5], [6]] (mk_data 1 (some 0) [some 1, some 2] : ChoiceData Nat)
        = some (⟨1, some 3, [some 4, none], [], [], false⟩, [[7], [5], [6], [7], [5]])
      ∧ Xchoice [[7], [5], [6]] (mk_data 1 (some 0) [some 1, some 2] : ChoiceData Nat) 1
        = some [6]
      ∧ Xchoice [[7], [5], [6], [7], [5]]
          (⟨1, some 3, [some 4, none], [], [], false⟩ : ChoiceData Nat) 1 = none)
    ∧ copy [[7, 8], [5], [6]] (mk_data 1 (some 0) [some 1, some 2] : ChoiceData Nat)
        = some (⟨1, some 3, [some 4, some 5], [], [], false⟩,
            [[7, 8], [5], [6], [7, 8], [5], [6]]) := by
  refine ⟨by decide, ⟨by decide, by decide, by decide⟩, by decide⟩

end ChoiceData

/-! ## GaussianModel::mle never sets a negative variance -/

namespace GaussianSuf

variable {K : Type} [LinearOrderedField K]

/-- Adding an observation `y` with weight `p ≥ 0` keeps the inequality
`sum² ≤ n · sumsq` between the three sums. -/
theorem cauchy_step (n sum sumsq y p : K) (hn : 0 ≤ n) (hq : 0 ≤ sumsq)
    (hc : sum ^ 2 ≤ n * sumsq) (hp : 0 ≤ p) :
    (sum + p * y) ^ 2 ≤ (n + p) * (sumsq + p * y * y) := by
  have key : 0 ≤ n * y ^ 2 - 2 * y * sum + sumsq := by
    rcases eq_or_lt_of_le hn with h0 | hpos
    · rw [← h0] at hc ⊢
      have hs : sum = 0 := by
        have : sum ^ 2 ≤ 0 := by simpa using hc
        exact pow_eq_zero_iff (two_ne_zero) |>.mp (le_antisymm this (sq_nonneg _))
      rw [hs]
      simpa using hq
    · have h1 : 0 ≤ n * (n * y ^ 2 - 2 * y * sum + sumsq) := by
        nlinarith [sq_nonneg (n * y - sum)]
      exact nonneg_of_mul_nonneg_right h1 hpos
  nlinarith [mul_nonneg hp key]

/-- On a reachable statistic `n ≥ 0`, `sumsq ≥ 0` and `sum² ≤ n · sumsq`. -/
theorem Reachable.inv {s : GaussianSuf K} (h : Reachable s) :
    0 ≤ s.n_ ∧ 0 ≤ s.sumsq_ ∧ s.sum_ ^ 2 ≤ s.n_ * s.sumsq_ := by
  induction h with
  | empty => simp [GaussianSuf.empty]
  | update_raw s y _ ih =>
    obtain ⟨hn, hq, hc⟩ := ih
    refine ⟨by simp only [GaussianSuf.update_raw]; linarith,
      by simp only [GaussianSuf.update_raw]; nlinarith [mul_self_nonneg y], ?_⟩
    have := cauchy_step s.n_ s.sum_ s.sumsq_ y 1 hn hq hc zero_le_one
    simpa [GaussianSuf.update_raw] using this
  | add_mixture_data s y p hp _ ih =>
    obtain ⟨hn, hq, hc⟩ := ih
    refine ⟨by simp only [GaussianSuf.add_mixture_data]; linarith,
      by simp only [GaussianSuf.add_mixture_data]; nlinarith [mul_nonneg hp (mul_self_nonneg y)],
      ?_⟩
    exact cauchy_step s.n_ s.sum_ s.sumsq_ y p hn hq hc hp

end GaussianSuf

namespace GaussianModel

variable {K : Type} [LinearOrderedField K]

end GaussianModel

/-! ## The one-pass sums of squares in double arithmetic -/

set_option maxRecDepth 100000

namespace GaussianModel

/-- Claim C5, counterexample.  In double arithmetic, for the observations `134217729` and
`134217730` accumulated with `update_raw` and `mu = 134217729.5`, the quantity `SS` that
`Loglike` computes, `sumsq + (-2*sum + n*mu)*mu`, is `-8`, while `Σ (y_i − mu)²`, also when
it is evaluated in double arithmetic, is `1/2`. -/
theorem SS_negative_in_doubles :
    SS (⟨268435459 / 2, 1, GaussianSuf.empty.update_raw_all [134217729, 134217730]⟩ :
        GaussianModel Double) = IEEE.fin (-8)
    ∧ (([134217729, 134217730] : List Double).map (fun y => (y - 268435459 / 2) ^ 2)).sum
        = 1 / 2 := by
  decide

end GaussianModel

namespace ArPosteriorSampler

end ArPosteriorSampler

end BOOM
